import Mathlib

set_option linter.unusedVariables false
set_option maxRecDepth 4000000

namespace ScheduleHelper

/-!
Shallow embedding of the scheduling engine of `schedule-helper`
(`src/backend/app/services/scheduler/smart_scheduler.py` and
`src/backend/app/services/scheduler/task_time_analyzer.py`).

Time is measured in minutes.  A `datetime` is a rational number of minutes
since the epoch midnight (rational because Python datetimes have sub-minute
resolution and project blocks may last a fractional number of minutes).
A `date` is a natural number of days since the epoch; the epoch day (day 0)
is taken to be a Monday, so `d % 7` matches Python's `date.weekday()`
(0 = Monday, 6 = Sunday).
-/

abbrev DateTime := ℚ
abbrev Date := Nat

/-- A half-open time interval `(start, end)`, as used for free slots. -/
abbrev Slot := ℚ × ℚ

/-- `datetime.combine(d, time(h, m))` in minutes since the epoch. -/
def combine (d : Date) (h m : Nat) : DateTime :=
  (d : ℚ) * 1440 + (h : ℚ) * 60 + (m : ℚ)

/-- `t.date()` for a datetime `t` (days since the epoch, as an integer).
Uses the executable `Rat.floor` (equal to `⌊·⌋` by `Rat.floor_def'`). -/
def dtDate (t : DateTime) : Int := (t / 1440).floor

/-- `t.hour` for a (non-negative) datetime `t`. -/
def dtHour (t : DateTime) : Int := (t / 60).floor % 24

/-- `app.models.base.TaskType`. -/
inductive TaskType where
  | project | course | assignment | household | personal | meeting
deriving DecidableEq, Repr

/-- `app.models.calendar.TimeBlockStatus`. -/
inductive TimeBlockStatus where
  | scheduled | confirmed | completed | skipped | rescheduled
deriving DecidableEq, Repr

/-- `app.models.calendar.TimeBlock` (the fields the engine sets). -/
structure TimeBlock where
  task_type : TaskType
  task_id : String
  task_name : String
  start_time : DateTime
  end_time : DateTime
  status : TimeBlockStatus
deriving DecidableEq, Repr

/-- `app.db.tables.ProjectTable` (the columns the engine reads). -/
structure ProjectTable where
  id : String
  name : String
  total_hours_allocated : ℚ
  hours_used : ℚ
  allocation_percentage : ℚ
  is_active : Bool := true
  source_adapter : String := "manual"
deriving DecidableEq, Repr

/-- `app.db.tables.HouseholdTaskTable` (the columns the engine reads). -/
structure HouseholdTaskTable where
  id : String
  name : String
  description : Option String := none
  estimated_duration_minutes : Nat
  recurrence : String
  is_active : Bool := true
deriving DecidableEq, Repr

/-- `app.db.tables.AssignmentTable` (the columns the engine reads). -/
structure AssignmentTable where
  id : String
  name : String
  due_date : DateTime
  is_completed : Bool := false
deriving DecidableEq, Repr

/-- `app.db.tables.ExternalEventTable` (the columns the engine reads). -/
structure ExternalEventTable where
  id : String := ""
  title : String := ""
  start_time : DateTime
  end_time : DateTime
deriving DecidableEq, Repr

/-- `app.db.tables.UserConfigTable` (stored by the scheduler but never read). -/
structure UserConfigTable where
  id : String := ""
  default_work_hours_per_day : ℚ := 8
  min_break_between_blocks_minutes : Nat := 15
  preferred_block_duration_minutes : Nat := 90
  schedule_horizon_days : Nat := 14
deriving DecidableEq, Repr

/-- The timing record returned by `TaskTimeAnalyzer.analyze_task_timing`. -/
structure Timing where
  preferred_time : String
  earliest_hour : Int
  latest_hour : Int
  reasoning : String
deriving DecidableEq, Repr

/-! ### Task time analyzer (`task_time_analyzer.py`)

The HTTP call to the LLM and the JSON extraction are external I/O; they are
modelled by an `Except`-valued outcome.  An `.error` covers every failure up
to and including JSON decoding (timeout, HTTP error, no JSON object found in
the response, ill-formed JSON).  A successfully decoded JSON object is an
`OracleJson`: each required field is `none` when absent from the object. -/

/-- The JSON object extracted from an LLM response, with possibly missing
fields (`_parse_timing_response` checks their presence). -/
structure OracleJson where
  preferred_time : Option String
  earliest_hour : Option Int
  latest_hour : Option Int
  reasoning : Option String
deriving DecidableEq, Repr

/-- The list `valid_times` in `_parse_timing_response`. -/
def valid_times : List String := ["morning", "afternoon", "evening", "anytime"]

/-- The character `|`. -/
def pipeChar : Char := "|".front

/-- The character `/`. -/
def slashChar : Char := "/".front

/-- `TaskTimeAnalyzer._parse_timing_response`, starting from the decoded JSON
object: field-presence check, hour-range checks, `earliest/latest` order
check, coercion of a multi-valued `preferred_time` (containing `|` or `/`)
to `"anytime"`, and the final membership check. -/
def _parse_timing_response (data : OracleJson) : Except String Timing :=
  match data.preferred_time, data.earliest_hour, data.latest_hour, data.reasoning with
  | some pt, some eh, some lh, some rs =>
    if ¬ (0 ≤ eh ∧ eh ≤ 23) then .error "Invalid earliest_hour"
    else if ¬ (0 ≤ lh ∧ lh ≤ 23) then .error "Invalid latest_hour"
    else if eh > lh then .error "earliest_hour > latest_hour"
    else
      let pt := if pt.toList.contains pipeChar || pt.toList.contains slashChar then "anytime" else pt
      if pt ∈ valid_times then .ok ⟨pt, eh, lh, rs⟩
      else .error "Invalid preferred_time"
  | _, _, _, _ => .error "Missing required field"

/-- The fallback record built in `analyze_task_timing`'s `except` branch. -/
def fallback_timing : Timing :=
  ⟨"anytime", 9, 21, "Default scheduling (LLM unavailable)"⟩

/-- `TaskTimeAnalyzer.analyze_task_timing`: call the LLM, parse the response,
and on any raised error return the fallback record instead. -/
def analyze_task_timing (outcome : Except String OracleJson) : Timing :=
  match outcome with
  | .error _ => fallback_timing
  | .ok data =>
    match _parse_timing_response data with
    | .error _ => fallback_timing
    | .ok t => t

/-! ### Smart scheduler (`smart_scheduler.py`) -/

/-- A string-keyed dictionary with rational values (`dict` / `defaultdict(float)`
in the source); only `get`/`[]=`/`+=` are ever used, so an association list
with insert-at-front (most recent binding first) is a faithful model. -/
abbrev QDict := List (String × ℚ)

/-- `m[k] += v` on a `defaultdict(float)`. -/
def qdictAdd (m : QDict) (k : String) (v : ℚ) : QDict :=
  (k, ((m.lookup k).getD 0) + v) :: m

/-- Instance state of `SmartScheduler`.  `__init__` stores the config and
hard-codes the working parameters; the two dictionaries persist on the
instance across calls. -/
structure SmartScheduler where
  config : UserConfigTable
  work_start_hour : Nat
  work_end_hour : Nat
  min_block_minutes : Nat
  household_buffer_minutes : Nat
  scheduled_household_tasks : List (String × Date)
  task_timing_cache : List (String × Timing)
deriving DecidableEq, Repr

/-- `SmartScheduler.__init__`. -/
def SmartScheduler.init (config : UserConfigTable) : SmartScheduler :=
  { config := config
    work_start_hour := 8
    work_end_hour := 16
    min_block_minutes := 30
    household_buffer_minutes := 15
    scheduled_household_tasks := []
    task_timing_cache := [] }

/-- `SmartScheduler._get_life_necessity_blocks` (the `is_weekend` argument is
unused in the source as well). -/
def _get_life_necessity_blocks (target_date : Date) (is_weekend : Bool) : List Slot :=
  [ (combine target_date 7 0, combine target_date 8 0),
    (combine target_date 12 0, combine target_date 13 0),
    (combine target_date 18 0, combine target_date 19 0),
    (combine target_date 21 0, combine target_date 23 59) ]

/-- `SmartScheduler._get_events_for_day`. -/
def _get_events_for_day (external_events : List ExternalEventTable) (target_date : Date) :
    List ExternalEventTable :=
  external_events.filter fun e => dtDate e.start_time == (target_date : Int)

/-- One round of the slot-splitting loop body shared by
`_remove_scheduled_blocks` and `_generate_available_slots`: remove the
blocking interval `b` from every slot, splitting on partial overlap. -/
def subtractIv (b : Slot) (slots : List Slot) : List Slot :=
  slots.flatMap fun s =>
    if b.2 ≤ s.1 ∨ b.1 ≥ s.2 then [s]
    else (if b.1 > s.1 then [(s.1, b.1)] else []) ++ (if b.2 < s.2 then [(b.2, s.2)] else [])

/-- `SmartScheduler._remove_scheduled_blocks`. -/
def _remove_scheduled_blocks (available_slots : List Slot) (scheduled_blocks : List TimeBlock) :
    List Slot :=
  scheduled_blocks.foldl (fun acc b => subtractIv (b.start_time, b.end_time) acc) available_slots

/-- `SmartScheduler._generate_available_slots`. -/
def _generate_available_slots (st : SmartScheduler) (target_date : Date)
    (external_events : List ExternalEventTable) (is_weekend : Bool)
    (work_hours_only : Bool) : List Slot :=
  let life_blocks := _get_life_necessity_blocks target_date is_weekend
  let free_slots : List Slot :=
    if is_weekend then
      [(combine target_date 9 0, combine target_date 21 0)]
    else if work_hours_only then
      [(combine target_date st.work_start_hour 0, combine target_date st.work_end_hour 0)]
    else
      [(combine target_date st.work_end_hour 0, combine target_date 21 0)]
  let free_slots := life_blocks.foldl (fun acc b => subtractIv b acc) free_slots
  let free_slots :=
    external_events.foldl (fun acc e => subtractIv (e.start_time, e.end_time) acc) free_slots
  free_slots.filter fun s => (st.min_block_minutes : ℚ) ≤ s.2 - s.1

/-- `SmartScheduler._should_schedule_task_today`. -/
def _should_schedule_task_today (st : SmartScheduler) (task : HouseholdTaskTable)
    (target_date : Date) : Bool :=
  match st.scheduled_household_tasks.lookup task.id with
  | none => true
  | some last_scheduled =>
    let days_since_last : Int := (target_date : Int) - (last_scheduled : Int)
    if task.recurrence == "daily" then decide (days_since_last ≥ 1)
    else if task.recurrence == "weekly" then decide (days_since_last ≥ 7)
    else if task.recurrence == "biweekly" then decide (days_since_last ≥ 14)
    else if task.recurrence == "monthly" then decide (days_since_last ≥ 30)
    else decide (days_since_last ≥ 7)

/-- `SmartScheduler._task_timing_matches_slot`. -/
def _task_timing_matches_slot (st : SmartScheduler) (task : HouseholdTaskTable)
    (slot_start : DateTime) : Bool :=
  match st.task_timing_cache.lookup task.id with
  | none => true
  | some timing =>
    let slot_hour := dtHour slot_start
    if slot_hour < timing.earliest_hour ∨ slot_hour ≥ timing.latest_hour then false
    else true

/-- `SmartScheduler._create_task_block`.  Besides the optional
`(TimeBlock, remaining_slot)` result it returns the updated instance state
(the source mutates `self.scheduled_household_tasks` on success). -/
def _create_task_block (st : SmartScheduler) (task : HouseholdTaskTable)
    (available_slots : List Slot) (slot_idx : Nat) (target_date : Date) :
    Option (TimeBlock × Option Slot) × SmartScheduler :=
  match available_slots[slot_idx]? with
  | none => (none, st)
  | some slot =>
    let slot_start := slot.1
    let slot_end := slot.2
    if ¬ _task_timing_matches_slot st task slot_start then (none, st)
    else
      let task_end := slot_start + (task.estimated_duration_minutes : ℚ)
      let slot_needed_end := task_end + (st.household_buffer_minutes : ℚ)
      if slot_needed_end ≤ slot_end then
        let block : TimeBlock :=
          { task_type := .household
            task_id := task.id
            task_name := task.name
            start_time := slot_start
            end_time := task_end
            status := .scheduled }
        let st := { st with
          scheduled_household_tasks := (task.id, target_date) :: st.scheduled_household_tasks }
        let remaining_time := slot_end - slot_needed_end
        let remaining_slot : Option Slot :=
          if (st.min_block_minutes : ℚ) ≤ remaining_time then some (slot_needed_end, slot_end)
          else none
        (some (block, remaining_slot), st)
      else (none, st)

/-- Stable insertion used by `sortBy`. -/
def insertSorted (le : α → α → Bool) (a : α) : List α → List α
  | [] => [a]
  | b :: bs => if le a b then a :: b :: bs else b :: insertSorted le a bs

/-- A stable sort (insertion sort), modelling Python's stable `list.sort` /
`sorted` with `le a b = (key a ≤ key b)`. -/
def sortBy (le : α → α → Bool) : List α → List α
  | [] => []
  | a :: rest => insertSorted le a (sortBy le rest)

/-- The sort key `get_timing_flexibility` in
`_schedule_household_tasks_for_day`. -/
def get_timing_flexibility (st : SmartScheduler) (task : HouseholdTaskTable) : Int :=
  match st.task_timing_cache.lookup task.id with
  | some timing => timing.latest_hour - timing.earliest_hour
  | none => 24

/-- Mutable state of the loops of `_schedule_household_tasks_for_day`:
the (mutated) slot list, the slot index, the accumulated blocks, and the
scheduler instance state. -/
structure HHState where
  slots : List Slot
  slot_idx : Nat
  blocks : List TimeBlock
  st : SmartScheduler
deriving DecidableEq, Repr

/-- The daily-task loop of `_schedule_household_tasks_for_day`. -/
def dailyLoop (target_date : Date) : List HouseholdTaskTable → HHState → HHState
  | [], σ => σ
  | task :: rest, σ =>
    if ¬ _should_schedule_task_today σ.st task target_date then dailyLoop target_date rest σ
    else if 2 ≤ σ.blocks.length then σ
    else if σ.slots.length ≤ σ.slot_idx then σ
    else
      match _create_task_block σ.st task σ.slots σ.slot_idx target_date with
      | (none, st) => dailyLoop target_date rest { σ with st := st }
      | (some (tb, some r), st) =>
        dailyLoop target_date rest
          ⟨σ.slots.set σ.slot_idx r, σ.slot_idx, σ.blocks ++ [tb], st⟩
      | (some (tb, none), st) =>
        dailyLoop target_date rest ⟨σ.slots, σ.slot_idx + 1, σ.blocks ++ [tb], st⟩

/-- The periodic-task loop of `_schedule_household_tasks_for_day`
(`periodic_blocks_today` is the counter argument; the limit
`max_periodic_per_day` is 2). -/
def periodicLoop (target_date : Date) :
    List HouseholdTaskTable → Nat → HHState → HHState
  | [], _, σ => σ
  | task :: rest, periodic_blocks_today, σ =>
    if ¬ _should_schedule_task_today σ.st task target_date then
      periodicLoop target_date rest periodic_blocks_today σ
    else if 2 ≤ periodic_blocks_today then σ
    else if 4 ≤ σ.blocks.length then σ
    else if σ.slots.length ≤ σ.slot_idx then σ
    else
      match _create_task_block σ.st task σ.slots σ.slot_idx target_date with
      | (none, st) => periodicLoop target_date rest periodic_blocks_today { σ with st := st }
      | (some (tb, some r), st) =>
        periodicLoop target_date rest (periodic_blocks_today + 1)
          ⟨σ.slots.set σ.slot_idx r, σ.slot_idx, σ.blocks ++ [tb], st⟩
      | (some (tb, none), st) =>
        periodicLoop target_date rest (periodic_blocks_today + 1)
          ⟨σ.slots, σ.slot_idx + 1, σ.blocks ++ [tb], st⟩

/-- `SmartScheduler._schedule_household_tasks_for_day`.  Returns the produced
blocks, the (in-place mutated) slot list and the updated instance state. -/
def _schedule_household_tasks_for_day (st : SmartScheduler)
    (tasks : List HouseholdTaskTable) (target_date : Date) (day_of_week : Nat)
    (available_slots : List Slot) (is_weekend : Bool) :
    List TimeBlock × List Slot × SmartScheduler :=
  let flexLe : HouseholdTaskTable → HouseholdTaskTable → Bool := fun a b =>
    decide (get_timing_flexibility st a ≤ get_timing_flexibility st b)
  let daily_tasks := sortBy flexLe (tasks.filter fun t => t.recurrence == "daily")
  let periodic_tasks := sortBy flexLe (tasks.filter fun t => t.recurrence != "daily")
  let σ := dailyLoop target_date daily_tasks ⟨available_slots, 0, [], st⟩
  let σ := if is_weekend then periodicLoop target_date periodic_tasks 0 σ else σ
  (σ.blocks, σ.slots, σ.st)

/-- The loop of `_schedule_assignments_for_day` over the (at most two)
urgent assignments. -/
def assignLoop (target_date : Date) :
    List AssignmentTable → List Slot → List TimeBlock → List TimeBlock × List Slot
  | [], slots, blocks => (blocks, slots)
  | assignment :: rest, slots, blocks =>
    match slots with
    | [] => (blocks, slots)
    | (slot_start, slot_end) :: slots' =>
      let task_end := slot_start + 120
      if task_end ≤ slot_end then
        let block : TimeBlock :=
          { task_type := .assignment
            task_id := assignment.id
            task_name := assignment.name
            start_time := slot_start
            end_time := task_end
            status := .scheduled }
        let slots'' := if task_end < slot_end then (task_end, slot_end) :: slots' else slots'
        assignLoop target_date rest slots'' (blocks ++ [block])
      else
        assignLoop target_date rest slots' blocks

/-- `SmartScheduler._schedule_assignments_for_day`.  Returns the produced
blocks and the (in-place mutated) slot list. -/
def _schedule_assignments_for_day (assignments : List AssignmentTable)
    (target_date : Date) (available_slots : List Slot) :
    List TimeBlock × List Slot :=
  let urgent_assignments :=
    sortBy (fun a b => decide (a.due_date ≤ b.due_date))
      (assignments.filter fun a => decide (dtDate a.due_date - (target_date : Int) ≤ 7))
  assignLoop target_date (urgent_assignments.take 2) available_slots []

/-- The loop of `_schedule_projects_for_day` over the deficit-sorted
candidates. -/
def projLoop (st : SmartScheduler) (target_date : Date) :
    List (ℚ × ProjectTable) → List Slot → QDict → List TimeBlock →
    List TimeBlock × List Slot × QDict
  | [], slots, sched, blocks => (blocks, slots, sched)
  | (deficit, project) :: rest, slots, sched, blocks =>
    match slots with
    | [] => (blocks, slots, sched)
    | (slot_start, slot_end) :: slots' =>
      let hours_remaining := project.total_hours_allocated - project.hours_used
      let slot_duration_hours := (slot_end - slot_start) / 60
      let block_hours := min (min (min 2 slot_duration_hours) hours_remaining) deficit
      if block_hours < 1 / 2 then
        projLoop st target_date rest ((slot_start, slot_end) :: slots') sched blocks
      else
        let task_end := slot_start + block_hours * 60
        let block : TimeBlock :=
          { task_type := .project
            task_id := project.id
            task_name := project.name
            start_time := slot_start
            end_time := task_end
            status := .scheduled }
        let sched := qdictAdd sched project.id block_hours
        let remaining_time := slot_end - task_end
        let slots'' :=
          if (st.min_block_minutes : ℚ) ≤ remaining_time then (task_end, slot_end) :: slots'
          else slots'
        projLoop st target_date rest slots'' sched (blocks ++ [block])

/-- `SmartScheduler._schedule_projects_for_day`.  Returns the produced blocks,
the (in-place mutated) slot list and the updated `project_hours_scheduled`
dictionary. -/
def _schedule_projects_for_day (st : SmartScheduler) (projects : List ProjectTable)
    (target_date : Date) (available_slots : List Slot)
    (project_monthly_hours : QDict) (project_hours_scheduled : QDict) :
    List TimeBlock × List Slot × QDict :=
  let projects_with_deficit := projects.filterMap fun project =>
    let target_hours := (project_monthly_hours.lookup project.id).getD 0
    let scheduled_hours := (project_hours_scheduled.lookup project.id).getD 0
    let deficit := target_hours - scheduled_hours
    let hours_remaining := project.total_hours_allocated - project.hours_used
    if 0 < deficit ∧ 0 < hours_remaining then some (deficit, project) else none
  let sorted := sortBy (fun a b => decide (b.1 ≤ a.1)) projects_with_deficit
  projLoop st target_date sorted available_slots project_hours_scheduled []

/-- `SmartScheduler._calculate_project_monthly_allocations`. -/
def _calculate_project_monthly_allocations (projects : List ProjectTable)
    (start_date end_date : Date) : QDict :=
  let total_work_hours : ℚ :=
    ((List.range' start_date (end_date + 1 - start_date)).foldl
      (fun acc d => if d % 7 < 5 then acc + 8 else acc) 0 : ℚ)
  projects.foldl
    (fun allocations project =>
      let target_hours := project.allocation_percentage / 100 * total_work_hours
      let hours_remaining := project.total_hours_allocated - project.hours_used
      (project.id, min target_hours hours_remaining) :: allocations)
    []

/-- Accumulator of the day-by-day loop of `generate_schedule`. -/
structure DayAcc where
  blocks : List TimeBlock
  st : SmartScheduler
  project_hours_scheduled : QDict
deriving DecidableEq, Repr

/-- The body of the day-by-day `while` loop of `generate_schedule`. -/
def dayStep (work_projects academic_projects : List ProjectTable)
    (assignments : List AssignmentTable) (household_tasks : List HouseholdTaskTable)
    (external_events : List ExternalEventTable) (project_monthly_hours : QDict)
    (acc : DayAcc) (current_date : Date) : DayAcc :=
  let day_of_week := current_date % 7
  let is_weekend := decide (5 ≤ day_of_week)
  let day_events := _get_events_for_day external_events current_date
  let personal_slots := _generate_available_slots acc.st current_date day_events is_weekend false
  if ¬ is_weekend then
    let (assignment_blocks, personal_slots) :=
      _schedule_assignments_for_day assignments current_date personal_slots
    let remaining_slots := _remove_scheduled_blocks personal_slots assignment_blocks
    let (academic_project_blocks, remaining_slots, _) :=
      _schedule_projects_for_day acc.st academic_projects current_date remaining_slots [] []
    let remaining_slots := _remove_scheduled_blocks remaining_slots academic_project_blocks
    let (household_blocks, _, st) :=
      _schedule_household_tasks_for_day acc.st household_tasks current_date day_of_week
        remaining_slots is_weekend
    let work_slots := _generate_available_slots st current_date day_events is_weekend true
    let (work_project_blocks, _, project_hours_scheduled) :=
      _schedule_projects_for_day st work_projects current_date work_slots
        project_monthly_hours acc.project_hours_scheduled
    { blocks := acc.blocks ++ assignment_blocks ++ academic_project_blocks ++
        household_blocks ++ work_project_blocks
      st := st
      project_hours_scheduled := project_hours_scheduled }
  else
    let (household_blocks, personal_slots, st) :=
      _schedule_household_tasks_for_day acc.st household_tasks current_date day_of_week
        personal_slots is_weekend
    let remaining_slots := _remove_scheduled_blocks personal_slots household_blocks
    let (assignment_blocks, remaining_slots) :=
      _schedule_assignments_for_day assignments current_date remaining_slots
    let remaining_slots := _remove_scheduled_blocks remaining_slots assignment_blocks
    let (academic_project_blocks, remaining_slots, _) :=
      _schedule_projects_for_day st academic_projects current_date remaining_slots [] []
    let remaining_slots := _remove_scheduled_blocks remaining_slots academic_project_blocks
    let (work_project_blocks, _, project_hours_scheduled) :=
      _schedule_projects_for_day st work_projects current_date remaining_slots
        project_monthly_hours acc.project_hours_scheduled
    { blocks := acc.blocks ++ household_blocks ++ assignment_blocks ++
        academic_project_blocks ++ work_project_blocks
      st := st
      project_hours_scheduled := project_hours_scheduled }

/-- `SmartScheduler.generate_schedule`.  The task-timing oracle
(`self.time_analyzer.analyze_task_timing`, external I/O) is abstracted as a
function from tasks to timing records; the pre-loop fills
`self.task_timing_cache` from it.  Returns the block list together with the
instance state as it is when the method returns. -/
def generate_schedule (st0 : SmartScheduler) (oracle : HouseholdTaskTable → Timing)
    (projects : List ProjectTable) (assignments : List AssignmentTable)
    (household_tasks : List HouseholdTaskTable)
    (external_events : List ExternalEventTable)
    (start_date end_date : Date) : List TimeBlock × SmartScheduler :=
  let st := household_tasks.foldl
    (fun s task =>
      if (s.task_timing_cache.lookup task.id).isSome then s
      else { s with task_timing_cache := (task.id, oracle task) :: s.task_timing_cache })
    st0
  let work_projects := projects.filter fun p => p.source_adapter != "document_parser"
  let academic_projects := projects.filter fun p => p.source_adapter == "document_parser"
  let project_monthly_hours :=
    _calculate_project_monthly_allocations work_projects start_date end_date
  let days := List.range' start_date (end_date + 1 - start_date)
  let acc := days.foldl
    (dayStep work_projects academic_projects assignments household_tasks external_events
      project_monthly_hours)
    ⟨[], st, []⟩
  (acc.blocks, acc.st)

/-! ### Interval predicates used by the specification statements -/

/-- Two half-open intervals overlap. -/
def Overlaps (a b : Slot) : Prop := a.1 < b.2 ∧ b.1 < a.2

/-- `a` is contained in `b`. -/
def SubIv (a b : Slot) : Prop := b.1 ≤ a.1 ∧ a.2 ≤ b.2

/-- A property of intervals preserved by shrinking. -/
def MonoIv (P : Slot → Prop) : Prop := ∀ a b, SubIv a b → P b → P a

/-- The interval occupied by a time block. -/
def ivOf (tb : TimeBlock) : Slot := (tb.start_time, tb.end_time)

instance : DecidablePred (fun p : Slot × Slot => Overlaps p.1 p.2) := fun _ => by
  unfold Overlaps; infer_instance

instance (a b : Slot) : Decidable (Overlaps a b) := by unfold Overlaps; infer_instance

/-- The slot predicate carried through a single day's passes: contained in
`[d 00:00, d 21:00]`, disjoint from the day's life-necessity blocks and from
the day's external events. -/
def DayP (d : Date) (devs : List ExternalEventTable) (s : Slot) : Prop :=
  (combine d 0 0 ≤ s.1 ∧ s.2 ≤ combine d 21 0) ∧
  (∀ l ∈ _get_life_necessity_blocks d true, ¬ Overlaps s l) ∧
  (∀ e ∈ devs, ¬ Overlaps s (e.start_time, e.end_time))

/-- Facts established for each block a single day of `generate_schedule`
produces: it lies in the day window, avoids the day's life-necessity blocks
and events, is scheduled, and has the per-type duration of its pass. -/
def GoodBlock (tasks : List HouseholdTaskTable) (d : Date)
    (devs : List ExternalEventTable) (tb : TimeBlock) : Prop :=
  DayP d devs (ivOf tb) ∧ tb.status = .scheduled ∧
  (tb.task_type = .assignment ∧ tb.end_time = tb.start_time + 120 ∨
   tb.task_type = .project ∧ tb.start_time + 30 ≤ tb.end_time ∨
   tb.task_type = .household ∧ ∃ t ∈ tasks, tb.task_id = t.id ∧
     tb.end_time = tb.start_time + (t.estimated_duration_minutes : ℚ))

/-! ### Spec-side definitions (from the claims' wording, for comparison) -/

/-- The recurrence threshold table as the specification states it
(`daily→1, weekly→7, biweekly→14, monthly→30, custom/unknown→7`). -/
def recurrenceThreshold (recurrence : String) : Int :=
  if recurrence == "daily" then 1
  else if recurrence == "weekly" then 7
  else if recurrence == "biweekly" then 14
  else if recurrence == "monthly" then 30
  else 7

/-- Number of weekdays in the inclusive horizon `[sd, ed]`. -/
def weekdaysIn (sd ed : Date) : Nat :=
  ((List.range' sd (ed + 1 - sd)).filter fun d => d % 7 < 5).length

/-- `target_hours` of a proportionally-allocated project, as the
specification defines it:
`min(allocation_percentage/100 × 8 × weekdays-in-horizon,
     total_hours_allocated − hours_used)`. -/
def target_hours (p : ProjectTable) (sd ed : Date) : ℚ :=
  min (p.allocation_percentage / 100 * (8 * (weekdaysIn sd ed : ℚ)))
    (p.total_hours_allocated - p.hours_used)

/-- Cumulative hours of the project blocks for project id `k` in a block
list. -/
def sumHours (k : String) (blocks : List TimeBlock) : ℚ :=
  ((blocks.filter fun tb => tb.task_type == TaskType.project && tb.task_id == k).map
    fun tb => (tb.end_time - tb.start_time) / 60).sum

/-! ### Concrete inputs used in counterexamples and witnesses -/

/-- A timing oracle that always returns the fallback record (the behaviour
of `analyze_task_timing` when the LLM is unreachable). -/
def oracleDefault : HouseholdTaskTable → Timing := fun _ => fallback_timing

/-- A freshly constructed scheduler with an all-default config. -/
def schedulerDefault : SmartScheduler := SmartScheduler.init {}

/-- C4 scenario: scheduler whose work-hour attributes are 9 and 17. -/
def c4_scheduler : SmartScheduler :=
  { SmartScheduler.init {} with work_start_hour := 9, work_end_hour := 17 }

/-- C4 scenario: one external event `[10:00, 11:00)` on day 0 (a Monday). -/
def c4_event : ExternalEventTable :=
  { start_time := combine 0 10 0, end_time := combine 0 11 0 }

/-- C1 counterexample: an event running from Sunday (day 6) 23:00 into
Monday (day 7) 12:00. -/
def c1_event : ExternalEventTable :=
  { start_time := combine 6 23 0, end_time := combine 7 12 0 }

/-- A work project with 100% allocation and 10 remaining hours. -/
def c1_project : ProjectTable :=
  { id := "p1", name := "P", total_hours_allocated := 10, hours_used := 0,
    allocation_percentage := 100 }

/-- C2 counterexample: a project whose `hours_used` exceeds
`total_hours_allocated` by 3 (the engine never enforces
`hours_used ≤ total_hours_allocated`). -/
def c2_project : ProjectTable :=
  { id := "p2", name := "Overspent", total_hours_allocated := 0, hours_used := 3,
    allocation_percentage := 100 }

/-- C5 counterexample: an assignment due on day 2. -/
def c5_assignment : AssignmentTable :=
  { id := "a1", name := "A", due_date := combine 2 0 0 }

/-- C6 counterexample: a daily task estimated at 10 minutes. -/
def c6_task : HouseholdTaskTable :=
  { id := "t1", name := "tiny", estimated_duration_minutes := 10, recurrence := "daily" }

/-- C7 scenario: scheduler whose timing cache maps task `bd` to the
morning window `[7, 14)`. -/
def c7_scheduler : SmartScheduler :=
  { SmartScheduler.init {} with
    task_timing_cache := [("bd", ⟨"morning", 7, 14, "shortly after breakfast"⟩)] }

/-- C7 scenario: the household task "Breakfast dishes". -/
def c7_task : HouseholdTaskTable :=
  { id := "bd", name := "Breakfast dishes", estimated_duration_minutes := 15,
    recurrence := "daily" }

/-- C9 scenario: a daily household task. -/
def c9_task : HouseholdTaskTable :=
  { id := "h1", name := "H", estimated_duration_minutes := 30, recurrence := "daily" }

/-- C9 scenario: first call on a fresh instance, day 0 only. -/
def c9_run1 : List TimeBlock × SmartScheduler :=
  generate_schedule schedulerDefault oracleDefault [] [] [c9_task] [] 0 0

/-- C9 scenario: second call on the same instance with identical inputs. -/
def c9_run2 : List TimeBlock × SmartScheduler :=
  generate_schedule c9_run1.2 oracleDefault [] [] [c9_task] [] 0 0

/-- C3 scenario: a scheduler whose last-scheduled map has task `t` on day 1. -/
def c3_scheduler : SmartScheduler :=
  { SmartScheduler.init {} with scheduled_household_tasks := [("t", 1)] }

/-- C3 scenario: a daily household task with id `t`. -/
def c3_daily : HouseholdTaskTable :=
  { id := "t", name := "T", estimated_duration_minutes := 30, recurrence := "daily" }

/-- C3 scenario: a weekly household task with id `t`. -/
def c3_weekly : HouseholdTaskTable :=
  { id := "t", name := "T", estimated_duration_minutes := 30, recurrence := "weekly" }

/-- The block created in the C7/C10 witness scenario (task `bd` placed at
the front of the slot `[10:00, 11:00)`). -/
def c10_block : TimeBlock := ⟨.household, "bd", "Breakfast dishes", 600, 615, .scheduled⟩

/-- The instance state after the C7/C10 witness placement. -/
def c10_state : SmartScheduler :=
  { c7_scheduler with scheduled_household_tasks := [("bd", 0)] }

/-! ## C3: recurrence admission -/

/-- C3: `_should_schedule_task_today` returns `true` for a task never
scheduled in this session; otherwise it returns `true` exactly when
`today − last_scheduled ≥ threshold(recurrence)` with
`daily→1, weekly→7, biweekly→14, monthly→30, any other value→7`.
In particular a daily task scheduled on day 1 is eligible again on day 2,
and a weekly task scheduled on day 1 is not eligible on day 7 but is
eligible on day 8. -/
theorem should_schedule_today_spec :
    (∀ (st : SmartScheduler) (task : HouseholdTaskTable) (d : Date),
      _should_schedule_task_today st task d = true ↔
        (match st.scheduled_household_tasks.lookup task.id with
         | none => True
         | some last => recurrenceThreshold task.recurrence ≤ (d : Int) - (last : Int))) ∧
    _should_schedule_task_today c3_scheduler c3_daily 2 = true ∧
    _should_schedule_task_today c3_scheduler c3_weekly 7 = false ∧
    _should_schedule_task_today c3_scheduler c3_weekly 8 = true := by
  refine ⟨fun st task d => ?_, by decide, by decide, by decide⟩
  unfold _should_schedule_task_today recurrenceThreshold
  cases st.scheduled_household_tasks.lookup task.id with
  | none => simp
  | some last => split_ifs <;> simp [ge_iff_le]

/-! ## C4: work-hour slot generation scenario -/

/-- C4 counterexample: with the work-hour attributes set to 9 and 17 and one
external event `[10:00, 11:00)` on a weekday, the work-hours slot generator
does not return the two claimed slots `[09:00,10:00)` and `[11:00,17:00)`. -/
theorem work_slots_scenario_counterexample :
    _generate_available_slots c4_scheduler 0 [c4_event] false true ≠
      [(combine 0 9 0, combine 0 10 0), (combine 0 11 0, combine 0 17 0)] :=
  of_decide_eq_true (by with_unfolding_all rfl)

/-- C4 amended: the generator returns the three slots `[09:00,10:00)`,
`[11:00,12:00)` and `[13:00,17:00)`: the fixed lunch block `[12:00,13:00)`
is subtracted from the work hours as well. -/
theorem work_slots_scenario :
    _generate_available_slots c4_scheduler 0 [c4_event] false true =
      [(combine 0 9 0, combine 0 10 0), (combine 0 11 0, combine 0 12 0),
       (combine 0 13 0, combine 0 17 0)] := by
  with_unfolding_all rfl

/-! ## C8: timing-oracle fallback -/

/-- C8 counterexample: the `preferred_time` value `"morning|afternoon"` is
not one of the four recognised values, yet `analyze_task_timing` does not
substitute the fallback record `{anytime, 9, 21}`: it coerces the value to
`"anytime"` and keeps the hours from the response. -/
theorem analyze_task_timing_pipe_counterexample :
    analyze_task_timing (.ok ⟨some "morning|afternoon", some 7, some 14, some "r"⟩) =
      ⟨"anytime", 7, 14, "r"⟩ ∧
    analyze_task_timing (.ok ⟨some "morning|afternoon", some 7, some 14, some "r"⟩) ≠
      fallback_timing := by
  constructor <;> decide

/-- If the timing response parses successfully, `analyze_task_timing`
returns the parsed record. -/
theorem analyze_ok_of_parse {data : OracleJson} {t : Timing}
    (h : _parse_timing_response data = .ok t) :
    analyze_task_timing (.ok data) = t := by
  show (match _parse_timing_response data with
        | Except.error _ => fallback_timing | Except.ok t => t) = t
  rw [h]

/-- If parsing the timing response raises, `analyze_task_timing` returns the
fallback record. -/
theorem analyze_fallback_of_parse {data : OracleJson} {m : String}
    (h : _parse_timing_response data = .error m) :
    analyze_task_timing (.ok data) = fallback_timing := by
  show (match _parse_timing_response data with
        | Except.error _ => fallback_timing | Except.ok t => t) = fallback_timing
  rw [h]

/-- Inversion of a successful `_parse_timing_response`: all fields were
present, the hours were in range and ordered, and the returned
`preferred_time` (after the `|`/`/` coercion) is one of the valid values. -/
theorem parse_ok_cases {data : OracleJson} {t : Timing}
    (h : _parse_timing_response data = .ok t) :
    ∃ pt eh lh rs, data = ⟨some pt, some eh, some lh, some rs⟩ ∧
      0 ≤ eh ∧ eh ≤ 23 ∧ 0 ≤ lh ∧ lh ≤ 23 ∧ eh ≤ lh ∧
      t = ⟨if pt.toList.contains pipeChar || pt.toList.contains slashChar then "anytime"
           else pt, eh, lh, rs⟩ ∧
      t.preferred_time ∈ valid_times := by
  obtain ⟨pt, eh, lh, rs⟩ := data
  cases pt with
  | none => exact absurd h (by simp [_parse_timing_response])
  | some pt =>
  cases eh with
  | none => exact absurd h (by simp [_parse_timing_response])
  | some eh =>
  cases lh with
  | none => exact absurd h (by simp [_parse_timing_response])
  | some lh =>
  cases rs with
  | none => exact absurd h (by simp [_parse_timing_response])
  | some rs =>
  unfold _parse_timing_response at h
  dsimp only at h
  refine ⟨pt, eh, lh, rs, rfl, ?_⟩
  split_ifs at h with h1 h2 h3 h4 h5 h6 <;>
    first
      | exact Except.noConfusion h
      | (injection h with h
         subst h
         refine ⟨h1.1, h1.2, h2.1, h2.2, by omega, by simp at h4 ⊢; simp [h4],
           by assumption⟩)

/-- C8 amended: `analyze_task_timing` returns the fallback record
`{anytime, 9, 21}` whenever the oracle call raises an error, the extracted
JSON object misses a required field, an hour lies outside `[0,23]`,
`earliest_hour > latest_hour`, or `preferred_time` is unrecognised and does
not contain `|` or `/`; a `preferred_time` containing `|` or `/` with
otherwise valid fields is instead coerced to `"anytime"`, keeping the
response's hours. -/
theorem analyze_task_timing_fallback :
    (∀ msg, analyze_task_timing (.error msg) = fallback_timing) ∧
    (∀ data : OracleJson,
      data.preferred_time = none ∨ data.earliest_hour = none ∨
        data.latest_hour = none ∨ data.reasoning = none →
      analyze_task_timing (.ok data) = fallback_timing) ∧
    (∀ pt eh lh rs, ¬ (0 ≤ eh ∧ eh ≤ 23) ∨ ¬ (0 ≤ lh ∧ lh ≤ 23) ∨ lh < eh →
      analyze_task_timing (.ok ⟨some pt, some eh, some lh, some rs⟩) = fallback_timing) ∧
    (∀ pt eh lh rs, pt ∉ valid_times → pt.toList.contains pipeChar = false →
      pt.toList.contains slashChar = false →
      analyze_task_timing (.ok ⟨some pt, some eh, some lh, some rs⟩) = fallback_timing) ∧
    (∀ pt (eh lh : Int) rs,
      (pt.toList.contains pipeChar || pt.toList.contains slashChar) = true →
      0 ≤ eh → eh ≤ 23 → 0 ≤ lh → lh ≤ 23 → eh ≤ lh →
      analyze_task_timing (.ok ⟨some pt, some eh, some lh, some rs⟩) =
        ⟨"anytime", eh, lh, rs⟩) := by
  refine ⟨fun msg => rfl, ?_, ?_, ?_, ?_⟩
  · intro data hmiss
    cases hp : _parse_timing_response data with
    | error m => exact analyze_fallback_of_parse hp
    | ok t =>
      obtain ⟨pt, eh, lh, rs, hdata, -⟩ := parse_ok_cases hp
      subst hdata
      rcases hmiss with h | h | h | h <;> exact Option.noConfusion h
  · intro pt eh lh rs hrange
    cases hp : _parse_timing_response ⟨some pt, some eh, some lh, some rs⟩ with
    | error m => exact analyze_fallback_of_parse hp
    | ok t =>
      obtain ⟨pt', eh', lh', rs', hdata, h1, h2, h3, h4, h5, -⟩ := parse_ok_cases hp
      obtain ⟨rfl, rfl, rfl, rfl⟩ : pt = pt' ∧ eh = eh' ∧ lh = lh' ∧ rs = rs' := by
        injection hdata with a b c d
        exact ⟨Option.some.inj a, Option.some.inj b, Option.some.inj c, Option.some.inj d⟩
      rcases hrange with h | h | h
      · exact absurd ⟨h1, h2⟩ h
      · exact absurd ⟨h3, h4⟩ h
      · omega
  · intro pt eh lh rs hmem hpipe hslash
    cases hp : _parse_timing_response ⟨some pt, some eh, some lh, some rs⟩ with
    | error m => exact analyze_fallback_of_parse hp
    | ok t =>
      obtain ⟨pt', eh', lh', rs', hdata, -, -, -, -, -, ht, hvalid⟩ := parse_ok_cases hp
      have hpt : pt = pt' := by
        injection hdata with a b c d; exact Option.some.inj a
      subst hpt
      rw [hpipe, hslash] at ht
      simp only [Bool.or_self, Bool.false_eq_true, if_false] at ht
      rw [ht] at hvalid
      exact absurd hvalid hmem
  · intro pt eh lh rs hcontains heh0 heh23 hlh0 hlh23 hle
    have hparse : _parse_timing_response ⟨some pt, some eh, some lh, some rs⟩ =
        .ok ⟨"anytime", eh, lh, rs⟩ := by
      unfold _parse_timing_response
      dsimp only
      rw [if_neg (not_not_intro ⟨heh0, heh23⟩), if_neg (not_not_intro ⟨hlh0, hlh23⟩),
        if_neg (by omega : ¬ eh > lh), if_pos hcontains, if_pos (by simp [valid_times])]
    exact analyze_ok_of_parse hparse

/-! ## `_create_task_block` inversion -/

/-- Inversion of a successful `_create_task_block`: the indexed slot exists,
the timing check passed, the task plus buffer fits, the block covers exactly
the task duration from the slot start, the remaining slot starts after the
buffer (or is dropped when less than the minimum remains), and the
last-scheduled map records the task. -/
theorem create_task_block_inv {st : SmartScheduler} {task : HouseholdTaskTable}
    {slots : List Slot} {idx : Nat} {d : Date} {tb : TimeBlock} {rem : Option Slot}
    {st' : SmartScheduler}
    (h : _create_task_block st task slots idx d = (some (tb, rem), st')) :
    ∃ slot, slots[idx]? = some slot ∧
      _task_timing_matches_slot st task slot.1 = true ∧
      slot.1 + (task.estimated_duration_minutes : ℚ) + (st.household_buffer_minutes : ℚ) ≤
        slot.2 ∧
      tb = ⟨.household, task.id, task.name, slot.1,
        slot.1 + (task.estimated_duration_minutes : ℚ), .scheduled⟩ ∧
      rem = (if (st.min_block_minutes : ℚ) ≤ slot.2 -
              (slot.1 + (task.estimated_duration_minutes : ℚ) +
                (st.household_buffer_minutes : ℚ))
             then some (slot.1 + (task.estimated_duration_minutes : ℚ) +
               (st.household_buffer_minutes : ℚ), slot.2)
             else none) ∧
      st' = { st with
        scheduled_household_tasks := (task.id, d) :: st.scheduled_household_tasks } := by
  unfold _create_task_block at h
  cases hs : slots[idx]? with
  | none =>
    rw [hs] at h
    injection h with h1 h2
    exact Option.noConfusion h1
  | some slot =>
    rw [hs] at h
    dsimp only at h
    by_cases ht : _task_timing_matches_slot st task slot.1 = true
    · rw [if_neg (not_not_intro ht)] at h
      split_ifs at h with hfit hrc
      · injection h with h1 h2
        injection h1 with h1
        injection h1 with htb hrem
        exact ⟨slot, rfl, ht, hfit, htb.symm, by rw [if_pos hrc]; exact hrem.symm, h2.symm⟩
      · injection h with h1 h2
        injection h1 with h1
        injection h1 with htb hrem
        exact ⟨slot, rfl, ht, hfit, htb.symm, by rw [if_neg hrc]; exact hrem.symm, h2.symm⟩
      · injection h with h1 h2
        exact Option.noConfusion h1
    · rw [if_pos ht] at h
      injection h with h1 h2
      exact Option.noConfusion h1

/-- On every path, `_create_task_block` leaves all instance state other than
the last-scheduled map unchanged. -/
theorem create_task_block_state {st : SmartScheduler} {task : HouseholdTaskTable}
    {slots : List Slot} {idx : Nat} {d : Date} {r : Option (TimeBlock × Option Slot)}
    {st' : SmartScheduler}
    (h : _create_task_block st task slots idx d = (r, st')) :
    st'.config = st.config ∧
    st'.work_start_hour = st.work_start_hour ∧
    st'.work_end_hour = st.work_end_hour ∧
    st'.min_block_minutes = st.min_block_minutes ∧
    st'.household_buffer_minutes = st.household_buffer_minutes ∧
    st'.task_timing_cache = st.task_timing_cache := by
  unfold _create_task_block at h
  cases hs : slots[idx]? with
  | none =>
    rw [hs] at h
    injection h with h1 h2
    subst h2
    exact ⟨rfl, rfl, rfl, rfl, rfl, rfl⟩
  | some slot =>
    rw [hs] at h
    dsimp only at h
    split_ifs at h
    all_goals
      injection h with h1 h2
      subst h2
      exact ⟨rfl, rfl, rfl, rfl, rfl, rfl⟩

/-! ## C7: timing-window admission -/

/-- C7: a household task is placed into a candidate slot only if the slot's
start hour lies within the half-open window
`[earliest_hour, latest_hour)` of the task's cached timing record; in
particular the task `bd` with window `{7, 14}` is rejected for a slot
starting at 18:00. -/
theorem household_timing_window :
    (∀ (st : SmartScheduler) (task : HouseholdTaskTable) (slots : List Slot) (idx : Nat)
       (d : Date) (timing : Timing) (tb : TimeBlock) (rem : Option Slot)
       (st' : SmartScheduler),
      st.task_timing_cache.lookup task.id = some timing →
      _create_task_block st task slots idx d = (some (tb, rem), st') →
      timing.earliest_hour ≤ dtHour tb.start_time ∧
        dtHour tb.start_time < timing.latest_hour) ∧
    _create_task_block c7_scheduler c7_task [(combine 0 18 0, combine 0 20 0)] 0 0 =
      (none, c7_scheduler) := by
  constructor
  · intro st task slots idx d timing tb rem st' hc h
    obtain ⟨slot, hs, htm, hfit, htb, -, -⟩ := create_task_block_inv h
    subst htb
    unfold _task_timing_matches_slot at htm
    rw [hc] at htm
    dsimp only at htm
    split_ifs at htm with hcond
    push_neg at hcond
    exact hcond
  · with_unfolding_all rfl

/-- Witness for `household_timing_window`: the task `bd` (window `[7,14)`)
placed at the front of the slot `[10:00, 11:00)` has start hour 10, which
lies inside the window. -/
theorem household_timing_window_witness :
    (7 : Int) ≤ dtHour (600 : ℚ) ∧ dtHour (600 : ℚ) < 14 := by
  have h := household_timing_window.1 c7_scheduler c7_task [((600 : ℚ), (660 : ℚ))] 0 0
    ⟨"morning", 7, 14, "shortly after breakfast"⟩ c10_block (some (630, 660)) c10_state
    rfl (by with_unfolding_all rfl)
  exact h

/-! ## C10: placement mechanics and buffer -/

/-- C10: with the configured 15-minute buffer and 30-minute minimum, a
household task is placed in the current slot only when its duration plus the
buffer fits; the emitted block covers exactly the task duration from the
slot start, and the remaining slot starts at the block end plus the buffer,
the slot being consumed entirely when less than the minimum remains after
the buffer — so the buffer minutes are removed from availability without
being covered by any block. -/
theorem create_task_block_mechanics (st : SmartScheduler) (task : HouseholdTaskTable)
    (slots : List Slot) (idx : Nat) (d : Date) (slot : Slot) (tb : TimeBlock)
    (rem : Option Slot) (st' : SmartScheduler)
    (hbuf : st.household_buffer_minutes = 15) (hmin : st.min_block_minutes = 30)
    (hs : slots[idx]? = some slot)
    (h : _create_task_block st task slots idx d = (some (tb, rem), st')) :
    slot.1 + (task.estimated_duration_minutes : ℚ) + 15 ≤ slot.2 ∧
    tb.start_time = slot.1 ∧
    tb.end_time = slot.1 + (task.estimated_duration_minutes : ℚ) ∧
    rem = (if (30 : ℚ) ≤ slot.2 - (tb.end_time + 15)
           then some (tb.end_time + 15, slot.2) else none) := by
  obtain ⟨slot2, hs2, htm, hfit, htb, hrem, hst⟩ := create_task_block_inv h
  rw [hs] at hs2
  injection hs2 with e
  subst e
  subst htb
  rw [hbuf] at hfit
  rw [hbuf, hmin] at hrem
  refine ⟨by exact_mod_cast hfit, rfl, rfl, ?_⟩
  rw [hrem]
  norm_num

/-- Witness for `create_task_block_mechanics`: the 15-minute task `bd`
placed in the slot `[10:00, 11:00)` yields the block `[10:00, 10:15)` and
the remaining slot `[10:30, 11:00)`. -/
theorem create_task_block_mechanics_witness :
    (600 : ℚ) + (c7_task.estimated_duration_minutes : ℚ) + 15 ≤ 660 ∧
    c10_block.start_time = (((600 : ℚ), (660 : ℚ)) : Slot).1 ∧
    c10_block.end_time = 600 + (c7_task.estimated_duration_minutes : ℚ) ∧
    (some ((630 : ℚ), (660 : ℚ)) : Option Slot) =
      (if (30 : ℚ) ≤ 660 - (c10_block.end_time + 15)
       then some (c10_block.end_time + 15, 660) else none) := by
  have h := create_task_block_mechanics c7_scheduler c7_task [((600 : ℚ), (660 : ℚ))] 0 0
    ((600 : ℚ), (660 : ℚ)) c10_block (some (630, 660)) c10_state rfl rfl rfl
    (by with_unfolding_all rfl)
  exact h

/-- Witness for `analyze_task_timing_fallback`: an out-of-range
`earliest_hour` of 25 triggers the fallback record. -/
theorem analyze_task_timing_fallback_witness :
    analyze_task_timing (.ok ⟨some "morning", some 25, some 14, some "r"⟩) =
      fallback_timing :=
  analyze_task_timing_fallback.2.2.1 "morning" 25 14 "r" (Or.inl (by omega))

/-! ## Concrete counterexamples for C1, C2, C5, C6, C9 -/

/-- C5 counterexample: on a weekday with one urgent assignment and one work
project, `generate_schedule` returns the evening assignment block
`[16:00, 18:00)` before the morning work block `[08:00, 10:00)`, so the
output is not sorted chronologically by start time. -/
theorem output_sorted_counterexample :
    ¬ ((generate_schedule schedulerDefault oracleDefault [c1_project] [c5_assignment]
          [] [] 0 0).1.Sorted fun a b => a.start_time ≤ b.start_time) := by
  have h : (generate_schedule schedulerDefault oracleDefault [c1_project] [c5_assignment]
      [] [] 0 0).1 =
      [⟨.assignment, "a1", "A", (960 : ℚ), (1080 : ℚ), .scheduled⟩,
       ⟨.project, "p1", "P", (480 : ℚ), (600 : ℚ), .scheduled⟩] := by
    with_unfolding_all rfl
  rw [h]
  intro hs
  have h2 := (List.sorted_cons.mp hs).1
    ⟨.project, "p1", "P", (480 : ℚ), (600 : ℚ), .scheduled⟩ (by simp)
  norm_num at h2

/-- C6 counterexample: a daily household task estimated at 10 minutes yields
the block `[16:00, 16:10)`, whose duration is shorter than the configured
30-minute minimum. -/
theorem min_duration_counterexample :
    ¬ (∀ tb ∈ (generate_schedule schedulerDefault oracleDefault [] [] [c6_task]
          [] 0 0).1, (30 : ℚ) ≤ tb.end_time - tb.start_time) := by
  have h : (generate_schedule schedulerDefault oracleDefault [] [] [c6_task] [] 0 0).1 =
      [⟨.household, "t1", "tiny", (960 : ℚ), (970 : ℚ), .scheduled⟩] := by
    with_unfolding_all rfl
  rw [h]
  intro hs
  have h2 := hs ⟨.household, "t1", "tiny", (960 : ℚ), (970 : ℚ), .scheduled⟩ (by simp)
  norm_num at h2

/-- C9 counterexample: two calls to `generate_schedule` on the same instance
with identical inputs return different outputs — the first run schedules the
daily task, and the second finds it in the undiscarded last-scheduled map
(`days_since = 0 < 1`) and skips it. -/
theorem session_state_counterexample : c9_run2.1 ≠ c9_run1.1 ∧ c9_run1.1 ≠ [] := by
  have h1 : c9_run1.1 = [⟨.household, "h1", "H", (960 : ℚ), (990 : ℚ), .scheduled⟩] := by
    with_unfolding_all rfl
  have h2 : c9_run2.1 = [] := by
    with_unfolding_all rfl
  rw [h1, h2]
  exact ⟨by simp, by simp⟩

/-- C2 counterexample: for a project whose `hours_used` exceeds
`total_hours_allocated` by 3, `target_hours` is −3; the engine schedules 0
hours for it, which exceeds the target by 3 > 2. -/
theorem capacity_counterexample :
    ¬ (sumHours "p2" (generate_schedule schedulerDefault oracleDefault [c2_project]
          [] [] [] 0 0).1 ≤ target_hours c2_project 0 0 + 2) := by
  have h : (generate_schedule schedulerDefault oracleDefault [c2_project] [] [] [] 0 0).1 =
      [] := by
    with_unfolding_all rfl
  have ht : target_hours c2_project 0 0 = -3 := by
    with_unfolding_all rfl
  have hs : sumHours "p2" ([] : List TimeBlock) = 0 := rfl
  rw [h, ht, hs]
  norm_num

/-- C1 counterexample: the external event `[Sun 23:00, Mon 12:00)` is keyed
to Sunday by `_get_events_for_day` (its start date), so Monday's slots are
not reduced by it, and the emitted work block `[Mon 08:00, 10:00)` overlaps
the event. -/
theorem disjointness_counterexample :
    ∃ tb ∈ (generate_schedule schedulerDefault oracleDefault [c1_project] [] []
        [c1_event] 7 7).1,
      Overlaps (ivOf tb) (c1_event.start_time, c1_event.end_time) := by
  have h : (generate_schedule schedulerDefault oracleDefault [c1_project] [] []
      [c1_event] 7 7).1 =
      [⟨.project, "p1", "P", (10560 : ℚ), (10680 : ℚ), .scheduled⟩] := by
    with_unfolding_all rfl
  rw [h]
  refine ⟨⟨.project, "p1", "P", (10560 : ℚ), (10680 : ℚ), .scheduled⟩, by simp, ?_, ?_⟩
  · show (10560 : ℚ) < c1_event.end_time
    norm_num [c1_event, combine]
  · show c1_event.start_time < (10680 : ℚ)
    norm_num [c1_event, combine]

/-! ## Interval and pass lemmas (shared toolkit) -/

theorem ovl_symm {a b : Slot} (h : Overlaps a b) : Overlaps b a := ⟨h.2, h.1⟩

theorem not_ovl_symm {a b : Slot} (h : ¬ Overlaps a b) : ¬ Overlaps b a :=
  fun hh => h ⟨hh.2, hh.1⟩

theorem subIv_refl (a : Slot) : SubIv a a := ⟨le_refl _, le_refl _⟩

theorem subIv_trans {a b c : Slot} (h1 : SubIv a b) (h2 : SubIv b c) : SubIv a c :=
  ⟨le_trans h2.1 h1.1, le_trans h1.2 h2.2⟩

theorem not_ovl_mono_left {a a' b : Slot} (hs : SubIv a' a) (h : ¬ Overlaps a b) :
    ¬ Overlaps a' b :=
  fun hh => h ⟨lt_of_le_of_lt hs.1 hh.1, lt_of_lt_of_le hh.2 hs.2⟩

theorem not_ovl_mono_right {a b b' : Slot} (hs : SubIv b' b) (h : ¬ Overlaps a b) :
    ¬ Overlaps a b' :=
  fun hh => not_ovl_symm h ⟨lt_of_le_of_lt hs.1 hh.2, lt_of_lt_of_le hh.1 hs.2⟩

theorem subtractIv_sub {b : Slot} {slots : List Slot} {x : Slot}
    (hx : x ∈ subtractIv b slots) : ∃ s ∈ slots, SubIv x s := by
  unfold subtractIv at hx
  obtain ⟨s, hsm, hxs⟩ := List.mem_flatMap.mp hx
  refine ⟨s, hsm, ?_⟩
  split_ifs at hxs with h1 h2 h3
  · simp only [List.mem_singleton] at hxs
    subst hxs; exact subIv_refl _
  all_goals push_neg at h1
  all_goals simp only [List.mem_append, List.mem_singleton, List.not_mem_nil,
    or_false, false_or] at hxs
  · rcases hxs with rfl | rfl
    · exact ⟨le_refl _, le_of_lt h1.2⟩
    · exact ⟨le_of_lt h1.1, le_refl _⟩
  · subst hxs; exact ⟨le_refl _, le_of_lt h1.2⟩
  · subst hxs; exact ⟨le_of_lt h1.1, le_refl _⟩

theorem subtractIv_avoids {b : Slot} {slots : List Slot} {x : Slot}
    (hx : x ∈ subtractIv b slots) : ¬ Overlaps x b := by
  unfold subtractIv at hx
  obtain ⟨s, hsm, hxs⟩ := List.mem_flatMap.mp hx
  split_ifs at hxs with h1 h2 h3
  · simp only [List.mem_singleton] at hxs
    subst hxs
    rcases h1 with h | h
    · exact fun hh => absurd hh.1 (not_lt.mpr h)
    · exact fun hh => absurd hh.2 (not_lt.mpr h)
  all_goals simp only [List.mem_append, List.mem_singleton, List.not_mem_nil,
    or_false, false_or] at hxs
  · rcases hxs with rfl | rfl
    · exact fun hh => absurd hh.2 (lt_irrefl _)
    · exact fun hh => absurd hh.1 (lt_irrefl _)
  · subst hxs; exact fun hh => absurd hh.2 (lt_irrefl _)
  · subst hxs; exact fun hh => absurd hh.1 (lt_irrefl _)


theorem subtractIv_sub_singleton {b s x : Slot} (hx : x ∈ subtractIv b [s]) : SubIv x s := by
  obtain ⟨t, ht, h⟩ := subtractIv_sub hx
  simp only [List.mem_singleton] at ht
  subst ht
  exact h

theorem subtractIv_cons (b s : Slot) (slots : List Slot) :
    subtractIv b (s :: slots) = subtractIv b [s] ++ subtractIv b slots := by
  unfold subtractIv
  simp [List.flatMap_cons]

theorem subtractIv_singleton_pairwise {b s : Slot} (hb : b.1 ≤ b.2) :
    (subtractIv b [s]).Pairwise fun a c => ¬ Overlaps a c := by
  unfold subtractIv
  simp only [List.flatMap_cons, List.flatMap_nil, List.append_nil]
  split_ifs with h1 h2 h3
  · exact List.pairwise_singleton _ _
  · simp only [List.singleton_append]
    refine List.Pairwise.cons ?_ (List.pairwise_singleton _ _)
    intro y hy
    simp only [List.mem_singleton] at hy
    subst hy
    exact fun hh => absurd hh.2 (not_lt.mpr hb)
  · simp
  · simp
  · simp

theorem subtractIv_pairwise {b : Slot} (hb : b.1 ≤ b.2) :
    ∀ {slots : List Slot}, (slots.Pairwise fun a c => ¬ Overlaps a c) →
      (subtractIv b slots).Pairwise fun a c => ¬ Overlaps a c
  | [], _ => by unfold subtractIv; simp
  | s :: slots, hp => by
    rw [subtractIv_cons, List.pairwise_append]
    obtain ⟨hhead, htail⟩ := List.pairwise_cons.mp hp
    refine ⟨subtractIv_singleton_pairwise hb, subtractIv_pairwise hb htail, ?_⟩
    intro x hx y hy
    obtain ⟨t, ht, hyt⟩ := subtractIv_sub hy
    exact not_ovl_mono_left (subtractIv_sub_singleton hx)
      (not_ovl_mono_right hyt (hhead t ht))

theorem foldl_subtractIv_sub {β : Type} (f : β → Slot) :
    ∀ (bs : List β) (slots : List Slot) (x : Slot),
      x ∈ bs.foldl (fun acc e => subtractIv (f e) acc) slots → ∃ s ∈ slots, SubIv x s
  | [], slots, x, hx => ⟨x, hx, subIv_refl x⟩
  | e :: bs, slots, x, hx => by
    obtain ⟨s', hs', hsub⟩ := foldl_subtractIv_sub f bs (subtractIv (f e) slots) x hx
    obtain ⟨s, hs, hsub2⟩ := subtractIv_sub hs'
    exact ⟨s, hs, subIv_trans hsub hsub2⟩

theorem foldl_subtractIv_avoids {β : Type} (f : β → Slot) :
    ∀ (bs : List β) (slots : List Slot) (x : Slot),
      x ∈ bs.foldl (fun acc e => subtractIv (f e) acc) slots →
      ∀ e ∈ bs, ¬ Overlaps x (f e)
  | [], slots, x, hx, e, he => absurd he (List.not_mem_nil e)
  | e0 :: bs, slots, x, hx, e, he => by
    rcases List.mem_cons.mp he with rfl | he2
    · obtain ⟨s', hs', hsub⟩ := foldl_subtractIv_sub f bs (subtractIv (f e) slots) x hx
      exact not_ovl_mono_left hsub (subtractIv_avoids hs')
    · exact foldl_subtractIv_avoids f bs (subtractIv (f e0) slots) x hx e he2

theorem foldl_subtractIv_pairwise {β : Type} (f : β → Slot) :
    ∀ (bs : List β) (slots : List Slot),
      (slots.Pairwise fun a c => ¬ Overlaps a c) →
      (∀ e ∈ bs, (f e).1 ≤ (f e).2) →
      ((bs.foldl (fun acc e => subtractIv (f e) acc) slots).Pairwise
        fun a c => ¬ Overlaps a c)
  | [], slots, hp, _ => hp
  | e :: bs, slots, hp, hb =>
    foldl_subtractIv_pairwise f bs (subtractIv (f e) slots)
      (subtractIv_pairwise (hb e (List.mem_cons_self e bs)) hp)
      (fun e2 he2 => hb e2 (List.mem_cons_of_mem e he2))

theorem combine_le_combine {d : Date} {h1 m1 h2 m2 : Nat}
    (hle : h1 * 60 + m1 ≤ h2 * 60 + m2) :
    combine d h1 m1 ≤ combine d h2 m2 := by
  unfold combine
  have hq : ((h1 * 60 + m1 : Nat) : ℚ) ≤ ((h2 * 60 + m2 : Nat) : ℚ) := by exact_mod_cast hle
  push_cast at hq ⊢
  linarith

theorem combine_day_le (d : Date) (h m : Nat) : combine d 0 0 ≤ combine d h m := by
  have : (0:Nat) * 60 + 0 ≤ h * 60 + m := by omega
  exact combine_le_combine this

theorem combine_le_next_day (d : Date) {h m : Nat} (hh : h * 60 + m ≤ 1440) :
    combine d h m ≤ combine (d + 1) 0 0 := by
  unfold combine
  have hq : ((h * 60 + m : Nat) : ℚ) ≤ 1440 := by exact_mod_cast hh
  push_cast at hq ⊢
  linarith

theorem life_blocks_proper {d : Date} {w : Bool} :
    ∀ l ∈ _get_life_necessity_blocks d w, l.1 ≤ l.2 := by
  intro l hl
  unfold _get_life_necessity_blocks at hl
  simp only [List.mem_cons, List.not_mem_nil, or_false] at hl
  rcases hl with rfl | rfl | rfl | rfl <;> exact combine_le_combine (by norm_num)

theorem gen_slots_facts {st : SmartScheduler} {d : Date} {evs : List ExternalEventTable}
    {w m : Bool} {s : Slot} (hs : s ∈ _generate_available_slots st d evs w m) :
    (st.min_block_minutes : ℚ) ≤ s.2 - s.1 ∧
    (∀ l ∈ _get_life_necessity_blocks d w, ¬ Overlaps s l) ∧
    (∀ e ∈ evs, ¬ Overlaps s (e.start_time, e.end_time)) ∧
    ∃ base, SubIv s base ∧
      (base = (combine d 9 0, combine d 21 0) ∨
       base = (combine d st.work_start_hour 0, combine d st.work_end_hour 0) ∨
       base = (combine d st.work_end_hour 0, combine d 21 0)) := by
  unfold _generate_available_slots at hs
  dsimp only at hs
  obtain ⟨hmem, hmin⟩ := List.mem_filter.mp hs
  refine ⟨of_decide_eq_true hmin, ?_, ?_, ?_⟩
  · intro l hl
    obtain ⟨s1, hs1, hsub1⟩ :=
      foldl_subtractIv_sub (fun e : ExternalEventTable => (e.start_time, e.end_time))
        evs _ s hmem
    exact not_ovl_mono_left hsub1
      (foldl_subtractIv_avoids (fun b : Slot => b) _ _ s1 hs1 l hl)
  · intro e he
    exact foldl_subtractIv_avoids (fun e : ExternalEventTable => (e.start_time, e.end_time))
      evs _ s hmem e he
  · obtain ⟨s1, hs1, hsub1⟩ :=
      foldl_subtractIv_sub (fun e : ExternalEventTable => (e.start_time, e.end_time))
        evs _ s hmem
    obtain ⟨s2, hs2, hsub2⟩ := foldl_subtractIv_sub (fun b : Slot => b) _ _ s1 hs1
    split_ifs at hs2 with h1 h2
    · simp only [List.mem_singleton] at hs2
      exact ⟨_, hs2 ▸ subIv_trans hsub1 hsub2, Or.inl rfl⟩
    · simp only [List.mem_singleton] at hs2
      exact ⟨_, hs2 ▸ subIv_trans hsub1 hsub2, Or.inr (Or.inl rfl)⟩
    · simp only [List.mem_singleton] at hs2
      exact ⟨_, hs2 ▸ subIv_trans hsub1 hsub2, Or.inr (Or.inr rfl)⟩

theorem gen_slots_pairwise {st : SmartScheduler} {d : Date} {evs : List ExternalEventTable}
    {w m : Bool} (hev : ∀ e ∈ evs, e.start_time ≤ e.end_time) :
    (_generate_available_slots st d evs w m).Pairwise fun a c => ¬ Overlaps a c := by
  unfold _generate_available_slots
  dsimp only
  apply List.Pairwise.filter
  apply foldl_subtractIv_pairwise (fun e : ExternalEventTable => (e.start_time, e.end_time))
  · apply foldl_subtractIv_pairwise (fun b : Slot => b)
    · split_ifs <;> exact List.pairwise_singleton _ _
    · exact life_blocks_proper
  · exact hev

theorem insertSorted_perm {α : Type} (le : α → α → Bool) (a : α) :
    ∀ l : List α, (insertSorted le a l).Perm (a :: l)
  | [] => List.Perm.refl _
  | b :: bs => by
    unfold insertSorted
    split_ifs
    · exact List.Perm.refl _
    · exact ((insertSorted_perm le a bs).cons b).trans (List.Perm.swap a b bs)

theorem sortBy_perm {α : Type} (le : α → α → Bool) :
    ∀ l : List α, (sortBy le l).Perm l
  | [] => List.Perm.refl _
  | a :: rest => by
    unfold sortBy
    exact (insertSorted_perm le a (sortBy le rest)).trans ((sortBy_perm le rest).cons a)

theorem mem_sortBy {α : Type} {le : α → α → Bool} {l : List α} {a : α} :
    a ∈ sortBy le l ↔ a ∈ l :=
  (sortBy_perm le l).mem_iff

theorem remove_blocks_sub {slots : List Slot} {blocks : List TimeBlock} {x : Slot}
    (hx : x ∈ _remove_scheduled_blocks slots blocks) : ∃ s ∈ slots, SubIv x s :=
  foldl_subtractIv_sub (fun b : TimeBlock => (b.start_time, b.end_time)) blocks slots x hx

theorem remove_blocks_avoids {slots : List Slot} {blocks : List TimeBlock} {x : Slot}
    (hx : x ∈ _remove_scheduled_blocks slots blocks) :
    ∀ b ∈ blocks, ¬ Overlaps x (b.start_time, b.end_time) :=
  foldl_subtractIv_avoids (fun b : TimeBlock => (b.start_time, b.end_time)) blocks slots x hx

theorem remove_blocks_pairwise {slots : List Slot} {blocks : List TimeBlock}
    (hp : slots.Pairwise fun a c => ¬ Overlaps a c)
    (hb : ∀ b ∈ blocks, b.start_time ≤ b.end_time) :
    (_remove_scheduled_blocks slots blocks).Pairwise fun a c => ¬ Overlaps a c :=
  foldl_subtractIv_pairwise (fun b : TimeBlock => (b.start_time, b.end_time)) blocks slots hp hb


theorem assignLoop_nil (d : Date) (slots : List Slot) (acc : List TimeBlock) :
    assignLoop d [] slots acc = (acc, slots) := rfl

theorem assignLoop_cons_nil (d : Date) (a : AssignmentTable) (rest : List AssignmentTable)
    (acc : List TimeBlock) : assignLoop d (a :: rest) [] acc = (acc, []) := rfl

theorem assignLoop_cons (d : Date) (a : AssignmentTable) (rest : List AssignmentTable)
    (s e : ℚ) (slots' : List Slot) (acc : List TimeBlock) :
    assignLoop d (a :: rest) ((s, e) :: slots') acc =
      if s + 120 ≤ e then
        assignLoop d rest (if s + 120 < e then (s + 120, e) :: slots' else slots')
          (acc ++ [⟨.assignment, a.id, a.name, s, s + 120, .scheduled⟩])
      else assignLoop d rest slots' acc := rfl

theorem assignLoop_P (P : Slot → Prop) (hmono : ∀ a b, SubIv a b → P b → P a) (d : Date) :
    ∀ (l : List AssignmentTable) (slots : List Slot) (acc : List TimeBlock),
      (∀ s ∈ slots, P s) → (∀ tb ∈ acc, P (ivOf tb)) →
      (∀ tb ∈ (assignLoop d l slots acc).1, P (ivOf tb)) ∧
      (∀ s ∈ (assignLoop d l slots acc).2, P s) := by
  intro l
  induction l with
  | nil =>
    intro slots acc hs ha
    rw [assignLoop_nil]
    exact ⟨ha, hs⟩
  | cons a rest ih =>
    intro slots acc hs ha
    match slots with
    | [] =>
      rw [assignLoop_cons_nil]
      exact ⟨ha, fun s h => (List.not_mem_nil s h).elim⟩
    | (s, e) :: slots' =>
      rw [assignLoop_cons]
      have hblocks : ∀ tb ∈ acc ++ [(⟨.assignment, a.id, a.name, s, s + 120,
          .scheduled⟩ : TimeBlock)], s + 120 ≤ e → P (ivOf tb) := by
        intro tb htb hfit
        rcases List.mem_append.mp htb with htb | htb
        · exact ha tb htb
        · simp only [List.mem_singleton] at htb
          subst htb
          exact hmono _ _ (show SubIv (s, s + 120) (s, e) from ⟨le_refl s, show s + 120 ≤ e from hfit⟩)
            (hs (s, e) (List.mem_cons_self _ _))
      split_ifs with hfit hlt
      · apply ih
        · intro x hx
          rcases List.mem_cons.mp hx with rfl | hx2
          · exact hmono _ _ (show SubIv (s + 120, e) (s, e) from ⟨show s ≤ s + 120 by linarith, le_refl e⟩)
              (hs (s, e) (List.mem_cons_self _ _))
          · exact hs x (List.mem_cons_of_mem _ hx2)
        · exact fun tb htb => hblocks tb htb hfit
      · exact ih slots' (acc ++ [⟨.assignment, a.id, a.name, s, s + 120, .scheduled⟩])
          (fun x hx => hs x (List.mem_cons_of_mem _ hx)) (fun tb htb => hblocks tb htb hfit)
      · exact ih slots' acc (fun x hx => hs x (List.mem_cons_of_mem _ hx)) ha

theorem assignLoop_shape (d : Date) :
    ∀ (l : List AssignmentTable) (slots : List Slot) (acc : List TimeBlock),
      ∀ tb ∈ (assignLoop d l slots acc).1, tb ∈ acc ∨
        (tb.task_type = .assignment ∧ tb.status = .scheduled ∧
          tb.end_time = tb.start_time + 120) := by
  intro l
  induction l with
  | nil =>
    intro slots acc tb htb
    rw [assignLoop_nil] at htb
    exact Or.inl htb
  | cons a rest ih =>
    intro slots acc tb htb
    match slots with
    | [] =>
      rw [assignLoop_cons_nil] at htb
      exact Or.inl htb
    | (s, e) :: slots' =>
      rw [assignLoop_cons] at htb
      split_ifs at htb with hfit hlt
      · rcases ih _ _ tb htb with hin | hshape
        · rcases List.mem_append.mp hin with h | h
          · exact Or.inl h
          · simp only [List.mem_singleton] at h
            subst h
            exact Or.inr ⟨rfl, rfl, rfl⟩
        · exact Or.inr hshape
      · rcases ih _ _ tb htb with hin | hshape
        · rcases List.mem_append.mp hin with h | h
          · exact Or.inl h
          · simp only [List.mem_singleton] at h
            subst h
            exact Or.inr ⟨rfl, rfl, rfl⟩
        · exact Or.inr hshape
      · exact ih _ _ tb htb

theorem assignLoop_disjoint (d : Date) :
    ∀ (l : List AssignmentTable) (slots : List Slot) (acc : List TimeBlock),
      (slots.Pairwise fun a c => ¬ Overlaps a c) →
      (∀ tb ∈ acc, ∀ x ∈ slots, ¬ Overlaps (ivOf tb) x) →
      (acc.Pairwise fun a c => ¬ Overlaps (ivOf a) (ivOf c)) →
      ((assignLoop d l slots acc).1.Pairwise fun a c => ¬ Overlaps (ivOf a) (ivOf c)) ∧
      ((assignLoop d l slots acc).2.Pairwise fun a c => ¬ Overlaps a c) ∧
      (∀ tb ∈ (assignLoop d l slots acc).1, ∀ x ∈ (assignLoop d l slots acc).2,
        ¬ Overlaps (ivOf tb) x) := by
  intro l
  induction l with
  | nil =>
    intro slots acc hsp hbs hbp
    rw [assignLoop_nil]
    exact ⟨hbp, hsp, hbs⟩
  | cons a rest ih =>
    intro slots acc hsp hbs hbp
    match slots with
    | [] =>
      rw [assignLoop_cons_nil]
      exact ⟨hbp, List.Pairwise.nil, fun tb _ x hx => (List.not_mem_nil x hx).elim⟩
    | (s, e) :: slots' =>
      obtain ⟨hhead, htail⟩ := List.pairwise_cons.mp hsp
      rw [assignLoop_cons]
      have hacc_head : ∀ tb ∈ acc, ¬ Overlaps (ivOf tb) (s, e) :=
        fun tb htb => hbs tb htb (s, e) (List.mem_cons_self _ _)
      have hacc_tail : ∀ tb ∈ acc, ∀ x ∈ slots', ¬ Overlaps (ivOf tb) x :=
        fun tb htb x hx => hbs tb htb x (List.mem_cons_of_mem _ hx)
      split_ifs with hfit hlt
      · -- fits, leftover slot re-inserted
        have hblk_sub : SubIv ((s : ℚ), s + 120) (s, e) :=
          ⟨le_refl s, show s + 120 ≤ e from hfit⟩
        apply ih
        · refine List.Pairwise.cons ?_ htail
          intro t ht
          exact not_ovl_mono_left ⟨show s ≤ s + 120 by linarith, le_refl e⟩ (hhead t ht)
        · intro tb htb x hx
          rcases List.mem_append.mp htb with htb | htb
          · rcases List.mem_cons.mp hx with rfl | hx2
            · exact not_ovl_mono_right ⟨show s ≤ s + 120 by linarith, le_refl e⟩
                (hacc_head tb htb)
            · exact hacc_tail tb htb x hx2
          · simp only [List.mem_singleton] at htb
            subst htb
            rcases List.mem_cons.mp hx with rfl | hx2
            · exact fun hh => absurd hh.2 (lt_irrefl _)
            · exact not_ovl_mono_left hblk_sub (hhead x hx2)
        · rw [List.pairwise_append]
          refine ⟨hbp, List.pairwise_singleton _ _, ?_⟩
          intro tb htb blk hblk
          simp only [List.mem_singleton] at hblk
          subst hblk
          exact not_ovl_mono_right hblk_sub (hacc_head tb htb)
      · -- fits exactly, slot consumed
        have hblk_sub : SubIv ((s : ℚ), s + 120) (s, e) :=
          ⟨le_refl s, show s + 120 ≤ e from hfit⟩
        apply ih
        · exact htail
        · intro tb htb x hx
          rcases List.mem_append.mp htb with htb | htb
          · exact hacc_tail tb htb x hx
          · simp only [List.mem_singleton] at htb
            subst htb
            exact not_ovl_mono_left hblk_sub (hhead x hx)
        · rw [List.pairwise_append]
          refine ⟨hbp, List.pairwise_singleton _ _, ?_⟩
          intro tb htb blk hblk
          simp only [List.mem_singleton] at hblk
          subst hblk
          exact not_ovl_mono_right hblk_sub (hacc_head tb htb)
      · exact ih slots' acc htail hacc_tail hbp

theorem projLoop_nil (st : SmartScheduler) (d : Date) (slots : List Slot) (sched : QDict)
    (acc : List TimeBlock) : projLoop st d [] slots sched acc = (acc, slots, sched) := rfl

theorem projLoop_cons_nil (st : SmartScheduler) (d : Date) (c : ℚ × ProjectTable)
    (rest : List (ℚ × ProjectTable)) (sched : QDict) (acc : List TimeBlock) :
    projLoop st d (c :: rest) [] sched acc = (acc, [], sched) := by
  obtain ⟨deficit, p⟩ := c
  rfl

theorem projLoop_cons (st : SmartScheduler) (d : Date) (deficit : ℚ) (p : ProjectTable)
    (rest : List (ℚ × ProjectTable)) (s e : ℚ) (slots' : List Slot) (sched : QDict)
    (acc : List TimeBlock) :
    projLoop st d ((deficit, p) :: rest) ((s, e) :: slots') sched acc =
      (if min (min (min 2 ((e - s) / 60)) (p.total_hours_allocated - p.hours_used))
            deficit < 1 / 2 then
        projLoop st d rest ((s, e) :: slots') sched acc
      else
        projLoop st d rest
          (if (st.min_block_minutes : ℚ) ≤ e - (s + min (min (min 2 ((e - s) / 60))
              (p.total_hours_allocated - p.hours_used)) deficit * 60)
           then (s + min (min (min 2 ((e - s) / 60))
              (p.total_hours_allocated - p.hours_used)) deficit * 60, e) :: slots'
           else slots')
          (qdictAdd sched p.id (min (min (min 2 ((e - s) / 60))
            (p.total_hours_allocated - p.hours_used)) deficit))
          (acc ++ [⟨.project, p.id, p.name, s,
            s + min (min (min 2 ((e - s) / 60))
              (p.total_hours_allocated - p.hours_used)) deficit * 60, .scheduled⟩])) := rfl

theorem bh_mul_le {s e hr deficit : ℚ} :
    s + min (min (min 2 ((e - s) / 60)) hr) deficit * 60 ≤ e := by
  have h1 : min (min (min 2 ((e - s) / 60)) hr) deficit ≤ (e - s) / 60 :=
    le_trans (min_le_left _ _) (le_trans (min_le_left _ _) (min_le_right _ _))
  have h2 : min (min (min 2 ((e - s) / 60)) hr) deficit * 60 ≤ ((e - s) / 60) * 60 :=
    mul_le_mul_of_nonneg_right h1 (by norm_num)
  have h3 : ((e - s) / 60) * 60 = e - s := div_mul_cancel₀ _ (by norm_num)
  linarith

theorem bh_ge_30 {bh : ℚ} (h : ¬ bh < 1 / 2) : (30 : ℚ) ≤ bh * 60 := by
  push_neg at h
  have := mul_le_mul_of_nonneg_right h (show (0:ℚ) ≤ 60 by norm_num)
  linarith

theorem projLoop_P (P : Slot → Prop) (hmono : ∀ a b, SubIv a b → P b → P a)
    (st : SmartScheduler) (d : Date) :
    ∀ (l : List (ℚ × ProjectTable)) (slots : List Slot) (sched : QDict)
      (acc : List TimeBlock),
      (∀ s ∈ slots, P s) → (∀ tb ∈ acc, P (ivOf tb)) →
      (∀ tb ∈ (projLoop st d l slots sched acc).1, P (ivOf tb)) ∧
      (∀ s ∈ (projLoop st d l slots sched acc).2.1, P s) := by
  intro l
  induction l with
  | nil =>
    intro slots sched acc hs ha
    rw [projLoop_nil]
    exact ⟨ha, hs⟩
  | cons c rest ih =>
    obtain ⟨deficit, p⟩ := c
    intro slots sched acc hs ha
    match slots with
    | [] =>
      rw [projLoop_cons_nil]
      exact ⟨ha, fun x hx => (List.not_mem_nil x hx).elim⟩
    | (s, e) :: slots' =>
      rw [projLoop_cons]
      split_ifs with hsmall hrem
      · exact ih _ _ _ hs ha
      · apply ih
        · intro x hx
          rcases List.mem_cons.mp hx with rfl | hx2
          · refine hmono _ _ ?_ (hs (s, e) (List.mem_cons_self _ _))
            refine ⟨?_, le_refl e⟩
            show s ≤ s + _ * 60
            have := bh_ge_30 hsmall
            linarith
          · exact hs x (List.mem_cons_of_mem _ hx2)
        · intro tb htb
          rcases List.mem_append.mp htb with htb | htb
          · exact ha tb htb
          · simp only [List.mem_singleton] at htb
            subst htb
            refine hmono _ _ ?_ (hs (s, e) (List.mem_cons_self _ _))
            exact ⟨le_refl s, bh_mul_le⟩
      · apply ih
        · intro x hx
          exact hs x (List.mem_cons_of_mem _ hx)
        · intro tb htb
          rcases List.mem_append.mp htb with htb | htb
          · exact ha tb htb
          · simp only [List.mem_singleton] at htb
            subst htb
            refine hmono _ _ ?_ (hs (s, e) (List.mem_cons_self _ _))
            exact ⟨le_refl s, bh_mul_le⟩

theorem projLoop_shape (st : SmartScheduler) (d : Date) :
    ∀ (l : List (ℚ × ProjectTable)) (slots : List Slot) (sched : QDict)
      (acc : List TimeBlock),
      ∀ tb ∈ (projLoop st d l slots sched acc).1, tb ∈ acc ∨
        (tb.task_type = .project ∧ tb.status = .scheduled ∧
          tb.start_time + 30 ≤ tb.end_time) := by
  intro l
  induction l with
  | nil =>
    intro slots sched acc tb htb
    rw [projLoop_nil] at htb
    exact Or.inl htb
  | cons c rest ih =>
    obtain ⟨deficit, p⟩ := c
    intro slots sched acc tb htb
    match slots with
    | [] =>
      rw [projLoop_cons_nil] at htb
      exact Or.inl htb
    | (s, e) :: slots' =>
      rw [projLoop_cons] at htb
      split_ifs at htb with hsmall hrem
      · exact ih _ _ _ tb htb
      · rcases ih _ _ _ tb htb with hin | hshape
        · rcases List.mem_append.mp hin with h | h
          · exact Or.inl h
          · simp only [List.mem_singleton] at h
            subst h
            refine Or.inr ⟨rfl, rfl, ?_⟩
            show s + 30 ≤ s + _ * 60
            have := bh_ge_30 hsmall
            linarith
        · exact Or.inr hshape
      · rcases ih _ _ _ tb htb with hin | hshape
        · rcases List.mem_append.mp hin with h | h
          · exact Or.inl h
          · simp only [List.mem_singleton] at h
            subst h
            refine Or.inr ⟨rfl, rfl, ?_⟩
            show s + 30 ≤ s + _ * 60
            have := bh_ge_30 hsmall
            linarith
        · exact Or.inr hshape

theorem projLoop_disjoint (st : SmartScheduler) (d : Date) :
    ∀ (l : List (ℚ × ProjectTable)) (slots : List Slot) (sched : QDict)
      (acc : List TimeBlock),
      (slots.Pairwise fun a c => ¬ Overlaps a c) →
      (∀ tb ∈ acc, ∀ x ∈ slots, ¬ Overlaps (ivOf tb) x) →
      (acc.Pairwise fun a c => ¬ Overlaps (ivOf a) (ivOf c)) →
      ((projLoop st d l slots sched acc).1.Pairwise
        fun a c => ¬ Overlaps (ivOf a) (ivOf c)) ∧
      ((projLoop st d l slots sched acc).2.1.Pairwise fun a c => ¬ Overlaps a c) ∧
      (∀ tb ∈ (projLoop st d l slots sched acc).1,
        ∀ x ∈ (projLoop st d l slots sched acc).2.1, ¬ Overlaps (ivOf tb) x) := by
  intro l
  induction l with
  | nil =>
    intro slots sched acc hsp hbs hbp
    rw [projLoop_nil]
    exact ⟨hbp, hsp, hbs⟩
  | cons c rest ih =>
    obtain ⟨deficit, p⟩ := c
    intro slots sched acc hsp hbs hbp
    match slots with
    | [] =>
      rw [projLoop_cons_nil]
      exact ⟨hbp, List.Pairwise.nil, fun tb _ x hx => (List.not_mem_nil x hx).elim⟩
    | (s, e) :: slots' =>
      obtain ⟨hhead, htail⟩ := List.pairwise_cons.mp hsp
      have hacc_head : ∀ tb ∈ acc, ¬ Overlaps (ivOf tb) (s, e) :=
        fun tb htb => hbs tb htb (s, e) (List.mem_cons_self _ _)
      have hacc_tail : ∀ tb ∈ acc, ∀ x ∈ slots', ¬ Overlaps (ivOf tb) x :=
        fun tb htb x hx => hbs tb htb x (List.mem_cons_of_mem _ hx)
      rw [projLoop_cons]
      split_ifs with hsmall hrem
      · exact ih _ _ _ hsp hbs hbp
      · have hblk_sub : SubIv (s, s + min (min (min 2 ((e - s) / 60))
            (p.total_hours_allocated - p.hours_used)) deficit * 60) (s, e) :=
          ⟨le_refl s, bh_mul_le⟩
        apply ih
        · refine List.Pairwise.cons ?_ htail
          intro t ht
          refine not_ovl_mono_left ⟨?_, le_refl e⟩ (hhead t ht)
          show s ≤ s + _ * 60
          have := bh_ge_30 hsmall
          linarith
        · intro tb htb x hx
          rcases List.mem_append.mp htb with htb | htb
          · rcases List.mem_cons.mp hx with rfl | hx2
            · refine not_ovl_mono_right ⟨?_, le_refl e⟩ (hacc_head tb htb)
              show s ≤ s + _ * 60
              have := bh_ge_30 hsmall
              linarith
            · exact hacc_tail tb htb x hx2
          · simp only [List.mem_singleton] at htb
            subst htb
            rcases List.mem_cons.mp hx with rfl | hx2
            · exact fun hh => absurd hh.2 (lt_irrefl _)
            · exact not_ovl_mono_left hblk_sub (hhead x hx2)
        · rw [List.pairwise_append]
          refine ⟨hbp, List.pairwise_singleton _ _, ?_⟩
          intro tb htb blk hblk
          simp only [List.mem_singleton] at hblk
          subst hblk
          exact not_ovl_mono_right hblk_sub (hacc_head tb htb)
      · have hblk_sub : SubIv (s, s + min (min (min 2 ((e - s) / 60))
            (p.total_hours_allocated - p.hours_used)) deficit * 60) (s, e) :=
          ⟨le_refl s, bh_mul_le⟩
        apply ih
        · exact htail
        · intro tb htb x hx
          rcases List.mem_append.mp htb with htb | htb
          · exact hacc_tail tb htb x hx
          · simp only [List.mem_singleton] at htb
            subst htb
            exact not_ovl_mono_left hblk_sub (hhead x hx)
        · rw [List.pairwise_append]
          refine ⟨hbp, List.pairwise_singleton _ _, ?_⟩
          intro tb htb blk hblk
          simp only [List.mem_singleton] at hblk
          subst hblk
          exact not_ovl_mono_right hblk_sub (hacc_head tb htb)

theorem dailyLoop_nil (d : Date) (σ : HHState) : dailyLoop d [] σ = σ := rfl

theorem dailyLoop_cons (d : Date) (task : HouseholdTaskTable)
    (rest : List HouseholdTaskTable) (σ : HHState) :
    dailyLoop d (task :: rest) σ =
      if ¬ _should_schedule_task_today σ.st task d then dailyLoop d rest σ
      else if 2 ≤ σ.blocks.length then σ
      else if σ.slots.length ≤ σ.slot_idx then σ
      else
        match _create_task_block σ.st task σ.slots σ.slot_idx d with
        | (none, st) => dailyLoop d rest { σ with st := st }
        | (some (tb, some r), st) =>
          dailyLoop d rest ⟨σ.slots.set σ.slot_idx r, σ.slot_idx, σ.blocks ++ [tb], st⟩
        | (some (tb, none), st) =>
          dailyLoop d rest ⟨σ.slots, σ.slot_idx + 1, σ.blocks ++ [tb], st⟩ := rfl

theorem hh_r_sub {st : SmartScheduler} {task : HouseholdTaskTable} {slot : Slot} :
    SubIv (slot.1 + (task.estimated_duration_minutes : ℚ) +
      (st.household_buffer_minutes : ℚ), slot.2) slot := by
  refine ⟨?_, le_refl _⟩
  have h1 : (0 : ℚ) ≤ (task.estimated_duration_minutes : ℚ) := Nat.cast_nonneg _
  have h2 : (0 : ℚ) ≤ (st.household_buffer_minutes : ℚ) := Nat.cast_nonneg _
  show slot.1 ≤ slot.1 + _ + _
  linarith

theorem hh_blk_sub {st : SmartScheduler} {task : HouseholdTaskTable} {slot : Slot}
    (hfit : slot.1 + (task.estimated_duration_minutes : ℚ) +
      (st.household_buffer_minutes : ℚ) ≤ slot.2) :
    SubIv (slot.1, slot.1 + (task.estimated_duration_minutes : ℚ)) slot := by
  refine ⟨le_refl _, ?_⟩
  have h2 : (0 : ℚ) ≤ (st.household_buffer_minutes : ℚ) := Nat.cast_nonneg _
  show slot.1 + _ ≤ slot.2
  linarith

theorem dailyLoop_P (P : Slot → Prop) (hmono : ∀ a b, SubIv a b → P b → P a) (d : Date) :
    ∀ (l : List HouseholdTaskTable) (σ : HHState),
      (∀ s ∈ σ.slots, P s) → (∀ tb ∈ σ.blocks, P (ivOf tb)) →
      (∀ tb ∈ (dailyLoop d l σ).blocks, P (ivOf tb)) ∧
      (∀ s ∈ (dailyLoop d l σ).slots, P s) := by
  intro l
  induction l with
  | nil =>
    intro σ hs hb
    rw [dailyLoop_nil]
    exact ⟨hb, hs⟩
  | cons task rest ih =>
    intro σ hs hb
    rw [dailyLoop_cons]
    split_ifs with h1 h2 h3
    · exact ⟨hb, hs⟩
    · exact ⟨hb, hs⟩
    swap
    · exact ih σ hs hb
    · cases hc : _create_task_block σ.st task σ.slots σ.slot_idx d with
      | mk r st' =>
        match r with
        | none => exact ih _ hs hb
        | some (tb, rem) =>
          obtain ⟨slot, hslot, htm, hfit, htb, hrem, hst⟩ := create_task_block_inv hc
          have hslot_mem : slot ∈ σ.slots := List.getElem?_mem hslot
          have hP_tb : P (ivOf tb) := by
            subst htb
            exact hmono _ _ (hh_blk_sub hfit) (hs slot hslot_mem)
          match rem with
          | some r2 =>
            have hr2 : r2 = (slot.1 + (task.estimated_duration_minutes : ℚ) +
                (σ.st.household_buffer_minutes : ℚ), slot.2) := by
              split_ifs at hrem with hcnd
              exact (Option.some.inj hrem)
            apply ih
            · intro x hx
              rcases List.mem_or_eq_of_mem_set hx with hx2 | rfl
              · exact hs x hx2
              · subst hr2
                exact hmono _ _ hh_r_sub (hs slot hslot_mem)
            · intro tb2 htb2
              rcases List.mem_append.mp htb2 with h | h
              · exact hb tb2 h
              · simp only [List.mem_singleton] at h
                subst h
                exact hP_tb
          | none =>
            apply ih
            · exact hs
            · intro tb2 htb2
              rcases List.mem_append.mp htb2 with h | h
              · exact hb tb2 h
              · simp only [List.mem_singleton] at h
                subst h
                exact hP_tb

theorem periodicLoop_nil (d : Date) (cnt : Nat) (σ : HHState) :
    periodicLoop d [] cnt σ = σ := rfl

theorem periodicLoop_cons (d : Date) (task : HouseholdTaskTable)
    (rest : List HouseholdTaskTable) (cnt : Nat) (σ : HHState) :
    periodicLoop d (task :: rest) cnt σ =
      if ¬ _should_schedule_task_today σ.st task d then periodicLoop d rest cnt σ
      else if 2 ≤ cnt then σ
      else if 4 ≤ σ.blocks.length then σ
      else if σ.slots.length ≤ σ.slot_idx then σ
      else
        match _create_task_block σ.st task σ.slots σ.slot_idx d with
        | (none, st) => periodicLoop d rest cnt { σ with st := st }
        | (some (tb, some r), st) =>
          periodicLoop d rest (cnt + 1)
            ⟨σ.slots.set σ.slot_idx r, σ.slot_idx, σ.blocks ++ [tb], st⟩
        | (some (tb, none), st) =>
          periodicLoop d rest (cnt + 1)
            ⟨σ.slots, σ.slot_idx + 1, σ.blocks ++ [tb], st⟩ := rfl

theorem periodicLoop_P (P : Slot → Prop) (hmono : ∀ a b, SubIv a b → P b → P a)
    (d : Date) :
    ∀ (l : List HouseholdTaskTable) (cnt : Nat) (σ : HHState),
      (∀ s ∈ σ.slots, P s) → (∀ tb ∈ σ.blocks, P (ivOf tb)) →
      (∀ tb ∈ (periodicLoop d l cnt σ).blocks, P (ivOf tb)) ∧
      (∀ s ∈ (periodicLoop d l cnt σ).slots, P s) := by
  intro l
  induction l with
  | nil =>
    intro cnt σ hs hb
    rw [periodicLoop_nil]
    exact ⟨hb, hs⟩
  | cons task rest ih =>
    intro cnt σ hs hb
    rw [periodicLoop_cons]
    split_ifs with h1 h2 h3 h4
    · exact ⟨hb, hs⟩
    · exact ⟨hb, hs⟩
    · exact ⟨hb, hs⟩
    swap
    · exact ih cnt σ hs hb
    · cases hc : _create_task_block σ.st task σ.slots σ.slot_idx d with
      | mk r st' =>
        match r with
        | none => exact ih _ _ hs hb
        | some (tb, rem) =>
          obtain ⟨slot, hslot, htm, hfit, htb, hrem, hst⟩ := create_task_block_inv hc
          have hslot_mem : slot ∈ σ.slots := List.getElem?_mem hslot
          have hP_tb : P (ivOf tb) := by
            subst htb
            exact hmono _ _ (hh_blk_sub hfit) (hs slot hslot_mem)
          match rem with
          | some r2 =>
            have hr2 : r2 = (slot.1 + (task.estimated_duration_minutes : ℚ) +
                (σ.st.household_buffer_minutes : ℚ), slot.2) := by
              split_ifs at hrem with hcnd
              exact (Option.some.inj hrem)
            apply ih
            · intro x hx
              rcases List.mem_or_eq_of_mem_set hx with hx2 | rfl
              · exact hs x hx2
              · subst hr2
                exact hmono _ _ hh_r_sub (hs slot hslot_mem)
            · intro tb2 htb2
              rcases List.mem_append.mp htb2 with h | h
              · exact hb tb2 h
              · simp only [List.mem_singleton] at h
                subst h
                exact hP_tb
          | none =>
            apply ih
            · exact hs
            · intro tb2 htb2
              rcases List.mem_append.mp htb2 with h | h
              · exact hb tb2 h
              · simp only [List.mem_singleton] at h
                subst h
                exact hP_tb

theorem dailyLoop_shape (d : Date) :
    ∀ (l : List HouseholdTaskTable) (σ : HHState),
      ∀ tb ∈ (dailyLoop d l σ).blocks, tb ∈ σ.blocks ∨
        (tb.task_type = .household ∧ tb.status = .scheduled ∧
          ∃ task ∈ l, tb.task_id = task.id ∧
            tb.end_time = tb.start_time + (task.estimated_duration_minutes : ℚ)) := by
  intro l
  induction l with
  | nil =>
    intro σ tb htb
    rw [dailyLoop_nil] at htb
    exact Or.inl htb
  | cons task rest ih =>
    intro σ tb htb
    have widen : ∀ tb : TimeBlock,
        (tb.task_type = .household ∧ tb.status = .scheduled ∧
          ∃ t ∈ rest, tb.task_id = t.id ∧
            tb.end_time = tb.start_time + (t.estimated_duration_minutes : ℚ)) →
        (tb.task_type = .household ∧ tb.status = .scheduled ∧
          ∃ t ∈ task :: rest, tb.task_id = t.id ∧
            tb.end_time = tb.start_time + (t.estimated_duration_minutes : ℚ)) := by
      rintro tb2 ⟨ha, hbb, t, ht, hid, hdur⟩
      exact ⟨ha, hbb, t, List.mem_cons_of_mem _ ht, hid, hdur⟩
    rw [dailyLoop_cons] at htb
    split_ifs at htb with h1 h2 h3
    · exact Or.inl htb
    · exact Or.inl htb
    swap
    · rcases ih σ tb htb with h | h
      · exact Or.inl h
      · exact Or.inr (widen tb h)
    · revert htb
      cases hc : _create_task_block σ.st task σ.slots σ.slot_idx d with
      | mk r st' =>
        match r with
        | none =>
          intro htb
          rcases ih _ tb htb with h | h
          · exact Or.inl h
          · exact Or.inr (widen tb h)
        | some (tb2, rem) =>
          obtain ⟨slot, hslot, htm, hfit, htb2eq, hrem, hst⟩ := create_task_block_inv hc
          have hnew : ∀ x : TimeBlock, x ∈ σ.blocks ++ [tb2] → x ∈ σ.blocks ∨
              (x.task_type = .household ∧ x.status = .scheduled ∧
                ∃ t ∈ task :: rest, x.task_id = t.id ∧
                  x.end_time = x.start_time + (t.estimated_duration_minutes : ℚ)) := by
            intro x hx
            rcases List.mem_append.mp hx with h | h
            · exact Or.inl h
            · simp only [List.mem_singleton] at h
              subst h
              subst htb2eq
              exact Or.inr ⟨rfl, rfl, task, List.mem_cons_self _ _, rfl, rfl⟩
          match rem with
          | some r2 =>
            intro htb
            rcases ih _ tb htb with h | h
            · exact hnew tb h
            · exact Or.inr (widen tb h)
          | none =>
            intro htb
            rcases ih _ tb htb with h | h
            · exact hnew tb h
            · exact Or.inr (widen tb h)

theorem periodicLoop_shape (d : Date) :
    ∀ (l : List HouseholdTaskTable) (cnt : Nat) (σ : HHState),
      ∀ tb ∈ (periodicLoop d l cnt σ).blocks, tb ∈ σ.blocks ∨
        (tb.task_type = .household ∧ tb.status = .scheduled ∧
          ∃ task ∈ l, tb.task_id = task.id ∧
            tb.end_time = tb.start_time + (task.estimated_duration_minutes : ℚ)) := by
  intro l
  induction l with
  | nil =>
    intro cnt σ tb htb
    rw [periodicLoop_nil] at htb
    exact Or.inl htb
  | cons task rest ih =>
    intro cnt σ tb htb
    have widen : ∀ tb : TimeBlock,
        (tb.task_type = .household ∧ tb.status = .scheduled ∧
          ∃ t ∈ rest, tb.task_id = t.id ∧
            tb.end_time = tb.start_time + (t.estimated_duration_minutes : ℚ)) →
        (tb.task_type = .household ∧ tb.status = .scheduled ∧
          ∃ t ∈ task :: rest, tb.task_id = t.id ∧
            tb.end_time = tb.start_time + (t.estimated_duration_minutes : ℚ)) := by
      rintro tb2 ⟨ha, hbb, t, ht, hid, hdur⟩
      exact ⟨ha, hbb, t, List.mem_cons_of_mem _ ht, hid, hdur⟩
    rw [periodicLoop_cons] at htb
    split_ifs at htb with h1 h2 h3 h4
    · exact Or.inl htb
    · exact Or.inl htb
    · exact Or.inl htb
    swap
    · rcases ih cnt σ tb htb with h | h
      · exact Or.inl h
      · exact Or.inr (widen tb h)
    · revert htb
      cases hc : _create_task_block σ.st task σ.slots σ.slot_idx d with
      | mk r st' =>
        match r with
        | none =>
          intro htb
          rcases ih _ _ tb htb with h | h
          · exact Or.inl h
          · exact Or.inr (widen tb h)
        | some (tb2, rem) =>
          obtain ⟨slot, hslot, htm, hfit, htb2eq, hrem, hst⟩ := create_task_block_inv hc
          have hnew : ∀ x : TimeBlock, x ∈ σ.blocks ++ [tb2] → x ∈ σ.blocks ∨
              (x.task_type = .household ∧ x.status = .scheduled ∧
                ∃ t ∈ task :: rest, x.task_id = t.id ∧
                  x.end_time = x.start_time + (t.estimated_duration_minutes : ℚ)) := by
            intro x hx
            rcases List.mem_append.mp hx with h | h
            · exact Or.inl h
            · simp only [List.mem_singleton] at h
              subst h
              subst htb2eq
              exact Or.inr ⟨rfl, rfl, task, List.mem_cons_self _ _, rfl, rfl⟩
          match rem with
          | some r2 =>
            intro htb
            rcases ih _ _ tb htb with h | h
            · exact hnew tb h
            · exact Or.inr (widen tb h)
          | none =>
            intro htb
            rcases ih _ _ tb htb with h | h
            · exact hnew tb h
            · exact Or.inr (widen tb h)

theorem pairwise_getElem_of {l : List Slot}
    (h : l.Pairwise fun a c => ¬ Overlaps a c) {i j : Nat}
    (hi : i < l.length) (hj : j < l.length) (hne : i ≠ j) :
    ¬ Overlaps l[i] l[j] := by
  rcases Nat.lt_or_ge i j with hlt | hge
  · exact List.pairwise_iff_getElem.mp h i j hi hj hlt
  · have hlt2 : j < i := lt_of_le_of_ne hge (Ne.symm hne)
    exact not_ovl_symm (List.pairwise_iff_getElem.mp h j i hj hi hlt2)

theorem pairwise_set_sub {l : List Slot} {i : Nat} {r : Slot} (hi : i < l.length)
    (h : l.Pairwise fun a c => ¬ Overlaps a c) (hsub : SubIv r l[i]) :
    (l.set i r).Pairwise fun a c => ¬ Overlaps a c := by
  rw [List.pairwise_iff_getElem]
  intro a b ha hb hab
  rw [List.length_set] at ha hb
  rw [List.getElem_set, List.getElem_set]
  split_ifs with h1 h2 h3
  · omega
  · subst h1
    exact not_ovl_mono_left hsub (pairwise_getElem_of h hi hb (by omega))
  · subst h3
    exact not_ovl_mono_right hsub (pairwise_getElem_of h ha hi (by omega))
  · exact pairwise_getElem_of h ha hb (by omega)

theorem dailyLoop_disjoint (d : Date) :
    ∀ (l : List HouseholdTaskTable) (σ : HHState),
      (σ.slots.Pairwise fun a c => ¬ Overlaps a c) →
      (∀ tb ∈ σ.blocks, ∀ j, σ.slot_idx ≤ j → ∀ (hj : j < σ.slots.length),
        ¬ Overlaps (ivOf tb) σ.slots[j]) →
      (σ.blocks.Pairwise fun a c => ¬ Overlaps (ivOf a) (ivOf c)) →
      ((dailyLoop d l σ).slots.Pairwise fun a c => ¬ Overlaps a c) ∧
      (∀ tb ∈ (dailyLoop d l σ).blocks, ∀ j, (dailyLoop d l σ).slot_idx ≤ j →
        ∀ (hj : j < (dailyLoop d l σ).slots.length),
        ¬ Overlaps (ivOf tb) (dailyLoop d l σ).slots[j]) ∧
      ((dailyLoop d l σ).blocks.Pairwise fun a c => ¬ Overlaps (ivOf a) (ivOf c)) := by
  intro l
  induction l with
  | nil =>
    intro σ hA hB hC
    rw [dailyLoop_nil]
    exact ⟨hA, hB, hC⟩
  | cons task rest ih =>
    intro σ hA hB hC
    rw [dailyLoop_cons]
    split_ifs with h1 h2 h3
    · exact ⟨hA, hB, hC⟩
    · exact ⟨hA, hB, hC⟩
    swap
    · exact ih σ hA hB hC
    · push_neg at h3
      cases hc : _create_task_block σ.st task σ.slots σ.slot_idx d with
      | mk r st' =>
        match r with
        | none => exact ih _ hA hB hC
        | some (tb, rem) =>
          obtain ⟨slot, hslot, htm, hfit, htbeq, hrem, hst⟩ := create_task_block_inv hc
          have hidx : σ.slot_idx < σ.slots.length := h3
          have hslot_eq : σ.slots[σ.slot_idx] = slot := by
            rw [List.getElem?_eq_getElem hidx] at hslot
            exact Option.some.inj hslot
          have hbuf0 : (0:ℚ) ≤ (σ.st.household_buffer_minutes : ℚ) := Nat.cast_nonneg _
          have hdur0 : (0:ℚ) ≤ (task.estimated_duration_minutes : ℚ) := Nat.cast_nonneg _
          have htb_sub : SubIv (ivOf tb) slot := by
            subst htbeq
            exact hh_blk_sub hfit
          have htb_j : ∀ j, σ.slot_idx < j → ∀ (hj : j < σ.slots.length),
              ¬ Overlaps (ivOf tb) σ.slots[j] := by
            intro j hij hj
            refine not_ovl_mono_left htb_sub ?_
            rw [← hslot_eq]
            exact pairwise_getElem_of hA hidx hj (by omega)
          have hC' : (σ.blocks ++ [tb]).Pairwise
              fun a c => ¬ Overlaps (ivOf a) (ivOf c) := by
            rw [List.pairwise_append]
            refine ⟨hC, List.pairwise_singleton _ _, ?_⟩
            intro x hx y hy
            simp only [List.mem_singleton] at hy
            subst hy
            refine not_ovl_mono_right htb_sub ?_
            rw [← hslot_eq]
            exact hB x hx σ.slot_idx (le_refl _) hidx
          match rem with
          | some r2 =>
            have hr2 : r2 = (slot.1 + (task.estimated_duration_minutes : ℚ) +
                (σ.st.household_buffer_minutes : ℚ), slot.2) := by
              split_ifs at hrem with hcnd
              exact Option.some.inj hrem
            have hr2_sub : SubIv r2 slot := by
              subst hr2
              exact hh_r_sub
            apply ih
            · exact pairwise_set_sub hidx hA (by rw [hslot_eq]; exact hr2_sub)
            · intro x hx j hij hj
              dsimp only at hx hij hj ⊢
              rw [List.length_set] at hj
              rw [List.getElem_set]
              rcases List.mem_append.mp hx with hx2 | hx2
              · split_ifs with he
                · refine not_ovl_mono_right hr2_sub ?_
                  rw [← hslot_eq]
                  exact hB x hx2 σ.slot_idx (le_refl _) hidx
                · exact hB x hx2 j hij hj
              · simp only [List.mem_singleton] at hx2
                subst hx2
                split_ifs with he
                · subst htbeq
                  subst hr2
                  intro hh
                  have h2nd := hh.2
                  dsimp only [ivOf] at h2nd
                  linarith
                · exact htb_j j (by omega) hj
            · exact hC'
          | none =>
            apply ih
            · exact hA
            · intro x hx j hij hj
              dsimp only at hx hij hj ⊢
              rcases List.mem_append.mp hx with hx2 | hx2
              · exact hB x hx2 j (by omega) hj
              · simp only [List.mem_singleton] at hx2
                subst hx2
                exact htb_j j (by omega) hj
            · exact hC'

theorem periodicLoop_disjoint (d : Date) :
    ∀ (l : List HouseholdTaskTable) (cnt : Nat) (σ : HHState),
      (σ.slots.Pairwise fun a c => ¬ Overlaps a c) →
      (∀ tb ∈ σ.blocks, ∀ j, σ.slot_idx ≤ j → ∀ (hj : j < σ.slots.length),
        ¬ Overlaps (ivOf tb) σ.slots[j]) →
      (σ.blocks.Pairwise fun a c => ¬ Overlaps (ivOf a) (ivOf c)) →
      ((periodicLoop d l cnt σ).slots.Pairwise fun a c => ¬ Overlaps a c) ∧
      (∀ tb ∈ (periodicLoop d l cnt σ).blocks, ∀ j, (periodicLoop d l cnt σ).slot_idx ≤ j →
        ∀ (hj : j < (periodicLoop d l cnt σ).slots.length),
        ¬ Overlaps (ivOf tb) (periodicLoop d l cnt σ).slots[j]) ∧
      ((periodicLoop d l cnt σ).blocks.Pairwise fun a c => ¬ Overlaps (ivOf a) (ivOf c)) := by
  intro l
  induction l with
  | nil =>
    intro cnt σ hA hB hC
    rw [periodicLoop_nil]
    exact ⟨hA, hB, hC⟩
  | cons task rest ih =>
    intro cnt σ hA hB hC
    rw [periodicLoop_cons]
    split_ifs with h1 h2 h3 h4
    · exact ⟨hA, hB, hC⟩
    · exact ⟨hA, hB, hC⟩
    · exact ⟨hA, hB, hC⟩
    swap
    · exact ih cnt σ hA hB hC
    · push_neg at h4
      cases hc : _create_task_block σ.st task σ.slots σ.slot_idx d with
      | mk r st' =>
        match r with
        | none => exact ih _ _ hA hB hC
        | some (tb, rem) =>
          obtain ⟨slot, hslot, htm, hfit, htbeq, hrem, hst⟩ := create_task_block_inv hc
          have hidx : σ.slot_idx < σ.slots.length := h4
          have hslot_eq : σ.slots[σ.slot_idx] = slot := by
            rw [List.getElem?_eq_getElem hidx] at hslot
            exact Option.some.inj hslot
          have hbuf0 : (0:ℚ) ≤ (σ.st.household_buffer_minutes : ℚ) := Nat.cast_nonneg _
          have hdur0 : (0:ℚ) ≤ (task.estimated_duration_minutes : ℚ) := Nat.cast_nonneg _
          have htb_sub : SubIv (ivOf tb) slot := by
            subst htbeq
            exact hh_blk_sub hfit
          have htb_j : ∀ j, σ.slot_idx < j → ∀ (hj : j < σ.slots.length),
              ¬ Overlaps (ivOf tb) σ.slots[j] := by
            intro j hij hj
            refine not_ovl_mono_left htb_sub ?_
            rw [← hslot_eq]
            exact pairwise_getElem_of hA hidx hj (by omega)
          have hC' : (σ.blocks ++ [tb]).Pairwise
              fun a c => ¬ Overlaps (ivOf a) (ivOf c) := by
            rw [List.pairwise_append]
            refine ⟨hC, List.pairwise_singleton _ _, ?_⟩
            intro x hx y hy
            simp only [List.mem_singleton] at hy
            subst hy
            refine not_ovl_mono_right htb_sub ?_
            rw [← hslot_eq]
            exact hB x hx σ.slot_idx (le_refl _) hidx
          match rem with
          | some r2 =>
            have hr2 : r2 = (slot.1 + (task.estimated_duration_minutes : ℚ) +
                (σ.st.household_buffer_minutes : ℚ), slot.2) := by
              split_ifs at hrem with hcnd
              exact Option.some.inj hrem
            have hr2_sub : SubIv r2 slot := by
              subst hr2
              exact hh_r_sub
            apply ih
            · exact pairwise_set_sub hidx hA (by rw [hslot_eq]; exact hr2_sub)
            · intro x hx j hij hj
              dsimp only at hx hij hj ⊢
              rw [List.length_set] at hj
              rw [List.getElem_set]
              rcases List.mem_append.mp hx with hx2 | hx2
              · split_ifs with he
                · refine not_ovl_mono_right hr2_sub ?_
                  rw [← hslot_eq]
                  exact hB x hx2 σ.slot_idx (le_refl _) hidx
                · exact hB x hx2 j hij hj
              · simp only [List.mem_singleton] at hx2
                subst hx2
                split_ifs with he
                · subst htbeq
                  subst hr2
                  intro hh
                  have h2nd := hh.2
                  dsimp only [ivOf] at h2nd
                  linarith
                · exact htb_j j (by omega) hj
            · exact hC'
          | none =>
            apply ih
            · exact hA
            · intro x hx j hij hj
              dsimp only at hx hij hj ⊢
              rcases List.mem_append.mp hx with hx2 | hx2
              · exact hB x hx2 j (by omega) hj
              · simp only [List.mem_singleton] at hx2
                subst hx2
                exact htb_j j (by omega) hj
            · exact hC'

theorem hhwrap_eq (st : SmartScheduler) (tasks : List HouseholdTaskTable) (d : Date)
    (dow : Nat) (slots : List Slot) (w : Bool) :
    _schedule_household_tasks_for_day st tasks d dow slots w =
      (let flexLe : HouseholdTaskTable → HouseholdTaskTable → Bool := fun a b =>
        decide (get_timing_flexibility st a ≤ get_timing_flexibility st b)
       let σ := dailyLoop d (sortBy flexLe (tasks.filter fun t => t.recurrence == "daily"))
         ⟨slots, 0, [], st⟩
       let σ2 := if w then
           periodicLoop d (sortBy flexLe (tasks.filter fun t => t.recurrence != "daily")) 0 σ
         else σ
       (σ2.blocks, σ2.slots, σ2.st)) := rfl

theorem schedule_household_P (P : Slot → Prop) (hmono : ∀ a b, SubIv a b → P b → P a)
    (st : SmartScheduler) (tasks : List HouseholdTaskTable) (d : Date) (dow : Nat)
    (slots : List Slot) (w : Bool) (hs : ∀ s ∈ slots, P s) :
    (∀ tb ∈ (_schedule_household_tasks_for_day st tasks d dow slots w).1, P (ivOf tb)) ∧
    (∀ s ∈ (_schedule_household_tasks_for_day st tasks d dow slots w).2.1, P s) := by
  rw [hhwrap_eq]
  dsimp only
  have h1 := dailyLoop_P P hmono d
    (sortBy (fun a b => decide (get_timing_flexibility st a ≤ get_timing_flexibility st b))
      (tasks.filter fun t => t.recurrence == "daily"))
    ⟨slots, 0, [], st⟩ hs (fun tb htb => (List.not_mem_nil tb htb).elim)
  cases w with
  | false => exact h1
  | true =>
    simp only [if_true]
    exact periodicLoop_P P hmono d _ 0 _ h1.2 h1.1

theorem schedule_household_disjoint (st : SmartScheduler) (tasks : List HouseholdTaskTable)
    (d : Date) (dow : Nat) (slots : List Slot) (w : Bool)
    (hsp : slots.Pairwise fun a c => ¬ Overlaps a c) :
    ((_schedule_household_tasks_for_day st tasks d dow slots w).1.Pairwise
      fun a c => ¬ Overlaps (ivOf a) (ivOf c)) ∧
    ((_schedule_household_tasks_for_day st tasks d dow slots w).2.1.Pairwise
      fun a c => ¬ Overlaps a c) := by
  rw [hhwrap_eq]
  dsimp only
  have h1 := dailyLoop_disjoint d
    (sortBy (fun a b => decide (get_timing_flexibility st a ≤ get_timing_flexibility st b))
      (tasks.filter fun t => t.recurrence == "daily"))
    ⟨slots, 0, [], st⟩ hsp (fun tb htb => (List.not_mem_nil tb htb).elim) List.Pairwise.nil
  cases w with
  | false => exact ⟨h1.2.2, h1.1⟩
  | true =>
    simp only [if_true]
    have h2 := periodicLoop_disjoint d
      (sortBy (fun a b => decide (get_timing_flexibility st a ≤ get_timing_flexibility st b))
        (tasks.filter fun t => t.recurrence != "daily")) 0 _ h1.1 h1.2.1 h1.2.2
    exact ⟨h2.2.2, h2.1⟩

theorem schedule_household_shape (st : SmartScheduler) (tasks : List HouseholdTaskTable)
    (d : Date) (dow : Nat) (slots : List Slot) (w : Bool) :
    ∀ tb ∈ (_schedule_household_tasks_for_day st tasks d dow slots w).1,
      tb.task_type = .household ∧ tb.status = .scheduled ∧
        ∃ task ∈ tasks, tb.task_id = task.id ∧
          tb.end_time = tb.start_time + (task.estimated_duration_minutes : ℚ) := by
  rw [hhwrap_eq]
  dsimp only
  intro tb htb
  have hda : ∀ x : TimeBlock,
      x ∈ (dailyLoop d (sortBy (fun a b =>
          decide (get_timing_flexibility st a ≤ get_timing_flexibility st b))
        (tasks.filter fun t => t.recurrence == "daily")) ⟨slots, 0, [], st⟩).blocks →
      x.task_type = .household ∧ x.status = .scheduled ∧
        ∃ task ∈ tasks, x.task_id = task.id ∧
          x.end_time = x.start_time + (task.estimated_duration_minutes : ℚ) := by
    intro x hx
    rcases dailyLoop_shape d _ _ x hx with h | ⟨h1, h2, t, ht, h3, h4⟩
    · exact absurd h (List.not_mem_nil x)
    · exact ⟨h1, h2, t, (List.mem_filter.mp (mem_sortBy.mp ht)).1, h3, h4⟩
  revert htb
  cases w with
  | false =>
    intro htb
    exact hda tb htb
  | true =>
    simp only [if_true]
    intro htb
    rcases periodicLoop_shape d _ _ _ tb htb with h | ⟨h1, h2, t, ht, h3, h4⟩
    · exact hda tb h
    · exact ⟨h1, h2, t, (List.mem_filter.mp (mem_sortBy.mp ht)).1, h3, h4⟩

theorem dailyLoop_state (d : Date) :
    ∀ (l : List HouseholdTaskTable) (σ : HHState),
      (dailyLoop d l σ).st.config = σ.st.config ∧
      (dailyLoop d l σ).st.work_start_hour = σ.st.work_start_hour ∧
      (dailyLoop d l σ).st.work_end_hour = σ.st.work_end_hour ∧
      (dailyLoop d l σ).st.min_block_minutes = σ.st.min_block_minutes ∧
      (dailyLoop d l σ).st.household_buffer_minutes = σ.st.household_buffer_minutes ∧
      (dailyLoop d l σ).st.task_timing_cache = σ.st.task_timing_cache := by
  intro l
  induction l with
  | nil =>
    intro σ
    rw [dailyLoop_nil]
    exact ⟨rfl, rfl, rfl, rfl, rfl, rfl⟩
  | cons task rest ih =>
    intro σ
    rw [dailyLoop_cons]
    split_ifs with h1 h2 h3
    · exact ⟨rfl, rfl, rfl, rfl, rfl, rfl⟩
    · exact ⟨rfl, rfl, rfl, rfl, rfl, rfl⟩
    swap
    · exact ih σ
    · cases hc : _create_task_block σ.st task σ.slots σ.slot_idx d with
      | mk r st' =>
        have hs := create_task_block_state hc
        match r with
        | none =>
          have := ih { σ with st := st' }
          exact ⟨this.1.trans hs.1, (this.2.1).trans hs.2.1, (this.2.2.1).trans hs.2.2.1,
            (this.2.2.2.1).trans hs.2.2.2.1, (this.2.2.2.2.1).trans hs.2.2.2.2.1,
            (this.2.2.2.2.2).trans hs.2.2.2.2.2⟩
        | some (tb, some r2) =>
          have := ih ⟨σ.slots.set σ.slot_idx r2, σ.slot_idx, σ.blocks ++ [tb], st'⟩
          exact ⟨this.1.trans hs.1, (this.2.1).trans hs.2.1, (this.2.2.1).trans hs.2.2.1,
            (this.2.2.2.1).trans hs.2.2.2.1, (this.2.2.2.2.1).trans hs.2.2.2.2.1,
            (this.2.2.2.2.2).trans hs.2.2.2.2.2⟩
        | some (tb, none) =>
          have := ih ⟨σ.slots, σ.slot_idx + 1, σ.blocks ++ [tb], st'⟩
          exact ⟨this.1.trans hs.1, (this.2.1).trans hs.2.1, (this.2.2.1).trans hs.2.2.1,
            (this.2.2.2.1).trans hs.2.2.2.1, (this.2.2.2.2.1).trans hs.2.2.2.2.1,
            (this.2.2.2.2.2).trans hs.2.2.2.2.2⟩

theorem periodicLoop_state (d : Date) :
    ∀ (l : List HouseholdTaskTable) (cnt : Nat) (σ : HHState),
      (periodicLoop d l cnt σ).st.config = σ.st.config ∧
      (periodicLoop d l cnt σ).st.work_start_hour = σ.st.work_start_hour ∧
      (periodicLoop d l cnt σ).st.work_end_hour = σ.st.work_end_hour ∧
      (periodicLoop d l cnt σ).st.min_block_minutes = σ.st.min_block_minutes ∧
      (periodicLoop d l cnt σ).st.household_buffer_minutes =
        σ.st.household_buffer_minutes ∧
      (periodicLoop d l cnt σ).st.task_timing_cache = σ.st.task_timing_cache := by
  intro l
  induction l with
  | nil =>
    intro cnt σ
    rw [periodicLoop_nil]
    exact ⟨rfl, rfl, rfl, rfl, rfl, rfl⟩
  | cons task rest ih =>
    intro cnt σ
    rw [periodicLoop_cons]
    split_ifs with h1 h2 h3 h4
    · exact ⟨rfl, rfl, rfl, rfl, rfl, rfl⟩
    · exact ⟨rfl, rfl, rfl, rfl, rfl, rfl⟩
    · exact ⟨rfl, rfl, rfl, rfl, rfl, rfl⟩
    swap
    · exact ih cnt σ
    · cases hc : _create_task_block σ.st task σ.slots σ.slot_idx d with
      | mk r st' =>
        have hs := create_task_block_state hc
        match r with
        | none =>
          have := ih cnt { σ with st := st' }
          exact ⟨this.1.trans hs.1, (this.2.1).trans hs.2.1, (this.2.2.1).trans hs.2.2.1,
            (this.2.2.2.1).trans hs.2.2.2.1, (this.2.2.2.2.1).trans hs.2.2.2.2.1,
            (this.2.2.2.2.2).trans hs.2.2.2.2.2⟩
        | some (tb, some r2) =>
          have := ih (cnt + 1) ⟨σ.slots.set σ.slot_idx r2, σ.slot_idx, σ.blocks ++ [tb], st'⟩
          exact ⟨this.1.trans hs.1, (this.2.1).trans hs.2.1, (this.2.2.1).trans hs.2.2.1,
            (this.2.2.2.1).trans hs.2.2.2.1, (this.2.2.2.2.1).trans hs.2.2.2.2.1,
            (this.2.2.2.2.2).trans hs.2.2.2.2.2⟩
        | some (tb, none) =>
          have := ih (cnt + 1) ⟨σ.slots, σ.slot_idx + 1, σ.blocks ++ [tb], st'⟩
          exact ⟨this.1.trans hs.1, (this.2.1).trans hs.2.1, (this.2.2.1).trans hs.2.2.1,
            (this.2.2.2.1).trans hs.2.2.2.1, (this.2.2.2.2.1).trans hs.2.2.2.2.1,
            (this.2.2.2.2.2).trans hs.2.2.2.2.2⟩

theorem schedule_household_state (st : SmartScheduler) (tasks : List HouseholdTaskTable)
    (d : Date) (dow : Nat) (slots : List Slot) (w : Bool) :
    (_schedule_household_tasks_for_day st tasks d dow slots w).2.2.config = st.config ∧
    (_schedule_household_tasks_for_day st tasks d dow slots w).2.2.work_start_hour =
      st.work_start_hour ∧
    (_schedule_household_tasks_for_day st tasks d dow slots w).2.2.work_end_hour =
      st.work_end_hour ∧
    (_schedule_household_tasks_for_day st tasks d dow slots w).2.2.min_block_minutes =
      st.min_block_minutes ∧
    (_schedule_household_tasks_for_day st tasks d dow slots w).2.2.household_buffer_minutes =
      st.household_buffer_minutes ∧
    (_schedule_household_tasks_for_day st tasks d dow slots w).2.2.task_timing_cache =
      st.task_timing_cache := by
  rw [hhwrap_eq]
  dsimp only
  have h1 := dailyLoop_state d
    (sortBy (fun a b => decide (get_timing_flexibility st a ≤ get_timing_flexibility st b))
      (tasks.filter fun t => t.recurrence == "daily"))
    ⟨slots, 0, [], st⟩
  cases w with
  | false => exact h1
  | true =>
    simp only [if_true]
    have h2 := periodicLoop_state d
      (sortBy (fun a b => decide (get_timing_flexibility st a ≤ get_timing_flexibility st b))
        (tasks.filter fun t => t.recurrence != "daily")) 0
      (dailyLoop d (sortBy (fun a b =>
          decide (get_timing_flexibility st a ≤ get_timing_flexibility st b))
        (tasks.filter fun t => t.recurrence == "daily")) ⟨slots, 0, [], st⟩)
    exact ⟨h2.1.trans h1.1, h2.2.1.trans h1.2.1, h2.2.2.1.trans h1.2.2.1,
      h2.2.2.2.1.trans h1.2.2.2.1, h2.2.2.2.2.1.trans h1.2.2.2.2.1,
      h2.2.2.2.2.2.trans h1.2.2.2.2.2⟩

theorem not_ovl_of_le {a b : Slot} {c : ℚ} (ha : a.2 ≤ c) (hb : c ≤ b.1) :
    ¬ Overlaps a b :=
  fun hh => absurd hh.2 (not_lt.mpr (le_trans ha hb))

theorem life_blocks_w (d : Date) (w w' : Bool) :
    _get_life_necessity_blocks d w = _get_life_necessity_blocks d w' := rfl

theorem DayP_mono (d : Date) (devs : List ExternalEventTable) :
    ∀ a b, SubIv a b → DayP d devs b → DayP d devs a := by
  intro a b hsub hP
  exact ⟨⟨le_trans hP.1.1 hsub.1, le_trans hsub.2 hP.1.2⟩,
    fun l hl => not_ovl_mono_left hsub (hP.2.1 l hl),
    fun e he => not_ovl_mono_left hsub (hP.2.2 e he)⟩

theorem gen_slots_base {st : SmartScheduler} {d : Date} {evs : List ExternalEventTable}
    {w m : Bool} {s : Slot} (hs : s ∈ _generate_available_slots st d evs w m) :
    SubIv s (if w then (combine d 9 0, combine d 21 0)
             else if m then (combine d st.work_start_hour 0, combine d st.work_end_hour 0)
             else (combine d st.work_end_hour 0, combine d 21 0)) := by
  unfold _generate_available_slots at hs
  dsimp only at hs
  obtain ⟨hmem, -⟩ := List.mem_filter.mp hs
  obtain ⟨s1, hs1, hsub1⟩ :=
    foldl_subtractIv_sub (fun e : ExternalEventTable => (e.start_time, e.end_time))
      evs _ s hmem
  obtain ⟨s2, hs2, hsub2⟩ := foldl_subtractIv_sub (fun b : Slot => b) _ _ s1 hs1
  split_ifs at hs2 ⊢ with h1 h2
  · simp only [List.mem_singleton] at hs2
    subst hs2
    exact subIv_trans hsub1 hsub2
  · simp only [List.mem_singleton] at hs2
    subst hs2
    exact subIv_trans hsub1 hsub2
  · simp only [List.mem_singleton] at hs2
    subst hs2
    exact subIv_trans hsub1 hsub2

theorem gen_slots_window {st : SmartScheduler} {d : Date} {evs : List ExternalEventTable}
    {w m : Bool} {s : Slot} (hwe : st.work_end_hour ≤ 21)
    (hs : s ∈ _generate_available_slots st d evs w m) :
    combine d 0 0 ≤ s.1 ∧ s.2 ≤ combine d 21 0 := by
  have hb := gen_slots_base hs
  split_ifs at hb with h1 h2
  · exact ⟨le_trans (combine_day_le d 9 0) hb.1, le_trans hb.2 (le_refl _)⟩
  · exact ⟨le_trans (combine_day_le d st.work_start_hour 0) hb.1,
      le_trans hb.2 (combine_le_combine (by omega))⟩
  · exact ⟨le_trans (combine_day_le d st.work_end_hour 0) hb.1, hb.2⟩

theorem gen_slots_DayP {st : SmartScheduler} {d : Date} {devs : List ExternalEventTable}
    {w m : Bool} {s : Slot} (hwe : st.work_end_hour ≤ 21)
    (hs : s ∈ _generate_available_slots st d devs w m) : DayP d devs s := by
  obtain ⟨-, hlife, hev, -⟩ := gen_slots_facts hs
  exact ⟨gen_slots_window hwe hs, fun l hl => hlife l (by rw [life_blocks_w d w true]; exact hl),
    hev⟩

theorem gen_slots_work_hi {st : SmartScheduler} {d : Date} {devs : List ExternalEventTable}
    {s : Slot} (hs : s ∈ _generate_available_slots st d devs false true) :
    s.2 ≤ combine d st.work_end_hour 0 := by
  have hb := gen_slots_base hs
  simp only [Bool.false_eq_true, if_false, if_true] at hb
  exact hb.2

theorem gen_slots_personal_lo {st : SmartScheduler} {d : Date} {devs : List ExternalEventTable}
    {s : Slot} (hs : s ∈ _generate_available_slots st d devs false false) :
    combine d st.work_end_hour 0 ≤ s.1 := by
  have hb := gen_slots_base hs
  simp only [Bool.false_eq_true, if_false] at hb
  exact hb.1

theorem schedule_assignments_P (P : Slot → Prop) (hmono : ∀ a b, SubIv a b → P b → P a)
    (assignments : List AssignmentTable) (d : Date) (slots : List Slot)
    (hs : ∀ s ∈ slots, P s) :
    (∀ tb ∈ (_schedule_assignments_for_day assignments d slots).1, P (ivOf tb)) ∧
    (∀ s ∈ (_schedule_assignments_for_day assignments d slots).2, P s) := by
  unfold _schedule_assignments_for_day
  dsimp only
  exact assignLoop_P P hmono d _ slots [] hs (fun tb htb => (List.not_mem_nil tb htb).elim)

theorem schedule_assignments_disjoint (assignments : List AssignmentTable) (d : Date)
    (slots : List Slot) (hsp : slots.Pairwise fun a c => ¬ Overlaps a c) :
    ((_schedule_assignments_for_day assignments d slots).1.Pairwise
      fun a c => ¬ Overlaps (ivOf a) (ivOf c)) ∧
    ((_schedule_assignments_for_day assignments d slots).2.Pairwise
      fun a c => ¬ Overlaps a c) := by
  unfold _schedule_assignments_for_day
  dsimp only
  have h := fun l => assignLoop_disjoint d l slots [] hsp
    (fun tb htb => (List.not_mem_nil tb htb).elim) List.Pairwise.nil
  exact ⟨(h _).1, (h _).2.1⟩

theorem schedule_assignments_shape (assignments : List AssignmentTable) (d : Date)
    (slots : List Slot) :
    ∀ tb ∈ (_schedule_assignments_for_day assignments d slots).1,
      tb.task_type = .assignment ∧ tb.status = .scheduled ∧
        tb.end_time = tb.start_time + 120 := by
  unfold _schedule_assignments_for_day
  dsimp only
  intro tb htb
  rcases assignLoop_shape d _ slots [] tb htb with h | h
  · exact absurd h (List.not_mem_nil tb)
  · exact h

theorem schedule_projects_P (P : Slot → Prop) (hmono : ∀ a b, SubIv a b → P b → P a)
    (st : SmartScheduler) (projects : List ProjectTable) (d : Date) (slots : List Slot)
    (monthly sched : QDict) (hs : ∀ s ∈ slots, P s) :
    (∀ tb ∈ (_schedule_projects_for_day st projects d slots monthly sched).1, P (ivOf tb)) ∧
    (∀ s ∈ (_schedule_projects_for_day st projects d slots monthly sched).2.1, P s) := by
  unfold _schedule_projects_for_day
  dsimp only
  exact projLoop_P P hmono st d _ slots sched [] hs
    (fun tb htb => (List.not_mem_nil tb htb).elim)

theorem schedule_projects_disjoint (st : SmartScheduler) (projects : List ProjectTable)
    (d : Date) (slots : List Slot) (monthly sched : QDict)
    (hsp : slots.Pairwise fun a c => ¬ Overlaps a c) :
    ((_schedule_projects_for_day st projects d slots monthly sched).1.Pairwise
      fun a c => ¬ Overlaps (ivOf a) (ivOf c)) ∧
    ((_schedule_projects_for_day st projects d slots monthly sched).2.1.Pairwise
      fun a c => ¬ Overlaps a c) := by
  unfold _schedule_projects_for_day
  dsimp only
  have h := fun l => projLoop_disjoint st d l slots sched [] hsp
    (fun tb htb => (List.not_mem_nil tb htb).elim) List.Pairwise.nil
  exact ⟨(h _).1, (h _).2.1⟩

theorem schedule_projects_shape (st : SmartScheduler) (projects : List ProjectTable)
    (d : Date) (slots : List Slot) (monthly sched : QDict) :
    ∀ tb ∈ (_schedule_projects_for_day st projects d slots monthly sched).1,
      tb.task_type = .project ∧ tb.status = .scheduled ∧
        tb.start_time + 30 ≤ tb.end_time := by
  unfold _schedule_projects_for_day
  dsimp only
  intro tb htb
  rcases projLoop_shape st d _ slots sched [] tb htb with h | h
  · exact absurd h (List.not_mem_nil tb)
  · exact h

theorem dayStep_weekday (wp ap : List ProjectTable) (asg : List AssignmentTable)
    (tasks : List HouseholdTaskTable) (events : List ExternalEventTable)
    (monthly : QDict) (acc : DayAcc) (d : Date) (hw : ¬ 5 ≤ d % 7) :
    dayStep wp ap asg tasks events monthly acc d =
      (let devs := _get_events_for_day events d
       let personal := _generate_available_slots acc.st d devs false false
       let A := _schedule_assignments_for_day asg d personal
       let r1 := _remove_scheduled_blocks A.2 A.1
       let AC := _schedule_projects_for_day acc.st ap d r1 [] []
       let r2 := _remove_scheduled_blocks AC.2.1 AC.1
       let H := _schedule_household_tasks_for_day acc.st tasks d (d % 7) r2 false
       let ws := _generate_available_slots H.2.2 d devs false true
       let W := _schedule_projects_for_day H.2.2 wp d ws monthly acc.project_hours_scheduled
       { blocks := acc.blocks ++ A.1 ++ AC.1 ++ H.1 ++ W.1
         st := H.2.2
         project_hours_scheduled := W.2.2 }) := by
  have hb : decide (5 ≤ d % 7) = false := by simpa using hw
  unfold dayStep
  simp only [hb, Bool.false_eq_true, not_false_iff, if_true]

theorem dayStep_weekend (wp ap : List ProjectTable) (asg : List AssignmentTable)
    (tasks : List HouseholdTaskTable) (events : List ExternalEventTable)
    (monthly : QDict) (acc : DayAcc) (d : Date) (hw : 5 ≤ d % 7) :
    dayStep wp ap asg tasks events monthly acc d =
      (let devs := _get_events_for_day events d
       let personal := _generate_available_slots acc.st d devs true false
       let H := _schedule_household_tasks_for_day acc.st tasks d (d % 7) personal true
       let r1 := _remove_scheduled_blocks H.2.1 H.1
       let A := _schedule_assignments_for_day asg d r1
       let r2 := _remove_scheduled_blocks A.2 A.1
       let AC := _schedule_projects_for_day H.2.2 ap d r2 [] []
       let r3 := _remove_scheduled_blocks AC.2.1 AC.1
       let W := _schedule_projects_for_day H.2.2 wp d r3 monthly acc.project_hours_scheduled
       { blocks := acc.blocks ++ H.1 ++ A.1 ++ AC.1 ++ W.1
         st := H.2.2
         project_hours_scheduled := W.2.2 }) := by
  have hb : decide (5 ≤ d % 7) = true := by simpa using hw
  unfold dayStep
  simp only [hb, not_true, Bool.true_eq_false, if_false]

theorem goodBlock_le {tasks : List HouseholdTaskTable} {d : Date}
    {devs : List ExternalEventTable} {tb : TimeBlock}
    (h : GoodBlock tasks d devs tb) : tb.start_time ≤ tb.end_time := by
  rcases h.2.2 with ⟨-, h2⟩ | ⟨-, h2⟩ | ⟨-, t, -, -, h2⟩
  · rw [h2]; linarith
  · linarith
  · rw [h2]; exact le_add_of_nonneg_right (Nat.cast_nonneg _)

theorem dayStep_facts (wp ap : List ProjectTable) (asg : List AssignmentTable)
    (tasks : List HouseholdTaskTable) (events : List ExternalEventTable)
    (monthly : QDict) (acc : DayAcc) (d : Date)
    (hwe : acc.st.work_end_hour ≤ 21)
    (hev : ∀ e ∈ events, e.start_time ≤ e.end_time) :
    ∃ dayBlocks,
      (dayStep wp ap asg tasks events monthly acc d).blocks = acc.blocks ++ dayBlocks ∧
      (∀ tb ∈ dayBlocks, GoodBlock tasks d (_get_events_for_day events d) tb) ∧
      dayBlocks.Pairwise (fun a c => ¬ Overlaps (ivOf a) (ivOf c)) := by
  have hdevs : ∀ e ∈ _get_events_for_day events d, e.start_time ≤ e.end_time := by
    intro e he
    exact hev e (List.mem_filter.mp he).1
  rcases Nat.lt_or_ge (d % 7) 5 with hw | hw
  · -- weekday
    rw [dayStep_weekday wp ap asg tasks events monthly acc d (Nat.not_le.mpr hw)]
    dsimp only
    set devs := _get_events_for_day events d with hdevsdef
    set personal := _generate_available_slots acc.st d devs false false with hpers
    set A := _schedule_assignments_for_day asg d personal with hA
    set r1 := _remove_scheduled_blocks A.2 A.1 with hr1
    set AC := _schedule_projects_for_day acc.st ap d r1 [] [] with hAC
    set r2 := _remove_scheduled_blocks AC.2.1 AC.1 with hr2
    set H := _schedule_household_tasks_for_day acc.st tasks d (d % 7) r2 false with hH
    set ws := _generate_available_slots H.2.2 d devs false true with hws
    set W := _schedule_projects_for_day H.2.2 wp d ws monthly acc.project_hours_scheduled
      with hW
    -- predicates carried through the personal-time passes
    have Pmono : ∀ a b, SubIv a b →
        (DayP d devs b ∧ combine d acc.st.work_end_hour 0 ≤ b.1) →
        (DayP d devs a ∧ combine d acc.st.work_end_hour 0 ≤ a.1) :=
      fun a b hsub hb => ⟨DayP_mono d devs a b hsub hb.1, le_trans hb.2 hsub.1⟩
    have hP0 : ∀ s ∈ personal,
        DayP d devs s ∧ combine d acc.st.work_end_hour 0 ≤ s.1 :=
      fun s hs => ⟨gen_slots_DayP hwe hs, gen_slots_personal_lo hs⟩
    have hPpw : personal.Pairwise fun a c => ¬ Overlaps a c := gen_slots_pairwise hdevs
    -- assignment pass
    have hAP := schedule_assignments_P _ Pmono asg d personal hP0
    have hAdis := schedule_assignments_disjoint asg d personal hPpw
    have hAsh := schedule_assignments_shape asg d personal
    have hAprop : ∀ b ∈ A.1, b.start_time ≤ b.end_time := by
      intro b hb
      have := (hAsh b hb).2.2
      linarith
    -- first removal
    have Q1mono : ∀ a b, SubIv a b →
        ((DayP d devs b ∧ combine d acc.st.work_end_hour 0 ≤ b.1) ∧
          ∀ x ∈ A.1, ¬ Overlaps b (ivOf x)) →
        ((DayP d devs a ∧ combine d acc.st.work_end_hour 0 ≤ a.1) ∧
          ∀ x ∈ A.1, ¬ Overlaps a (ivOf x)) :=
      fun a b hsub hb => ⟨Pmono a b hsub hb.1,
        fun x hx => not_ovl_mono_left hsub (hb.2 x hx)⟩
    have hr1P : ∀ s ∈ r1,
        (DayP d devs s ∧ combine d acc.st.work_end_hour 0 ≤ s.1) ∧
          ∀ x ∈ A.1, ¬ Overlaps s (ivOf x) := by
      intro s hs
      obtain ⟨s', hs', hsub⟩ := remove_blocks_sub hs
      exact ⟨Pmono s s' hsub (hAP.2 s' hs'), fun x hx => remove_blocks_avoids hs x hx⟩
    have hr1pw := remove_blocks_pairwise hAdis.2 hAprop
    -- academic project pass
    have hACP := schedule_projects_P _ Q1mono acc.st ap d r1 [] [] hr1P
    have hACdis := schedule_projects_disjoint acc.st ap d r1 [] [] hr1pw
    have hACsh := schedule_projects_shape acc.st ap d r1 [] []
    have hACprop : ∀ b ∈ AC.1, b.start_time ≤ b.end_time := by
      intro b hb
      have := (hACsh b hb).2.2
      linarith
    -- second removal
    have Q2mono : ∀ a b, SubIv a b →
        (((DayP d devs b ∧ combine d acc.st.work_end_hour 0 ≤ b.1) ∧
            ∀ x ∈ A.1, ¬ Overlaps b (ivOf x)) ∧
          ∀ x ∈ AC.1, ¬ Overlaps b (ivOf x)) →
        (((DayP d devs a ∧ combine d acc.st.work_end_hour 0 ≤ a.1) ∧
            ∀ x ∈ A.1, ¬ Overlaps a (ivOf x)) ∧
          ∀ x ∈ AC.1, ¬ Overlaps a (ivOf x)) :=
      fun a b hsub hb => ⟨Q1mono a b hsub hb.1,
        fun x hx => not_ovl_mono_left hsub (hb.2 x hx)⟩
    have hr2P : ∀ s ∈ r2,
        ((DayP d devs s ∧ combine d acc.st.work_end_hour 0 ≤ s.1) ∧
          ∀ x ∈ A.1, ¬ Overlaps s (ivOf x)) ∧
          ∀ x ∈ AC.1, ¬ Overlaps s (ivOf x) := by
      intro s hs
      obtain ⟨s', hs', hsub⟩ := remove_blocks_sub hs
      exact ⟨Q1mono s s' hsub (hACP.2 s' hs'), fun x hx => remove_blocks_avoids hs x hx⟩
    have hr2pw := remove_blocks_pairwise hACdis.2 hACprop
    -- household pass
    have hHP := schedule_household_P _ Q2mono acc.st tasks d (d % 7) r2 false hr2P
    have hHdis := schedule_household_disjoint acc.st tasks d (d % 7) r2 false hr2pw
    have hHsh := schedule_household_shape acc.st tasks d (d % 7) r2 false
    -- work pool
    have hstw := (schedule_household_state acc.st tasks d (d % 7) r2 false).2.2.1
    have hwe' : H.2.2.work_end_hour ≤ 21 := by rw [hstw]; exact hwe
    have hWs : ∀ s ∈ ws, DayP d devs s ∧ s.2 ≤ combine d acc.st.work_end_hour 0 := by
      intro s hs
      refine ⟨gen_slots_DayP hwe' hs, ?_⟩
      have := gen_slots_work_hi hs
      rwa [hstw] at this
    have Rmono : ∀ a b, SubIv a b →
        (DayP d devs b ∧ b.2 ≤ combine d acc.st.work_end_hour 0) →
        (DayP d devs a ∧ a.2 ≤ combine d acc.st.work_end_hour 0) :=
      fun a b hsub hb => ⟨DayP_mono d devs a b hsub hb.1, le_trans hsub.2 hb.2⟩
    have hWspw : ws.Pairwise fun a c => ¬ Overlaps a c := gen_slots_pairwise hdevs
    have hWP := schedule_projects_P _ Rmono H.2.2 wp d ws monthly
      acc.project_hours_scheduled hWs
    have hWdis := schedule_projects_disjoint H.2.2 wp d ws monthly
      acc.project_hours_scheduled hWspw
    have hWsh := schedule_projects_shape H.2.2 wp d ws monthly
      acc.project_hours_scheduled
    -- assemble
    refine ⟨A.1 ++ AC.1 ++ H.1 ++ W.1, by simp [List.append_assoc], ?_, ?_⟩
    · intro tb htb
      simp only [List.mem_append, or_assoc] at htb
      rcases htb with htb | htb | htb | htb
      · exact ⟨(hAP.1 tb htb).1, (hAsh tb htb).2.1, Or.inl ⟨(hAsh tb htb).1,
          (hAsh tb htb).2.2⟩⟩
      · exact ⟨(hACP.1 tb htb).1.1, (hACsh tb htb).2.1, Or.inr (Or.inl
          ⟨(hACsh tb htb).1, (hACsh tb htb).2.2⟩)⟩
      · exact ⟨(hHP.1 tb htb).1.1.1, (hHsh tb htb).2.1, Or.inr (Or.inr
          ⟨(hHsh tb htb).1, (hHsh tb htb).2.2⟩)⟩
      · exact ⟨(hWP.1 tb htb).1, (hWsh tb htb).2.1, Or.inr (Or.inl
          ⟨(hWsh tb htb).1, (hWsh tb htb).2.2⟩)⟩
    · -- pairwise disjointness of the day's blocks
      have crossW : ∀ a, (DayP d devs (ivOf a) ∧
          combine d acc.st.work_end_hour 0 ≤ (ivOf a).1) →
          ∀ b ∈ W.1, ¬ Overlaps (ivOf a) (ivOf b) := by
        intro a ha b hb
        exact not_ovl_symm (not_ovl_of_le (hWP.1 b hb).2 ha.2)
      rw [List.pairwise_append, List.pairwise_append, List.pairwise_append]
      refine ⟨⟨⟨hAdis.1, hACdis.1, ?_⟩, hHdis.1, ?_⟩, hWdis.1, ?_⟩
      · intro a ha b hb
        exact not_ovl_symm ((hACP.1 b hb).2 a ha)
      · intro a ha b hb
        simp only [List.mem_append] at ha
        rcases ha with ha | ha
        · exact not_ovl_symm ((hHP.1 b hb).1.2 a ha)
        · exact not_ovl_symm ((hHP.1 b hb).2 a ha)
      · intro a ha b hb
        simp only [List.mem_append] at ha
        rcases ha with (ha | ha) | ha
        · exact crossW a ⟨(hAP.1 a ha).1, (hAP.1 a ha).2⟩ b hb
        · exact crossW a ⟨(hACP.1 a ha).1.1, (hACP.1 a ha).1.2⟩ b hb
        · exact crossW a ⟨(hHP.1 a ha).1.1.1, (hHP.1 a ha).1.1.2⟩ b hb
  · -- weekend
    rw [dayStep_weekend wp ap asg tasks events monthly acc d hw]
    dsimp only
    set devs := _get_events_for_day events d with hdevsdef
    set personal := _generate_available_slots acc.st d devs true false with hpers
    set H := _schedule_household_tasks_for_day acc.st tasks d (d % 7) personal true with hH
    set r1 := _remove_scheduled_blocks H.2.1 H.1 with hr1
    set A := _schedule_assignments_for_day asg d r1 with hA
    set r2 := _remove_scheduled_blocks A.2 A.1 with hr2
    set AC := _schedule_projects_for_day H.2.2 ap d r2 [] [] with hAC
    set r3 := _remove_scheduled_blocks AC.2.1 AC.1 with hr3
    set W := _schedule_projects_for_day H.2.2 wp d r3 monthly acc.project_hours_scheduled
      with hW
    have hP0 : ∀ s ∈ personal, DayP d devs s :=
      fun s hs => gen_slots_DayP hwe hs
    have hPpw : personal.Pairwise fun a c => ¬ Overlaps a c := gen_slots_pairwise hdevs
    -- household pass
    have hHP := schedule_household_P _ (DayP_mono d devs) acc.st tasks d (d % 7)
      personal true hP0
    have hHdis := schedule_household_disjoint acc.st tasks d (d % 7) personal true hPpw
    have hHsh := schedule_household_shape acc.st tasks d (d % 7) personal true
    have hHprop : ∀ b ∈ H.1, b.start_time ≤ b.end_time := by
      intro b hb
      obtain ⟨-, -, t, -, -, h4⟩ := hHsh b hb
      rw [h4]
      exact le_add_of_nonneg_right (Nat.cast_nonneg _)
    -- removal 1
    have Q1mono : ∀ a b, SubIv a b →
        (DayP d devs b ∧ ∀ x ∈ H.1, ¬ Overlaps b (ivOf x)) →
        (DayP d devs a ∧ ∀ x ∈ H.1, ¬ Overlaps a (ivOf x)) :=
      fun a b hsub hb => ⟨DayP_mono d devs a b hsub hb.1,
        fun x hx => not_ovl_mono_left hsub (hb.2 x hx)⟩
    have hr1P : ∀ s ∈ r1, DayP d devs s ∧ ∀ x ∈ H.1, ¬ Overlaps s (ivOf x) := by
      intro s hs
      obtain ⟨s', hs', hsub⟩ := remove_blocks_sub hs
      exact ⟨DayP_mono d devs s s' hsub (hHP.2 s' hs'), fun x hx => remove_blocks_avoids hs x hx⟩
    have hr1pw := remove_blocks_pairwise hHdis.2 hHprop
    -- assignment pass
    have hAP := schedule_assignments_P _ Q1mono asg d r1 hr1P
    have hAdis := schedule_assignments_disjoint asg d r1 hr1pw
    have hAsh := schedule_assignments_shape asg d r1
    have hAprop : ∀ b ∈ A.1, b.start_time ≤ b.end_time := by
      intro b hb
      have := (hAsh b hb).2.2
      linarith
    -- removal 2
    have Q2mono : ∀ a b, SubIv a b →
        ((DayP d devs b ∧ ∀ x ∈ H.1, ¬ Overlaps b (ivOf x)) ∧
          ∀ x ∈ A.1, ¬ Overlaps b (ivOf x)) →
        ((DayP d devs a ∧ ∀ x ∈ H.1, ¬ Overlaps a (ivOf x)) ∧
          ∀ x ∈ A.1, ¬ Overlaps a (ivOf x)) :=
      fun a b hsub hb => ⟨Q1mono a b hsub hb.1,
        fun x hx => not_ovl_mono_left hsub (hb.2 x hx)⟩
    have hr2P : ∀ s ∈ r2,
        (DayP d devs s ∧ ∀ x ∈ H.1, ¬ Overlaps s (ivOf x)) ∧
          ∀ x ∈ A.1, ¬ Overlaps s (ivOf x) := by
      intro s hs
      obtain ⟨s', hs', hsub⟩ := remove_blocks_sub hs
      exact ⟨Q1mono s s' hsub (hAP.2 s' hs'), fun x hx => remove_blocks_avoids hs x hx⟩
    have hr2pw := remove_blocks_pairwise hAdis.2 hAprop
    -- academic pass
    have hACP := schedule_projects_P _ Q2mono H.2.2 ap d r2 [] [] hr2P
    have hACdis := schedule_projects_disjoint H.2.2 ap d r2 [] [] hr2pw
    have hACsh := schedule_projects_shape H.2.2 ap d r2 [] []
    have hACprop : ∀ b ∈ AC.1, b.start_time ≤ b.end_time := by
      intro b hb
      have := (hACsh b hb).2.2
      linarith
    -- removal 3
    have Q3mono : ∀ a b, SubIv a b →
        (((DayP d devs b ∧ ∀ x ∈ H.1, ¬ Overlaps b (ivOf x)) ∧
            ∀ x ∈ A.1, ¬ Overlaps b (ivOf x)) ∧
          ∀ x ∈ AC.1, ¬ Overlaps b (ivOf x)) →
        (((DayP d devs a ∧ ∀ x ∈ H.1, ¬ Overlaps a (ivOf x)) ∧
            ∀ x ∈ A.1, ¬ Overlaps a (ivOf x)) ∧
          ∀ x ∈ AC.1, ¬ Overlaps a (ivOf x)) :=
      fun a b hsub hb => ⟨Q2mono a b hsub hb.1,
        fun x hx => not_ovl_mono_left hsub (hb.2 x hx)⟩
    have hr3P : ∀ s ∈ r3,
        ((DayP d devs s ∧ ∀ x ∈ H.1, ¬ Overlaps s (ivOf x)) ∧
          ∀ x ∈ A.1, ¬ Overlaps s (ivOf x)) ∧
          ∀ x ∈ AC.1, ¬ Overlaps s (ivOf x) := by
      intro s hs
      obtain ⟨s', hs', hsub⟩ := remove_blocks_sub hs
      exact ⟨Q2mono s s' hsub (hACP.2 s' hs'), fun x hx => remove_blocks_avoids hs x hx⟩
    have hr3pw := remove_blocks_pairwise hACdis.2 hACprop
    -- work pass
    have hWP := schedule_projects_P _ Q3mono H.2.2 wp d r3 monthly
      acc.project_hours_scheduled hr3P
    have hWdis := schedule_projects_disjoint H.2.2 wp d r3 monthly
      acc.project_hours_scheduled hr3pw
    have hWsh := schedule_projects_shape H.2.2 wp d r3 monthly
      acc.project_hours_scheduled
    -- assemble
    refine ⟨H.1 ++ A.1 ++ AC.1 ++ W.1, by simp [List.append_assoc], ?_, ?_⟩
    · intro tb htb
      simp only [List.mem_append, or_assoc] at htb
      rcases htb with htb | htb | htb | htb
      · exact ⟨hHP.1 tb htb, (hHsh tb htb).2.1, Or.inr (Or.inr
          ⟨(hHsh tb htb).1, (hHsh tb htb).2.2⟩)⟩
      · exact ⟨(hAP.1 tb htb).1, (hAsh tb htb).2.1, Or.inl ⟨(hAsh tb htb).1,
          (hAsh tb htb).2.2⟩⟩
      · exact ⟨(hACP.1 tb htb).1.1, (hACsh tb htb).2.1, Or.inr (Or.inl
          ⟨(hACsh tb htb).1, (hACsh tb htb).2.2⟩)⟩
      · exact ⟨(hWP.1 tb htb).1.1.1, (hWsh tb htb).2.1, Or.inr (Or.inl
          ⟨(hWsh tb htb).1, (hWsh tb htb).2.2⟩)⟩
    · rw [List.pairwise_append, List.pairwise_append, List.pairwise_append]
      refine ⟨⟨⟨hHdis.1, hAdis.1, ?_⟩, hACdis.1, ?_⟩, hWdis.1, ?_⟩
      · intro a ha b hb
        exact not_ovl_symm ((hAP.1 b hb).2 a ha)
      · intro a ha b hb
        simp only [List.mem_append] at ha
        rcases ha with ha | ha
        · exact not_ovl_symm ((hACP.1 b hb).1.2 a ha)
        · exact not_ovl_symm ((hACP.1 b hb).2 a ha)
      · intro a ha b hb
        simp only [List.mem_append] at ha
        rcases ha with (ha | ha) | ha
        · exact not_ovl_symm (((hWP.1 b hb).1).1.2 a ha)
        · exact not_ovl_symm (((hWP.1 b hb).1).2 a ha)
        · exact not_ovl_symm ((hWP.1 b hb).2 a ha)

theorem rat_floor_eq_intFloor (q : ℚ) : q.floor = ⌊q⌋ := by
  rw [Rat.floor_def', Rat.floor_def]

theorem dtDate_eq_of {d : Date} {q : ℚ} (h1 : combine d 0 0 ≤ q)
    (h2 : q < combine (d + 1) 0 0) : dtDate q = d := by
  unfold dtDate
  rw [rat_floor_eq_intFloor]
  have hd : ((d : ℚ)) ≤ q / 1440 ∧ q / 1440 < (d : ℚ) + 1 := by
    unfold combine at h1 h2
    push_cast at h1 h2 ⊢
    constructor
    · rw [le_div_iff₀ (by norm_num : (0:ℚ) < 1440)]
      linarith
    · rw [div_lt_iff₀ (by norm_num : (0:ℚ) < 1440)]
      linarith
  exact Int.floor_eq_iff.mpr (by exact_mod_cast hd)

theorem dtDate_lower (q : ℚ) : (dtDate q : ℚ) * 1440 ≤ q := by
  unfold dtDate
  rw [rat_floor_eq_intFloor]
  have := Int.floor_le (q / 1440)
  calc ((⌊q / 1440⌋ : ℚ)) * 1440 ≤ q / 1440 * 1440 := by
        exact mul_le_mul_of_nonneg_right this (by norm_num)
    _ = q := by field_simp

theorem dayStep_state (wp ap : List ProjectTable) (asg : List AssignmentTable)
    (tasks : List HouseholdTaskTable) (events : List ExternalEventTable)
    (monthly : QDict) (acc : DayAcc) (d : Date) :
    (dayStep wp ap asg tasks events monthly acc d).st.work_end_hour =
      acc.st.work_end_hour ∧
    (dayStep wp ap asg tasks events monthly acc d).st.task_timing_cache =
      acc.st.task_timing_cache := by
  rcases Nat.lt_or_ge (d % 7) 5 with hw | hw
  · rw [dayStep_weekday wp ap asg tasks events monthly acc d (Nat.not_le.mpr hw)]
    dsimp only
    exact ⟨(schedule_household_state _ _ _ _ _ _).2.2.1,
      (schedule_household_state _ _ _ _ _ _).2.2.2.2.2⟩
  · rw [dayStep_weekend wp ap asg tasks events monthly acc d hw]
    dsimp only
    exact ⟨(schedule_household_state _ _ _ _ _ _).2.2.1,
      (schedule_household_state _ _ _ _ _ _).2.2.2.2.2⟩

theorem foldl_dayStep_inv (wp ap : List ProjectTable) (asg : List AssignmentTable)
    (tasks : List HouseholdTaskTable) (events : List ExternalEventTable)
    (monthly : QDict) (hev : ∀ e ∈ events, e.start_time ≤ e.end_time) :
    ∀ (days : List Date) (acc : DayAcc), acc.st.work_end_hour ≤ 21 →
      ∃ L : List (Date × List TimeBlock),
        L.map Prod.fst = days ∧
        (days.foldl (dayStep wp ap asg tasks events monthly) acc).blocks =
          acc.blocks ++ (L.map Prod.snd).flatten ∧
        (∀ p ∈ L, ∀ tb ∈ p.2,
          GoodBlock tasks p.1 (_get_events_for_day events p.1) tb) ∧
        (∀ p ∈ L, p.2.Pairwise fun a c => ¬ Overlaps (ivOf a) (ivOf c)) ∧
        (days.foldl (dayStep wp ap asg tasks events monthly) acc).st.work_end_hour =
          acc.st.work_end_hour ∧
        (days.foldl (dayStep wp ap asg tasks events monthly) acc).st.task_timing_cache =
          acc.st.task_timing_cache := by
  intro days
  induction days with
  | nil =>
    intro acc hwe
    exact ⟨[], rfl, by simp, fun p hp => (List.not_mem_nil p hp).elim,
      fun p hp => (List.not_mem_nil p hp).elim, rfl, rfl⟩
  | cons d rest ih =>
    intro acc hwe
    obtain ⟨dayBlocks, hblocks, hgood, hpw⟩ :=
      dayStep_facts wp ap asg tasks events monthly acc d hwe hev
    have hstate := dayStep_state wp ap asg tasks events monthly acc d
    obtain ⟨L', hfst, hblk, hgood', hpw', hwe', hcache'⟩ :=
      ih (dayStep wp ap asg tasks events monthly acc d)
        (by rw [hstate.1]; exact hwe)
    refine ⟨(d, dayBlocks) :: L', by simp [hfst], ?_, ?_, ?_, ?_, ?_⟩
    · rw [List.foldl_cons, hblk, hblocks]
      simp [List.append_assoc]
    · intro p hp
      rcases List.mem_cons.mp hp with rfl | hp
      · exact hgood
      · exact hgood' p hp
    · intro p hp
      rcases List.mem_cons.mp hp with rfl | hp
      · exact hpw
      · exact hpw' p hp
    · rw [List.foldl_cons, hwe', hstate.1]
    · rw [List.foldl_cons, hcache', hstate.2]

theorem foldl_dayStep_cache (wp ap : List ProjectTable) (asg : List AssignmentTable)
    (tasks : List HouseholdTaskTable) (events : List ExternalEventTable)
    (monthly : QDict) :
    ∀ (days : List Date) (acc : DayAcc),
      (days.foldl (dayStep wp ap asg tasks events monthly) acc).st.task_timing_cache =
        acc.st.task_timing_cache := by
  intro days
  induction days with
  | nil => intro acc; rfl
  | cons d rest ih =>
    intro acc
    rw [List.foldl_cons, ih, (dayStep_state wp ap asg tasks events monthly acc d).2]

theorem foldl_dayStep_work_end (wp ap : List ProjectTable) (asg : List AssignmentTable)
    (tasks : List HouseholdTaskTable) (events : List ExternalEventTable)
    (monthly : QDict) :
    ∀ (days : List Date) (acc : DayAcc),
      (days.foldl (dayStep wp ap asg tasks events monthly) acc).st.work_end_hour =
        acc.st.work_end_hour := by
  intro days
  induction days with
  | nil => intro acc; rfl
  | cons d rest ih =>
    intro acc
    rw [List.foldl_cons, ih, (dayStep_state wp ap asg tasks events monthly acc d).1]

theorem cacheFill_work_end (oracle : HouseholdTaskTable → Timing) :
    ∀ (tasks : List HouseholdTaskTable) (st0 : SmartScheduler),
      (tasks.foldl
        (fun s task =>
          if (s.task_timing_cache.lookup task.id).isSome then s
          else { s with task_timing_cache := (task.id, oracle task) :: s.task_timing_cache })
        st0).work_end_hour = st0.work_end_hour := by
  intro tasks
  induction tasks with
  | nil => intro st0; rfl
  | cons t rest ih =>
    intro st0
    rw [List.foldl_cons, ih]
    split_ifs <;> rfl

theorem cacheFill_mono (oracle : HouseholdTaskTable → Timing) (k : String) :
    ∀ (tasks : List HouseholdTaskTable) (st0 : SmartScheduler),
      (st0.task_timing_cache.lookup k).isSome →
      ((tasks.foldl
        (fun s task =>
          if (s.task_timing_cache.lookup task.id).isSome then s
          else { s with task_timing_cache := (task.id, oracle task) :: s.task_timing_cache })
        st0).task_timing_cache.lookup k).isSome := by
  intro tasks
  induction tasks with
  | nil => intro st0 h; exact h
  | cons t rest ih =>
    intro st0 h
    rw [List.foldl_cons]
    apply ih
    split_ifs with h1
    · exact h
    · dsimp only [List.lookup]
      rcases hbe : k == t.id with _ | _
      · exact h
      · rfl

theorem cacheFill_lookup (oracle : HouseholdTaskTable → Timing) :
    ∀ (tasks : List HouseholdTaskTable) (st0 : SmartScheduler) (t : HouseholdTaskTable),
      t ∈ tasks →
      ((tasks.foldl
        (fun s task =>
          if (s.task_timing_cache.lookup task.id).isSome then s
          else { s with task_timing_cache := (task.id, oracle task) :: s.task_timing_cache })
        st0).task_timing_cache.lookup t.id).isSome := by
  intro tasks
  induction tasks with
  | nil => intro st0 t ht; exact absurd ht (List.not_mem_nil t)
  | cons x rest ih =>
    intro st0 t ht
    rcases List.mem_cons.mp ht with rfl | ht
    · rw [List.foldl_cons]
      apply cacheFill_mono
      split_ifs with h1
      · exact h1
      · dsimp only [List.lookup]
        rw [beq_self_eq_true]
        rfl
    · rw [List.foldl_cons]
      exact ih _ t ht

/-- C9 (amended): the per-task timing cache is not discarded when
`generate_schedule` returns: the scheduler state it leaves behind still holds
a timing entry for every input household task, so a second call on the same
instance starts from different state. -/
theorem session_state_persists (st0 : SmartScheduler) (oracle : HouseholdTaskTable → Timing)
    (projects : List ProjectTable) (assignments : List AssignmentTable)
    (tasks : List HouseholdTaskTable) (events : List ExternalEventTable)
    (sd ed : Date) (t : HouseholdTaskTable) (ht : t ∈ tasks) :
    ((generate_schedule st0 oracle projects assignments tasks events
      sd ed).2.task_timing_cache.lookup t.id).isSome = true := by
  unfold generate_schedule
  dsimp only
  rw [foldl_dayStep_cache]
  exact cacheFill_lookup oracle tasks st0 t ht

theorem session_state_persists_witness :
    ((generate_schedule schedulerDefault oracleDefault [] [] [c9_task] [] 0
      0).2.task_timing_cache.lookup c9_task.id).isSome = true :=
  session_state_persists schedulerDefault oracleDefault [] [] [c9_task] [] 0 0 c9_task
    (by simp)

theorem dayStep_shape (wp ap : List ProjectTable) (asg : List AssignmentTable)
    (tasks : List HouseholdTaskTable) (events : List ExternalEventTable)
    (monthly : QDict) (acc : DayAcc) (d : Date) :
    ∀ tb ∈ (dayStep wp ap asg tasks events monthly acc d).blocks,
      tb ∈ acc.blocks ∨
      (tb.status = .scheduled ∧
        (tb.task_type = .assignment ∧ tb.end_time = tb.start_time + 120 ∨
         tb.task_type = .project ∧ tb.start_time + 30 ≤ tb.end_time ∨
         tb.task_type = .household ∧ ∃ t ∈ tasks, tb.task_id = t.id ∧
           tb.end_time = tb.start_time + (t.estimated_duration_minutes : ℚ))) := by
  intro tb htb
  rcases Nat.lt_or_ge (d % 7) 5 with hw | hw
  · rw [dayStep_weekday wp ap asg tasks events monthly acc d (Nat.not_le.mpr hw)] at htb
    dsimp only at htb
    simp only [List.mem_append, or_assoc] at htb
    rcases htb with htb | htb | htb | htb | htb
    · exact Or.inl htb
    · have h := schedule_assignments_shape _ _ _ tb htb
      exact Or.inr ⟨h.2.1, Or.inl ⟨h.1, h.2.2⟩⟩
    · have h := schedule_projects_shape _ _ _ _ _ _ tb htb
      exact Or.inr ⟨h.2.1, Or.inr (Or.inl ⟨h.1, h.2.2⟩)⟩
    · have h := schedule_household_shape _ _ _ _ _ _ tb htb
      exact Or.inr ⟨h.2.1, Or.inr (Or.inr ⟨h.1, h.2.2⟩)⟩
    · have h := schedule_projects_shape _ _ _ _ _ _ tb htb
      exact Or.inr ⟨h.2.1, Or.inr (Or.inl ⟨h.1, h.2.2⟩)⟩
  · rw [dayStep_weekend wp ap asg tasks events monthly acc d hw] at htb
    dsimp only at htb
    simp only [List.mem_append, or_assoc] at htb
    rcases htb with htb | htb | htb | htb | htb
    · exact Or.inl htb
    · have h := schedule_household_shape _ _ _ _ _ _ tb htb
      exact Or.inr ⟨h.2.1, Or.inr (Or.inr ⟨h.1, h.2.2⟩)⟩
    · have h := schedule_assignments_shape _ _ _ tb htb
      exact Or.inr ⟨h.2.1, Or.inl ⟨h.1, h.2.2⟩⟩
    · have h := schedule_projects_shape _ _ _ _ _ _ tb htb
      exact Or.inr ⟨h.2.1, Or.inr (Or.inl ⟨h.1, h.2.2⟩)⟩
    · have h := schedule_projects_shape _ _ _ _ _ _ tb htb
      exact Or.inr ⟨h.2.1, Or.inr (Or.inl ⟨h.1, h.2.2⟩)⟩

theorem foldl_dayStep_shape (wp ap : List ProjectTable) (asg : List AssignmentTable)
    (tasks : List HouseholdTaskTable) (events : List ExternalEventTable)
    (monthly : QDict) :
    ∀ (days : List Date) (acc : DayAcc),
      ∀ tb ∈ (days.foldl (dayStep wp ap asg tasks events monthly) acc).blocks,
        tb ∈ acc.blocks ∨
        (tb.status = .scheduled ∧
          (tb.task_type = .assignment ∧ tb.end_time = tb.start_time + 120 ∨
           tb.task_type = .project ∧ tb.start_time + 30 ≤ tb.end_time ∨
           tb.task_type = .household ∧ ∃ t ∈ tasks, tb.task_id = t.id ∧
             tb.end_time = tb.start_time + (t.estimated_duration_minutes : ℚ))) := by
  intro days
  induction days with
  | nil => intro acc tb htb; exact Or.inl htb
  | cons d rest ih =>
    intro acc tb htb
    rw [List.foldl_cons] at htb
    rcases ih _ tb htb with h | h
    · exact dayStep_shape wp ap asg tasks events monthly acc d tb h
    · exact Or.inr h

/-- C6 (amended): every free slot the generator returns is at least
`min_block_minutes` (30) long, every assignment block lasts exactly
120 minutes, every project block at least 30 minutes, but a household block
lasts exactly its task's `estimated_duration_minutes`, which may be under
30 minutes. -/
theorem min_duration_by_type (st0 : SmartScheduler) (oracle : HouseholdTaskTable → Timing)
    (projects : List ProjectTable) (assignments : List AssignmentTable)
    (tasks : List HouseholdTaskTable) (events : List ExternalEventTable) (sd ed : Date) :
    (∀ (st : SmartScheduler) (d : Date) (evs : List ExternalEventTable) (w m : Bool)
        (s : Slot), s ∈ _generate_available_slots st d evs w m →
        (st.min_block_minutes : ℚ) ≤ s.2 - s.1) ∧
    ∀ tb ∈ (generate_schedule st0 oracle projects assignments tasks events sd ed).1,
      (tb.task_type = .assignment → tb.end_time = tb.start_time + 120) ∧
      (tb.task_type = .project → tb.start_time + 30 ≤ tb.end_time) ∧
      (tb.task_type = .household → ∃ t ∈ tasks, tb.task_id = t.id ∧
        tb.end_time = tb.start_time + (t.estimated_duration_minutes : ℚ)) := by
  constructor
  · intro st d evs w m s hs
    exact (gen_slots_facts hs).1
  · intro tb htb
    unfold generate_schedule at htb
    dsimp only at htb
    rcases foldl_dayStep_shape _ _ _ _ _ _ _ _ tb htb with h | ⟨hstat, hty⟩
    · exact absurd h (List.not_mem_nil tb)
    · refine ⟨?_, ?_, ?_⟩ <;> intro hT
      · rcases hty with ⟨h1, h2⟩ | ⟨h1, h2⟩ | ⟨h1, h2⟩
        · exact h2
        · rw [hT] at h1; exact TaskType.noConfusion h1
        · rw [hT] at h1; exact TaskType.noConfusion h1
      · rcases hty with ⟨h1, h2⟩ | ⟨h1, h2⟩ | ⟨h1, h2⟩
        · rw [hT] at h1; exact TaskType.noConfusion h1
        · exact h2
        · rw [hT] at h1; exact TaskType.noConfusion h1
      · rcases hty with ⟨h1, h2⟩ | ⟨h1, h2⟩ | ⟨h1, h2⟩
        · rw [hT] at h1; exact TaskType.noConfusion h1
        · rw [hT] at h1; exact TaskType.noConfusion h1
        · exact h2

theorem min_duration_by_type_witness :
    ∃ t ∈ [c6_task],
      (⟨.household, "t1", "tiny", (960 : ℚ), (970 : ℚ), .scheduled⟩ : TimeBlock).task_id =
        t.id ∧
      (⟨.household, "t1", "tiny", (960 : ℚ), (970 : ℚ), .scheduled⟩ :
        TimeBlock).end_time =
        (⟨.household, "t1", "tiny", (960 : ℚ), (970 : ℚ), .scheduled⟩ :
          TimeBlock).start_time + ((c6_task.estimated_duration_minutes : ℚ)) := by
  have hmem : (⟨.household, "t1", "tiny", (960 : ℚ), (970 : ℚ), .scheduled⟩ : TimeBlock) ∈
      (generate_schedule schedulerDefault oracleDefault [] [] [c6_task] [] 0 0).1 := by
    have h : (generate_schedule schedulerDefault oracleDefault [] [] [c6_task] [] 0 0).1 =
        [⟨.household, "t1", "tiny", (960 : ℚ), (970 : ℚ), .scheduled⟩] := by
      with_unfolding_all rfl
    rw [h]
    simp
  have h := (min_duration_by_type schedulerDefault oracleDefault [] [] [c6_task] [] 0
    0).2 _ hmem
  obtain ⟨t, ht, h1, h2⟩ := h.2.2 rfl
  have : t = c6_task := by
    simp only [List.mem_singleton] at ht
    exact ht
  subst this
  exact ⟨c6_task, ht, h1, h2⟩

theorem generate_schedule_L (st0 : SmartScheduler) (oracle : HouseholdTaskTable → Timing)
    (projects : List ProjectTable) (assignments : List AssignmentTable)
    (tasks : List HouseholdTaskTable) (events : List ExternalEventTable)
    (sd ed : Date) (hwe : st0.work_end_hour ≤ 21)
    (hev : ∀ e ∈ events, e.start_time ≤ e.end_time) :
    ∃ L : List (Date × List TimeBlock),
      L.map Prod.fst = List.range' sd (ed + 1 - sd) ∧
      (generate_schedule st0 oracle projects assignments tasks events sd ed).1 =
        (L.map Prod.snd).flatten ∧
      (∀ p ∈ L, ∀ tb ∈ p.2, GoodBlock tasks p.1 (_get_events_for_day events p.1) tb) ∧
      (∀ p ∈ L, p.2.Pairwise fun a c => ¬ Overlaps (ivOf a) (ivOf c)) := by
  obtain ⟨L, h1, h2, h3, h4, -, -⟩ :=
    foldl_dayStep_inv (projects.filter fun p => p.source_adapter != "document_parser")
      (projects.filter fun p => p.source_adapter == "document_parser") assignments tasks
      events
      (_calculate_project_monthly_allocations
        (projects.filter fun p => p.source_adapter != "document_parser") sd ed)
      hev (List.range' sd (ed + 1 - sd))
      ⟨[], tasks.foldl (fun s task =>
          if (s.task_timing_cache.lookup task.id).isSome then s
          else { s with task_timing_cache := (task.id, oracle task) ::
            s.task_timing_cache }) st0, []⟩
      (by rw [cacheFill_work_end]; exact hwe)
  refine ⟨L, h1, ?_, h3, h4⟩
  have hgen : (generate_schedule st0 oracle projects assignments tasks events sd ed).1 =
      ((List.range' sd (ed + 1 - sd)).foldl
        (dayStep (projects.filter fun p => p.source_adapter != "document_parser")
          (projects.filter fun p => p.source_adapter == "document_parser") assignments tasks
          events
          (_calculate_project_monthly_allocations
            (projects.filter fun p => p.source_adapter != "document_parser") sd ed))
        ⟨[], tasks.foldl (fun s task =>
            if (s.task_timing_cache.lookup task.id).isSome then s
            else { s with task_timing_cache := (task.id, oracle task) ::
              s.task_timing_cache }) st0, []⟩).blocks := rfl
  rw [hgen, h2]
  simp

theorem range'_pairwise_lt (s n : Nat) : (List.range' s n).Pairwise (· < ·) := by
  induction n generalizing s with
  | zero => exact List.Pairwise.nil
  | succ n ih =>
    rw [List.range'_succ]
    refine List.Pairwise.cons ?_ (ih (s + 1))
    intro b hb
    have := List.mem_range'_1.mp hb
    omega

theorem combine_day_lt_next (d : Date) : combine d 21 0 < combine (d + 1) 0 0 := by
  unfold combine
  push_cast
  linarith

theorem goodBlock_day {tasks : List HouseholdTaskTable} {d : Date}
    {devs : List ExternalEventTable} {tb : TimeBlock} (h : GoodBlock tasks d devs tb) :
    dtDate tb.start_time = d := by
  apply dtDate_eq_of h.1.1.1
  have h2 : tb.end_time ≤ combine d 21 0 := h.1.1.2
  have h3 := goodBlock_le h
  have h4 := combine_day_lt_next d
  calc tb.start_time ≤ tb.end_time := h3
    _ ≤ combine d 21 0 := h2
    _ < combine (d + 1) 0 0 := h4

/-- C5 (amended): every block returned by `generate_schedule` has status
SCHEDULED and the output is grouped by day in ascending day order (the
start-day is non-decreasing along the list); within one day the list is not
necessarily sorted by start time. -/
theorem output_status_and_day_order (st0 : SmartScheduler)
    (oracle : HouseholdTaskTable → Timing) (projects : List ProjectTable)
    (assignments : List AssignmentTable) (tasks : List HouseholdTaskTable)
    (events : List ExternalEventTable) (sd ed : Date)
    (hwe : st0.work_end_hour ≤ 21)
    (hev : ∀ e ∈ events, e.start_time ≤ e.end_time) :
    (∀ tb ∈ (generate_schedule st0 oracle projects assignments tasks events sd ed).1,
      tb.status = .scheduled) ∧
    (generate_schedule st0 oracle projects assignments tasks events sd ed).1.Pairwise
      (fun a b => dtDate a.start_time ≤ dtDate b.start_time) := by
  obtain ⟨L, hfst, hout, hgood, hpw⟩ :=
    generate_schedule_L st0 oracle projects assignments tasks events sd ed hwe hev
  have hLlt : L.Pairwise fun p q => p.1 < q.1 := by
    have h := range'_pairwise_lt sd (ed + 1 - sd)
    rw [← hfst] at h
    exact List.pairwise_map.mp h
  rw [hout]
  constructor
  · intro tb htb
    rw [List.mem_flatten] at htb
    obtain ⟨l, hl, htbl⟩ := htb
    rw [List.mem_map] at hl
    obtain ⟨p, hp, rfl⟩ := hl
    exact (hgood p hp tb htbl).2.1
  · rw [List.pairwise_flatten]
    constructor
    · intro l hl
      rw [List.mem_map] at hl
      obtain ⟨p, hp, rfl⟩ := hl
      apply List.pairwise_of_forall_mem_list
      intro a ha b hb
      rw [goodBlock_day (hgood p hp a ha), goodBlock_day (hgood p hp b hb)]
    · rw [List.pairwise_map]
      refine List.Pairwise.imp_of_mem ?_ hLlt
      intro p q hp hq hlt x hx y hy
      rw [goodBlock_day (hgood p hp x hx), goodBlock_day (hgood q hq y hy)]
      exact_mod_cast Nat.le_of_lt hlt

theorem output_status_and_day_order_witness :
    (∀ tb ∈ (generate_schedule schedulerDefault oracleDefault [c1_project]
        [c5_assignment] [] [] 0 0).1, tb.status = .scheduled) ∧
    (generate_schedule schedulerDefault oracleDefault [c1_project] [c5_assignment]
      [] [] 0 0).1.Pairwise
      (fun a b => dtDate a.start_time ≤ dtDate b.start_time) :=
  output_status_and_day_order schedulerDefault oracleDefault [c1_project]
    [c5_assignment] [] [] 0 0 (by decide)
    (fun e he => absurd he (List.not_mem_nil e))

theorem combine_zero (d : Date) : combine d 0 0 = (d : ℚ) * 1440 := by
  unfold combine
  push_cast
  ring

theorem combine_day_mono {d d' : Date} (h : d ≤ d') : combine d 0 0 ≤ combine d' 0 0 := by
  rw [combine_zero, combine_zero]
  have : (d : ℚ) ≤ (d' : ℚ) := by exact_mod_cast h
  linarith

theorem combine_2359_lt (d : Date) : combine d 23 59 < combine (d + 1) 0 0 := by
  unfold combine
  push_cast
  linarith

theorem life_blocks_window {d : Date} {w : Bool} :
    ∀ l ∈ _get_life_necessity_blocks d w,
      combine d 0 0 ≤ l.1 ∧ l.2 ≤ combine d 23 59 := by
  intro l hl
  unfold _get_life_necessity_blocks at hl
  simp only [List.mem_cons, List.not_mem_nil, or_false] at hl
  rcases hl with rfl | rfl | rfl | rfl <;>
    exact ⟨combine_day_le d _ _, combine_le_combine (by norm_num)⟩

/-- C1 (amended): the blocks produced by `generate_schedule` are pairwise
disjoint, avoid every day's four life-necessity blocks, and avoid every
external event, provided every event starts strictly before it ends and ends
within the calendar day on which it starts; an event that crosses midnight is
only subtracted on its start day, so the guarantee needs this hypothesis. -/
theorem generate_schedule_disjoint (st0 : SmartScheduler)
    (oracle : HouseholdTaskTable → Timing) (projects : List ProjectTable)
    (assignments : List AssignmentTable) (tasks : List HouseholdTaskTable)
    (events : List ExternalEventTable) (sd ed : Date)
    (hwe : st0.work_end_hour ≤ 21)
    (hev : ∀ e ∈ events, e.start_time < e.end_time ∧
      e.end_time ≤ ((dtDate e.start_time : ℚ) + 1) * 1440) :
    ((generate_schedule st0 oracle projects assignments tasks events sd ed).1.Pairwise
      fun a b => ¬ Overlaps (ivOf a) (ivOf b)) ∧
    (∀ tb ∈ (generate_schedule st0 oracle projects assignments tasks events sd ed).1,
      ∀ (d : Date), ∀ l ∈ _get_life_necessity_blocks d true,
        ¬ Overlaps (ivOf tb) l) ∧
    (∀ tb ∈ (generate_schedule st0 oracle projects assignments tasks events sd ed).1,
      ∀ e ∈ events, ¬ Overlaps (ivOf tb) (e.start_time, e.end_time)) := by
  obtain ⟨L, hfst, hout, hgood, hpw⟩ :=
    generate_schedule_L st0 oracle projects assignments tasks events sd ed hwe
      (fun e he => le_of_lt (hev e he).1)
  have hLlt : L.Pairwise fun p q => p.1 < q.1 := by
    have h := range'_pairwise_lt sd (ed + 1 - sd)
    rw [← hfst] at h
    exact List.pairwise_map.mp h
  have hmem : ∀ tb ∈ (generate_schedule st0 oracle projects assignments tasks events
      sd ed).1, ∃ p ∈ L, tb ∈ p.2 := by
    intro tb htb
    rw [hout, List.mem_flatten] at htb
    obtain ⟨l, hl, htbl⟩ := htb
    rw [List.mem_map] at hl
    obtain ⟨p, hp, rfl⟩ := hl
    exact ⟨p, hp, htbl⟩
  refine ⟨?_, ?_, ?_⟩
  · rw [hout, List.pairwise_flatten]
    constructor
    · intro l hl
      rw [List.mem_map] at hl
      obtain ⟨p, hp, rfl⟩ := hl
      exact hpw p hp
    · rw [List.pairwise_map]
      refine List.Pairwise.imp_of_mem ?_ hLlt
      intro p q hp hq hlt x hx y hy
      refine not_ovl_of_le ((hgood p hp x hx).1.1.2) ?_
      calc combine p.1 21 0 ≤ combine (p.1 + 1) 0 0 := le_of_lt (combine_day_lt_next p.1)
        _ ≤ combine q.1 0 0 := combine_day_mono hlt
        _ ≤ (ivOf y).1 := (hgood q hq y hy).1.1.1
  · intro tb htb d l hl
    obtain ⟨p, hp, htbl⟩ := hmem tb htb
    have hg := hgood p hp tb htbl
    rcases Nat.lt_trichotomy p.1 d with hc | hc | hc
    · refine not_ovl_of_le hg.1.1.2 ?_
      calc combine p.1 21 0 ≤ combine (p.1 + 1) 0 0 := le_of_lt (combine_day_lt_next p.1)
        _ ≤ combine d 0 0 := combine_day_mono hc
        _ ≤ l.1 := (life_blocks_window l hl).1
    · subst hc
      exact hg.1.2.1 l hl
    · refine not_ovl_symm (not_ovl_of_le (life_blocks_window l hl).2 ?_)
      calc combine d 23 59 ≤ combine (d + 1) 0 0 := le_of_lt (combine_2359_lt d)
        _ ≤ combine p.1 0 0 := combine_day_mono hc
        _ ≤ (ivOf tb).1 := hg.1.1.1
  · intro tb htb e he
    obtain ⟨p, hp, htbl⟩ := hmem tb htb
    have hg := hgood p hp tb htbl
    rcases lt_trichotomy (dtDate e.start_time) (p.1 : Int) with hc | hc | hc
    · refine not_ovl_symm (not_ovl_of_le (b := ivOf tb) (c := combine p.1 0 0)
        ?_ hg.1.1.1)
      calc e.end_time ≤ ((dtDate e.start_time : ℚ) + 1) * 1440 := (hev e he).2
        _ ≤ (p.1 : ℚ) * 1440 := by
            have h1 : dtDate e.start_time + 1 ≤ (p.1 : Int) := hc
            have h2 : ((dtDate e.start_time : ℚ) + 1) ≤ ((p.1 : Int) : ℚ) := by
              exact_mod_cast h1
            push_cast at h2 ⊢
            linarith
        _ = combine p.1 0 0 := (combine_zero p.1).symm
    · have hmemd : e ∈ _get_events_for_day events p.1 := by
        unfold _get_events_for_day
        rw [List.mem_filter]
        exact ⟨he, by rw [hc]; exact beq_self_eq_true _⟩
      exact hg.1.2.2 e hmemd
    · refine not_ovl_of_le (c := combine (p.1 + 1) 0 0)
        (le_trans hg.1.1.2 (le_of_lt (combine_day_lt_next p.1))) ?_
      have h1 : ((p.1 : Int) + 1) ≤ dtDate e.start_time := hc
      have h2 : ((p.1 : ℚ) + 1) ≤ ((dtDate e.start_time : Int) : ℚ) := by exact_mod_cast h1
      have h4 : ((p.1 : ℚ) + 1) * 1440 ≤ ((dtDate e.start_time : Int) : ℚ) * 1440 :=
        mul_le_mul_of_nonneg_right h2 (by norm_num)
      rw [combine_zero]
      push_cast
      have h3 := dtDate_lower e.start_time
      push_cast at h4
      linarith

theorem generate_schedule_disjoint_witness :
    ((generate_schedule schedulerDefault oracleDefault [] [] [] [c4_event] 0 0).1.Pairwise
      fun a b => ¬ Overlaps (ivOf a) (ivOf b)) ∧
    (∀ tb ∈ (generate_schedule schedulerDefault oracleDefault [] [] [] [c4_event] 0 0).1,
      ∀ (d : Date), ∀ l ∈ _get_life_necessity_blocks d true,
        ¬ Overlaps (ivOf tb) l) ∧
    (∀ tb ∈ (generate_schedule schedulerDefault oracleDefault [] [] [] [c4_event] 0 0).1,
      ∀ e ∈ [c4_event], ¬ Overlaps (ivOf tb) (e.start_time, e.end_time)) :=
  generate_schedule_disjoint schedulerDefault oracleDefault [] [] [] [c4_event] 0 0
    (by decide)
    (by
      intro e he
      simp only [List.mem_cons, List.not_mem_nil, or_false] at he
      subst he
      exact ⟨of_decide_eq_true (by with_unfolding_all rfl),
        of_decide_eq_true (by with_unfolding_all rfl)⟩)

theorem sumHours_nil (k : String) : sumHours k [] = 0 := rfl

theorem sumHours_append (k : String) (l1 l2 : List TimeBlock) :
    sumHours k (l1 ++ l2) = sumHours k l1 + sumHours k l2 := by
  unfold sumHours
  rw [List.filter_append, List.map_append, List.sum_append]

theorem sumHours_cons (k : String) (tb : TimeBlock) (l : List TimeBlock) :
    sumHours k (tb :: l) =
      (if tb.task_type == TaskType.project && tb.task_id == k then
        (tb.end_time - tb.start_time) / 60 else 0) + sumHours k l := by
  unfold sumHours
  rw [List.filter_cons]
  split_ifs with h
  · rw [List.map_cons, List.sum_cons]
  · rw [zero_add]

theorem sumHours_eq_zero_of (k : String) (l : List TimeBlock)
    (h : ∀ tb ∈ l, tb.task_type ≠ .project) : sumHours k l = 0 := by
  induction l with
  | nil => rfl
  | cons tb rest ih =>
    rw [sumHours_cons]
    have h1 : (tb.task_type == TaskType.project) = false := by
      rcases hbe : tb.task_type == TaskType.project with _ | _
      · rfl
      · exact absurd (eq_of_beq hbe) (h tb (List.mem_cons_self tb rest))
    rw [h1]
    simp only [Bool.false_and, Bool.false_eq_true, if_false, zero_add]
    exact ih fun tb htb => h tb (List.mem_cons_of_mem _ htb)

theorem qdictAdd_lookup_same (m : QDict) (k : String) (v : ℚ) :
    (((qdictAdd m k v).lookup k).getD 0) = ((m.lookup k).getD 0) + v := by
  unfold qdictAdd
  dsimp only [List.lookup]
  rw [beq_self_eq_true]
  rfl

theorem qdictAdd_lookup_other (m : QDict) (k0 k : String) (v : ℚ) (h : k ≠ k0) :
    ((qdictAdd m k0 v).lookup k) = m.lookup k := by
  unfold qdictAdd
  dsimp only [List.lookup]
  have hbe : (k == k0) = false := beq_eq_false_iff_ne.mpr h
  rw [hbe]

theorem schedule_projects_nil_monthly (st : SmartScheduler) (ps : List ProjectTable)
    (d : Date) (slots : List Slot) :
    _schedule_projects_for_day st ps d slots [] [] = ([], slots, []) := by
  unfold _schedule_projects_for_day
  dsimp only
  have h : (ps.filterMap fun project =>
      let target_hours := (([] : QDict).lookup project.id).getD 0
      let scheduled_hours := (([] : QDict).lookup project.id).getD 0
      let deficit := target_hours - scheduled_hours
      let hours_remaining := project.total_hours_allocated - project.hours_used
      if 0 < deficit ∧ 0 < hours_remaining then some (deficit, project) else none) = [] := by
    rw [List.filterMap_eq_nil_iff]
    intro p hp
    dsimp only [List.lookup]
    rw [if_neg]
    intro hcon
    exact absurd hcon.1 (by norm_num)
  rw [h]
  rfl

theorem projLoop_no_k (st : SmartScheduler) (d : Date) (k : String) :
    ∀ (cands : List (ℚ × ProjectTable)) (slots : List Slot) (sched : QDict)
      (blocks : List TimeBlock), (∀ c ∈ cands, c.2.id ≠ k) →
      ∃ new, (projLoop st d cands slots sched blocks).1 = blocks ++ new ∧
        sumHours k new = 0 ∧
        (projLoop st d cands slots sched blocks).2.2.lookup k = sched.lookup k := by
  intro cands
  induction cands with
  | nil =>
    intro slots sched blocks hc
    exact ⟨[], by simp [projLoop_nil], rfl, rfl⟩
  | cons c rest ih =>
    obtain ⟨deficit, q⟩ := c
    intro slots sched blocks hc
    match slots with
    | [] =>
      exact ⟨[], by simp [projLoop_cons_nil], rfl, rfl⟩
    | (s, e) :: slots' =>
      rw [projLoop_cons]
      set bh := min (min (min 2 ((e - s) / 60)) (q.total_hours_allocated - q.hours_used))
        deficit with hbh
      have hqk : q.id ≠ k := hc (deficit, q) (List.mem_cons_self _ _)
      by_cases h1 : bh < 1 / 2
      · rw [if_pos h1]
        exact ih _ _ _ fun c hcm => hc c (List.mem_cons_of_mem _ hcm)
      · rw [if_neg h1]
        obtain ⟨new', hb, hs, hl⟩ :=
          ih (if (st.min_block_minutes : ℚ) ≤ e - (s + bh * 60)
              then (s + bh * 60, e) :: slots' else slots')
            (qdictAdd sched q.id bh)
            (blocks ++ [⟨.project, q.id, q.name, s, s + bh * 60, .scheduled⟩])
            (fun c hcm => hc c (List.mem_cons_of_mem _ hcm))
        refine ⟨⟨.project, q.id, q.name, s, s + bh * 60, .scheduled⟩ :: new', ?_, ?_, ?_⟩
        · rw [hb, List.append_assoc]
          rfl
        · rw [sumHours_cons, hs]
          have hbe : ((⟨.project, q.id, q.name, s, s + bh * 60, .scheduled⟩ :
              TimeBlock).task_id == k) = false := beq_eq_false_iff_ne.mpr hqk
          simp only [hbe, Bool.and_false, Bool.false_eq_true, if_false]
          norm_num
        · rw [hl, qdictAdd_lookup_other sched q.id k bh (Ne.symm hqk)]

theorem projLoop_k (st : SmartScheduler) (d : Date) (k : String) (D : ℚ) :
    ∀ (cands : List (ℚ × ProjectTable)) (slots : List Slot) (sched : QDict)
      (blocks : List TimeBlock),
      (∀ c ∈ cands, c.2.id = k → c.1 ≤ D) →
      (cands.Pairwise fun c c' => ¬ (c.2.id = k ∧ c'.2.id = k)) →
      ∃ new, (projLoop st d cands slots sched blocks).1 = blocks ++ new ∧
        0 ≤ sumHours k new ∧ sumHours k new ≤ max 0 D ∧
        ((projLoop st d cands slots sched blocks).2.2.lookup k).getD 0 =
          (sched.lookup k).getD 0 + sumHours k new := by
  intro cands
  induction cands with
  | nil =>
    intro slots sched blocks hD hpw
    exact ⟨[], by simp [projLoop_nil], le_refl 0, le_max_left 0 D,
      by simp [projLoop_nil, sumHours_nil]⟩
  | cons c rest ih =>
    obtain ⟨deficit, q⟩ := c
    intro slots sched blocks hD hpw
    have hDr : ∀ c ∈ rest, c.2.id = k → c.1 ≤ D :=
      fun c hcm => hD c (List.mem_cons_of_mem _ hcm)
    have hpwr := (List.pairwise_cons.mp hpw).2
    match slots with
    | [] =>
      exact ⟨[], by simp [projLoop_cons_nil], le_refl 0, le_max_left 0 D,
        by simp [projLoop_cons_nil, sumHours_nil]⟩
    | (s, e) :: slots' =>
      rw [projLoop_cons]
      set bh := min (min (min 2 ((e - s) / 60)) (q.total_hours_allocated - q.hours_used))
        deficit with hbh
      by_cases h1 : bh < 1 / 2
      · rw [if_pos h1]
        exact ih _ _ _ hDr hpwr
      · rw [if_neg h1]
        by_cases hqk : q.id = k
        · have hnok : ∀ c ∈ rest, c.2.id ≠ k := by
            intro c hcm hck
            exact (List.pairwise_cons.mp hpw).1 c hcm ⟨hqk, hck⟩
          obtain ⟨new2, hb, hs, hl⟩ :=
            projLoop_no_k st d k rest
              (if (st.min_block_minutes : ℚ) ≤ e - (s + bh * 60)
                then (s + bh * 60, e) :: slots' else slots')
              (qdictAdd sched q.id bh)
              (blocks ++ [⟨.project, q.id, q.name, s, s + bh * 60, .scheduled⟩]) hnok
          have hbhD : bh ≤ D := le_trans (min_le_right _ _)
            (hD (deficit, q) (List.mem_cons_self _ _) hqk)
          have hbh0 : (0 : ℚ) ≤ bh := by
            push_neg at h1
            linarith
          have hcond : ((⟨.project, q.id, q.name, s, s + bh * 60, .scheduled⟩ :
              TimeBlock).task_type == TaskType.project &&
              ((⟨.project, q.id, q.name, s, s + bh * 60, .scheduled⟩ :
                TimeBlock).task_id == k)) = true := by
            dsimp only
            rw [hqk]
            simp
          have hsum : sumHours k (⟨.project, q.id, q.name, s, s + bh * 60,
              .scheduled⟩ :: new2) = bh := by
            rw [sumHours_cons, hs, add_zero, if_pos hcond]
            dsimp only
            have he : s + bh * 60 - s = bh * 60 := by ring
            rw [he, mul_div_assoc]
            norm_num
          refine ⟨⟨.project, q.id, q.name, s, s + bh * 60, .scheduled⟩ :: new2, ?_, ?_,
            ?_, ?_⟩
          · rw [hb, List.append_assoc]
            rfl
          · rw [hsum]
            exact hbh0
          · rw [hsum]
            exact le_max_of_le_right hbhD
          · rw [hl, hsum, hqk, qdictAdd_lookup_same]
        · obtain ⟨new2, hb, h0, hmax, hl⟩ := ih
            (if (st.min_block_minutes : ℚ) ≤ e - (s + bh * 60)
              then (s + bh * 60, e) :: slots' else slots')
            (qdictAdd sched q.id bh)
            (blocks ++ [⟨.project, q.id, q.name, s, s + bh * 60, .scheduled⟩]) hDr hpwr
          have hbe : ((⟨.project, q.id, q.name, s, s + bh * 60, .scheduled⟩ :
              TimeBlock).task_id == k) = false := beq_eq_false_iff_ne.mpr hqk
          have hsum : sumHours k (⟨.project, q.id, q.name, s, s + bh * 60,
              .scheduled⟩ :: new2) = sumHours k new2 := by
            rw [sumHours_cons]
            simp only [hbe, Bool.and_false, Bool.false_eq_true, if_false, zero_add]
          refine ⟨⟨.project, q.id, q.name, s, s + bh * 60, .scheduled⟩ :: new2, ?_, ?_,
            ?_, ?_⟩
          · rw [hb, List.append_assoc]
            rfl
          · rw [hsum]
            exact h0
          · rw [hsum]
            exact hmax
          · rw [hl, hsum, qdictAdd_lookup_other sched q.id k bh (Ne.symm hqk)]

theorem schedule_projects_eq (st : SmartScheduler) (ps : List ProjectTable) (d : Date)
    (slots : List Slot) (monthly sched : QDict) :
    _schedule_projects_for_day st ps d slots monthly sched =
      projLoop st d (sortBy (fun a b => decide (b.1 ≤ a.1))
        (ps.filterMap fun project =>
          if 0 < (monthly.lookup project.id).getD 0 - (sched.lookup project.id).getD 0 ∧
              0 < project.total_hours_allocated - project.hours_used then
            some ((monthly.lookup project.id).getD 0 - (sched.lookup project.id).getD 0,
              project)
          else none))
        slots sched [] := rfl

theorem schedule_projects_k (st : SmartScheduler) (ps : List ProjectTable) (d : Date)
    (slots : List Slot) (monthly sched : QDict) (k : String)
    (hpw : ps.Pairwise fun a b => a.id ≠ b.id) :
    ∃ new, (_schedule_projects_for_day st ps d slots monthly sched).1 = new ∧
      0 ≤ sumHours k new ∧
      sumHours k new ≤ max 0 ((monthly.lookup k).getD 0 - (sched.lookup k).getD 0) ∧
      ((_schedule_projects_for_day st ps d slots monthly sched).2.2.lookup k).getD 0 =
        (sched.lookup k).getD 0 + sumHours k new := by
  rw [schedule_projects_eq]
  have hDs : ∀ c ∈ sortBy (fun a b => decide (b.1 ≤ a.1))
      (ps.filterMap fun project =>
        if 0 < (monthly.lookup project.id).getD 0 - (sched.lookup project.id).getD 0 ∧
            0 < project.total_hours_allocated - project.hours_used then
          some ((monthly.lookup project.id).getD 0 - (sched.lookup project.id).getD 0,
            project)
        else none),
      c.2.id = k → c.1 ≤ (monthly.lookup k).getD 0 - (sched.lookup k).getD 0 := by
    intro c hc hck
    rw [mem_sortBy] at hc
    rw [List.mem_filterMap] at hc
    obtain ⟨q, hq, hfq⟩ := hc
    split_ifs at hfq with hcond
    · rw [Option.some_inj] at hfq
      subst hfq
      dsimp only at hck ⊢
      rw [hck]
  have hpws : (sortBy (fun a b => decide (b.1 ≤ a.1))
      (ps.filterMap fun project =>
        if 0 < (monthly.lookup project.id).getD 0 - (sched.lookup project.id).getD 0 ∧
            0 < project.total_hours_allocated - project.hours_used then
          some ((monthly.lookup project.id).getD 0 - (sched.lookup project.id).getD 0,
            project)
        else none)).Pairwise fun c c' => ¬ (c.2.id = k ∧ c'.2.id = k) := by
    rw [(sortBy_perm _ _).pairwise_iff (fun h hc => h ⟨hc.2, hc.1⟩)]
    rw [List.pairwise_filterMap]
    refine hpw.imp_of_mem ?_
    intro a b ha hb hne x hx y hy
    split_ifs at hx hy
    · rw [Option.mem_def, Option.some_inj] at hx hy
      subst hx
      subst hy
      dsimp only
      intro hc
      exact hne (hc.1.trans hc.2.symm)
    · exact absurd hy (Option.not_mem_none y)
    · exact absurd hx (Option.not_mem_none x)
    · exact absurd hx (Option.not_mem_none x)
  obtain ⟨new, h1, h2, h3, h4⟩ := projLoop_k st d k
    ((monthly.lookup k).getD 0 - (sched.lookup k).getD 0) _ slots sched [] hDs hpws
  rw [List.nil_append] at h1
  exact ⟨new, h1, h2, h3, h4⟩

theorem alloc_lookup_notmem (c : ℚ) :
    ∀ (ps : List ProjectTable) (acc : QDict) (k : String),
      (∀ q ∈ ps, q.id ≠ k) →
      ((ps.foldl (fun allocations project =>
        (project.id, min (project.allocation_percentage / 100 * c)
          (project.total_hours_allocated - project.hours_used)) :: allocations)
        acc).lookup k) = acc.lookup k := by
  intro ps
  induction ps with
  | nil => intro acc k h; rfl
  | cons q rest ih =>
    intro acc k h
    rw [List.foldl_cons, ih _ k (fun r hr => h r (List.mem_cons_of_mem _ hr))]
    dsimp only [List.lookup]
    rw [beq_eq_false_iff_ne.mpr (Ne.symm (h q (List.mem_cons_self _ _)))]

theorem alloc_lookup_mem (c : ℚ) :
    ∀ (ps : List ProjectTable) (acc : QDict) (p : ProjectTable),
      p ∈ ps → (ps.Pairwise fun a b => a.id ≠ b.id) →
      ((ps.foldl (fun allocations project =>
        (project.id, min (project.allocation_percentage / 100 * c)
          (project.total_hours_allocated - project.hours_used)) :: allocations)
        acc).lookup p.id) =
        some (min (p.allocation_percentage / 100 * c)
          (p.total_hours_allocated - p.hours_used)) := by
  intro ps
  induction ps with
  | nil => intro acc p hp _; exact absurd hp (List.not_mem_nil p)
  | cons q rest ih =>
    intro acc p hp hnd
    rw [List.foldl_cons]
    rcases List.mem_cons.mp hp with rfl | hp
    · rw [alloc_lookup_notmem c rest _ p.id
        (fun r hr hrk => (List.pairwise_cons.mp hnd).1 r hr hrk.symm)]
      dsimp only [List.lookup]
      rw [beq_self_eq_true]
    · exact ih _ p hp (List.pairwise_cons.mp hnd).2

theorem weekday_foldl :
    ∀ (l : List Nat) (a : ℚ),
      (l.foldl (fun acc d => if d % 7 < 5 then acc + 8 else acc) a) =
        a + 8 * (((l.filter fun d => d % 7 < 5).length : ℚ)) := by
  intro l
  induction l with
  | nil => intro a; simp
  | cons d rest ih =>
    intro a
    rw [List.foldl_cons, List.filter_cons]
    by_cases h : d % 7 < 5
    · rw [if_pos h, if_pos (by exact decide_eq_true h), ih, List.length_cons]
      push_cast
      ring
    · rw [if_neg h, if_neg (by simpa using h), ih]

theorem monthly_lookup (projects : List ProjectTable) (sd ed : Date) (p : ProjectTable)
    (hp : p ∈ projects) (hnd : projects.Pairwise fun a b => a.id ≠ b.id) :
    (_calculate_project_monthly_allocations projects sd ed).lookup p.id =
      some (target_hours p sd ed) := by
  unfold _calculate_project_monthly_allocations
  dsimp only
  rw [alloc_lookup_mem _ projects [] p hp hnd]
  rw [weekday_foldl]
  unfold target_hours weekdaysIn
  rw [zero_add]

theorem sumHours_assignment_zero (k : String) {asg : List AssignmentTable} {d : Date}
    {slots : List Slot} :
    sumHours k (_schedule_assignments_for_day asg d slots).1 = 0 :=
  sumHours_eq_zero_of k _ fun tb htb => by
    rw [(schedule_assignments_shape _ _ _ tb htb).1]
    decide

theorem sumHours_household_zero (k : String) {st : SmartScheduler}
    {tasks : List HouseholdTaskTable} {d : Date} {dow : Nat} {slots : List Slot}
    {w : Bool} :
    sumHours k (_schedule_household_tasks_for_day st tasks d dow slots w).1 = 0 :=
  sumHours_eq_zero_of k _ fun tb htb => by
    rw [(schedule_household_shape _ _ _ _ _ _ tb htb).1]
    decide

theorem dayStep_k (wp ap : List ProjectTable) (asg : List AssignmentTable)
    (tasks : List HouseholdTaskTable) (events : List ExternalEventTable)
    (monthly : QDict) (acc : DayAcc) (d : Date) (k : String)
    (hwp : wp.Pairwise fun a b => a.id ≠ b.id) :
    ∃ new, (dayStep wp ap asg tasks events monthly acc d).blocks = acc.blocks ++ new ∧
      0 ≤ sumHours k new ∧
      sumHours k new ≤ max 0 ((monthly.lookup k).getD 0 -
        (acc.project_hours_scheduled.lookup k).getD 0) ∧
      ((dayStep wp ap asg tasks events monthly acc d).project_hours_scheduled.lookup
        k).getD 0 =
        (acc.project_hours_scheduled.lookup k).getD 0 + sumHours k new := by
  rcases Nat.lt_or_ge (d % 7) 5 with hw | hw
  · rw [dayStep_weekday wp ap asg tasks events monthly acc d (Nat.not_le.mpr hw)]
    dsimp only
    rw [schedule_projects_nil_monthly]
    dsimp only
    set devs := _get_events_for_day events d with hdevs
    set personal := _generate_available_slots acc.st d devs false false with hpers
    set A := _schedule_assignments_for_day asg d personal with hA
    set r1 := _remove_scheduled_blocks A.2 A.1 with hr1
    set r2 := _remove_scheduled_blocks r1 [] with hr2
    set H := _schedule_household_tasks_for_day acc.st tasks d (d % 7) r2 false with hH
    set ws := _generate_available_slots H.2.2 d devs false true with hws
    obtain ⟨Wnew, hW1, hW0, hWmax, hWl⟩ :=
      schedule_projects_k H.2.2 wp d ws monthly acc.project_hours_scheduled k hwp
    have hz : sumHours k (A.1 ++ ([] ++ (H.1 ++ Wnew))) = sumHours k Wnew := by
      rw [sumHours_append, sumHours_append, sumHours_append]
      rw [hA, sumHours_assignment_zero]
      rw [hH, sumHours_household_zero]
      rw [sumHours_nil]
      ring
    refine ⟨A.1 ++ ([] ++ (H.1 ++ Wnew)), ?_, ?_, ?_, ?_⟩
    · rw [hW1]
      simp [List.append_assoc]
    · rw [hz]
      exact hW0
    · rw [hz]
      exact hWmax
    · rw [hz]
      exact hWl
  · rw [dayStep_weekend wp ap asg tasks events monthly acc d hw]
    dsimp only
    rw [schedule_projects_nil_monthly]
    dsimp only
    set devs := _get_events_for_day events d with hdevs
    set personal := _generate_available_slots acc.st d devs true false with hpers
    set H := _schedule_household_tasks_for_day acc.st tasks d (d % 7) personal true
      with hH
    set r1 := _remove_scheduled_blocks H.2.1 H.1 with hr1
    set A := _schedule_assignments_for_day asg d r1 with hA
    set r2 := _remove_scheduled_blocks A.2 A.1 with hr2
    set r3 := _remove_scheduled_blocks r2 [] with hr3
    obtain ⟨Wnew, hW1, hW0, hWmax, hWl⟩ :=
      schedule_projects_k H.2.2 wp d r3 monthly acc.project_hours_scheduled k hwp
    have hz : sumHours k (H.1 ++ (A.1 ++ ([] ++ Wnew))) = sumHours k Wnew := by
      rw [sumHours_append, sumHours_append, sumHours_append]
      rw [hA, sumHours_assignment_zero]
      rw [hH, sumHours_household_zero]
      rw [sumHours_nil]
      ring
    refine ⟨H.1 ++ (A.1 ++ ([] ++ Wnew)), ?_, ?_, ?_, ?_⟩
    · rw [hW1]
      simp [List.append_assoc]
    · rw [hz]
      exact hW0
    · rw [hz]
      exact hWmax
    · rw [hz]
      exact hWl

theorem foldl_dayStep_k (wp ap : List ProjectTable) (asg : List AssignmentTable)
    (tasks : List HouseholdTaskTable) (events : List ExternalEventTable)
    (monthly : QDict) (k : String) (hwp : wp.Pairwise fun a b => a.id ≠ b.id) :
    ∀ (days : List Date) (acc : DayAcc),
      (acc.project_hours_scheduled.lookup k).getD 0 = sumHours k acc.blocks →
      sumHours k acc.blocks ≤ max 0 ((monthly.lookup k).getD 0) →
      sumHours k ((days.foldl (dayStep wp ap asg tasks events monthly) acc).blocks) ≤
        max 0 ((monthly.lookup k).getD 0) := by
  intro days
  induction days with
  | nil => intro acc h1 h2; exact h2
  | cons d rest ih =>
    intro acc h1 h2
    rw [List.foldl_cons]
    obtain ⟨new, hb, h0, hmax, hl⟩ := dayStep_k wp ap asg tasks events monthly acc d k hwp
    apply ih
    · rw [hl, hb, sumHours_append, h1]
    · rw [hb, sumHours_append]
      rw [h1] at hmax
      rcases le_or_lt ((monthly.lookup k).getD 0 - sumHours k acc.blocks) 0 with hc | hc
      · have hm0 : max 0 ((monthly.lookup k).getD 0 - sumHours k acc.blocks) = 0 :=
          max_eq_left hc
        rw [hm0] at hmax
        linarith
      · have hm0 : max 0 ((monthly.lookup k).getD 0 - sumHours k acc.blocks) =
            (monthly.lookup k).getD 0 - sumHours k acc.blocks :=
          max_eq_right (le_of_lt hc)
        rw [hm0] at hmax
        have := le_max_right (0 : ℚ) ((monthly.lookup k).getD 0)
        linarith

/-- C2 (amended): for a proportionally-allocated (non-academic) work project
whose id is distinct among the work projects, the cumulative scheduled hours
over the horizon never exceed `max 0 target_hours`; in particular they stay
within `target_hours + 2` whenever `target_hours ≥ -2` (the engine never
schedules past the target at all; the claim as stated fails only for a
degenerate project whose target is below `-2`). -/
theorem capacity_bound (st0 : SmartScheduler) (oracle : HouseholdTaskTable → Timing)
    (projects : List ProjectTable) (assignments : List AssignmentTable)
    (tasks : List HouseholdTaskTable) (events : List ExternalEventTable)
    (sd ed : Date) (p : ProjectTable)
    (hp : p ∈ projects) (hnp : p.source_adapter != "document_parser")
    (hids : ((projects.filter fun q => q.source_adapter != "document_parser").map
      fun q => q.id).Nodup) :
    sumHours p.id
        (generate_schedule st0 oracle projects assignments tasks events sd ed).1 ≤
      max 0 (target_hours p sd ed) ∧
    (-2 ≤ target_hours p sd ed →
      sumHours p.id
          (generate_schedule st0 oracle projects assignments tasks events sd ed).1 ≤
        target_hours p sd ed + 2) := by
  have hgen : (generate_schedule st0 oracle projects assignments tasks events sd ed).1 =
      ((List.range' sd (ed + 1 - sd)).foldl
        (dayStep (projects.filter fun q => q.source_adapter != "document_parser")
          (projects.filter fun q => q.source_adapter == "document_parser") assignments
          tasks events
          (_calculate_project_monthly_allocations
            (projects.filter fun q => q.source_adapter != "document_parser") sd ed))
        ⟨[], tasks.foldl (fun s task =>
            if (s.task_timing_cache.lookup task.id).isSome then s
            else { s with task_timing_cache := (task.id, oracle task) ::
              s.task_timing_cache }) st0, []⟩).blocks := rfl
  have hpw : (projects.filter fun q => q.source_adapter != "document_parser").Pairwise
      fun a b => a.id ≠ b.id := List.pairwise_map.mp hids
  have hml := monthly_lookup
    (projects.filter fun q => q.source_adapter != "document_parser") sd ed p
    (List.mem_filter.mpr ⟨hp, hnp⟩) hpw
  have hbound := foldl_dayStep_k
    (projects.filter fun q => q.source_adapter != "document_parser")
    (projects.filter fun q => q.source_adapter == "document_parser") assignments tasks
    events
    (_calculate_project_monthly_allocations
      (projects.filter fun q => q.source_adapter != "document_parser") sd ed)
    p.id hpw (List.range' sd (ed + 1 - sd))
    ⟨[], tasks.foldl (fun s task =>
        if (s.task_timing_cache.lookup task.id).isSome then s
        else { s with task_timing_cache := (task.id, oracle task) ::
          s.task_timing_cache }) st0, []⟩
    rfl (by rw [sumHours_nil]; exact le_max_left 0 _)
  rw [← hgen, hml] at hbound
  simp only [Option.getD_some] at hbound
  refine ⟨hbound, fun hT => ?_⟩
  rcases le_total 0 (target_hours p sd ed) with hc | hc
  · rw [max_eq_right hc] at hbound
    linarith
  · rw [max_eq_left hc] at hbound
    linarith

theorem capacity_bound_witness :
    sumHours c1_project.id
        (generate_schedule schedulerDefault oracleDefault [c1_project] [] [] [] 0 0).1 ≤
      max 0 (target_hours c1_project 0 0) ∧
    (-2 ≤ target_hours c1_project 0 0 →
      sumHours c1_project.id
          (generate_schedule schedulerDefault oracleDefault [c1_project] [] [] [] 0
            0).1 ≤
        target_hours c1_project 0 0 + 2) :=
  capacity_bound schedulerDefault oracleDefault [c1_project] [] [] [] 0 0 c1_project
    (by simp) (by with_unfolding_all rfl) (by decide)

end ScheduleHelper
